import Mathlib

/-!
# rapidcache: a sharded key/value cache with time-based expiry

A shallow embedding of `cache.h` / `cache.c`.

Conventions of the embedding

* A C string (`const char*`) is the list of its `char` values before the
  terminating NUL; `strcmp(a, b) == 0` is equality of those lists.
* A byte buffer (`void*`) is the list of the bytes it holds; a nullable
  buffer pointer is an `Option`.
* A collision chain (`cache_node_t*` linked through `next`) is the list of
  its nodes, head first; `NULL` is the empty list.
* An array is a list; the C `length` fields that describe the arrays are
  kept as separate fields, and reading an array outside the list is the
  fault `Fault.undefined`.
* `time(NULL)` is an explicit argument `now`; one value is used for a whole
  call of an operation or of a maintenance pass. `time_t` is an unbounded
  integer: the sum `time(NULL) + cache_second` does not overflow.
* The outcome of every lock acquisition is an explicit boolean argument
  (`true`: the pthread call returned 0).
* `exit(1)` reached through the `panic` macro is the fault `Fault.panic`,
  which carries the message.
  Allocation failure is not modelled (allocation always succeeds).
* `uint32_t` arithmetic that can wrap is written with an explicit
  `% 2 ^ 32`.
-/

namespace RapidCache

/-! ## Data model (cache.h) -/

/-- The messages with which `cache.c` calls its `panic` and `panic_ext`
macros (exhaustion of memory apart). -/
inductive PanicMsg where
  /-- The message of `_must_auto_realloc`: realloc panic: is memory run out of? -/
  | realloc_failed
  /-- The message of `_find_pos`: hasher produces invalid position. -/
  | hasher_invalid_position
  /-- The message of `_copy_node_data`: destination pointer is not allocated. -/
  | destination_not_allocated
  deriving DecidableEq, Repr

/-- Ways in which a call does not return to its caller. -/
inductive Fault where
  /-- The `panic` macro ran: message on stderr, then `exit(1)`. -/
  | panic (msg : PanicMsg)
  /-- Undefined behaviour in C: an array read or written outside its
  allocation, or a call through a NULL function pointer. -/
  | undefined
  deriving DecidableEq, Repr

/-- A key: the `char` values of a NUL-terminated C string, NUL excluded. -/
abbrev Key := List Int

/-- The bytes held by a buffer. -/
abbrev Bytes := List Nat

/-- The type `hasher_t`: `uint32_t (*)(const char* key, uint32_t max_len)`. -/
abbrev hasher_t := Key → Nat → Nat

/-- The type `expander_t`: `bool (*)(uint32_t length, uint32_t size)`. -/
abbrev expander_t := Nat → Nat → Bool

/-- The struct `cache_node_t`, without its `next` link (a chain is a list). -/
structure cache_node_t where
  key : Key
  data : Bytes
  size : Nat
  expr : Int
  deriving DecidableEq, Repr

/-- A collision chain: the nodes reached from a bucket head through `next`. -/
abbrev Chain := List cache_node_t

/-- The struct `cache_map_t` (one shard). The per-bucket locks carry no data
and are represented by the lock outcomes passed to the operations. -/
structure cache_map_t where
  nodes : List Chain
  length : Nat
  size : Nat
  deriving DecidableEq, Repr

/-- The struct `config_t`. The two function pointers may be NULL. -/
structure config_t where
  map_num : Nat
  map_init_len : Nat
  cache_second : Nat
  sweep_second : Nat
  expand_second : Nat
  hasher : Option hasher_t
  expander : Option expander_t

/-- The struct `cache_t`. -/
structure cache_t where
  config : config_t
  cache_maps : List cache_map_t

def DEFAULT_MAP_NUM : Nat := 128
def DEFAULT_MAP_INIT_LEN : Nat := 1024
def DEFAULT_CACHE_SECONDS : Nat := 60
def DEFAULT_SWEEP_SECONDS : Nat := 150
def DEFAULT_EXPAND_SECONDS : Nat := 300

/-! ## libc primitives -/

/-- The call `memset(buf, v, n)`: the first `n` bytes of `buf` become `v`. -/
def memset (buf : Bytes) (v : Nat) (n : Nat) : Bytes :=
  List.replicate n v ++ buf.drop n

/-- The call `memcpy(dst, src, n)`: the first `n` bytes of `dst` become the
first `n` bytes of `src`. The C contract wants both buffers to hold at
least `n` bytes. -/
def memcpy (dst : Bytes) (src : Bytes) (n : Nat) : Bytes :=
  src.take n ++ dst.drop n

/-- The helper `_must_auto_malloc(size)`: a fresh zeroed buffer. -/
def must_auto_malloc (size : Nat) : Bytes :=
  memset (List.replicate size 0) 0 size

/-- The call `realloc(ptr, size)` on an allocated block `ptr`, as glibc
implements it: with `size == 0` the block is freed and NULL is returned
(`none`); otherwise the block keeps its leading bytes and has `size` bytes
(the added bytes, indeterminate in C, are 0 here; the one caller clears the
whole block at once). Memory is taken not to run out, as for `malloc`, and
`malloc(0)` returns a block, so that only `realloc` has a NULL result here. -/
def realloc (ptr : Bytes) (size : Nat) : Option Bytes :=
  if size = 0 then none
  else some (ptr.take size ++ List.replicate (size - ptr.length) 0)

/-- The helper `_must_auto_realloc(ptr, size)`: the block is resized, the
call panics when `realloc` returned NULL, and the new block is cleared over
its whole size. -/
def must_auto_realloc (ptr : Bytes) (size : Nat) : Except Fault Bytes :=
  match realloc ptr size with
  | none => .error (.panic .realloc_failed)
  | some p => .ok (memset p 0 size)

/-! ## Hashing and expansion policy -/

/-- The loop of `default_hasher`: `hash += (hash << 5) + (*key++)` in
`uint32_t` arithmetic, for each character of the key. -/
def default_hasher_loop (hash : Nat) : Key → Nat
  | [] => hash
  | c :: key =>
    let shifted : Nat := (hash * 2 ^ 5) % 2 ^ 32
    let addend : Int := ((shifted : Int) + c) % 2 ^ 32
    default_hasher_loop ((((hash : Int) + addend) % 2 ^ 32).toNat) key

/-- The function `default_hasher` (DJB hash). For `max_len = 0` the C
remainder is undefined; here it is the masked hash itself. -/
def default_hasher (key : Key) (max_len : Nat) : Nat :=
  (default_hasher_loop 5381 key &&& 0x7FFFFFFF) % max_len

/-- The function `default_expander`: `size > 2 * length` in `uint32_t`. -/
def default_expander (length : Nat) (size : Nat) : Bool :=
  decide (size > (2 * length) % 2 ^ 32)

/-- The function `_find_pos`. -/
def _find_pos (hasher : hasher_t) (key : Key) (max_len : Nat) : Except Fault Nat :=
  let pos := hasher key max_len
  if pos ≥ max_len then .error (.panic .hasher_invalid_position) else .ok pos

/-! ## Nodes and chains -/

/-- The function `_new_node`: a zeroed node with zeroed key and data buffers
of the asked sizes (a zeroed key buffer reads as the empty string). -/
def _new_node (_key_size : Nat) (data_size : Nat) : cache_node_t :=
  { key := [], data := must_auto_malloc data_size, size := 0, expr := 0 }

/-- The function `_copy_node_data`; the result is the content of `dst`
afterwards. -/
def _copy_node_data (node : cache_node_t) (dst : Option Bytes) (dst_size : Nat) :
    Except Fault Bytes :=
  match dst with
  | none => .error (.panic .destination_not_allocated)
  | some buf => .ok (memcpy buf node.data (if dst_size < node.size then dst_size else node.size))

/-- The function `_valid_node`. -/
def _valid_node (node : cache_node_t) (now : Int) : Bool :=
  decide (node.expr ≤ 0) || decide (now ≤ node.expr)

/-- The function `_traverse_copy_node`; returns the found flag and the
content of `dst` afterwards. -/
def _traverse_copy_node (node : Chain) (now : Int) (key : Key) (dst : Option Bytes)
    (dst_size : Nat) : Except Fault (Bool × Option Bytes) :=
  match node with
  | [] => .ok (false, dst)
  | n :: next =>
    if !_valid_node n now || n.key ≠ key then
      _traverse_copy_node next now key dst dst_size
    else
      match _copy_node_data n dst dst_size with
      | .error e => .error e
      | .ok buf => .ok (true, some buf)

/-! ## Construction -/

/-- One shard as built by the inner part of `new_cache`. -/
def new_map (map_init_len : Nat) : cache_map_t :=
  { length := map_init_len, size := 0, nodes := List.replicate map_init_len [] }

/-- The configuration stored by `new_cache`. -/
def new_config (conf : Option config_t) : config_t :=
  { map_num :=
      match conf with
      | some c => if c.map_num > 0 then c.map_num else DEFAULT_MAP_NUM
      | none => DEFAULT_MAP_NUM
    map_init_len :=
      match conf with
      | some c => if c.map_init_len > 0 then c.map_init_len else DEFAULT_MAP_INIT_LEN
      | none => DEFAULT_MAP_INIT_LEN
    cache_second :=
      match conf with
      | some c => if c.cache_second > 0 then c.cache_second else DEFAULT_CACHE_SECONDS
      | none => DEFAULT_CACHE_SECONDS
    sweep_second :=
      match conf with
      | some c => if c.sweep_second > 0 then c.sweep_second else DEFAULT_SWEEP_SECONDS
      | none => DEFAULT_SWEEP_SECONDS
    expand_second :=
      match conf with
      | some c => if c.expand_second > 0 then c.expand_second else DEFAULT_EXPAND_SECONDS
      | none => DEFAULT_EXPAND_SECONDS
    hasher :=
      match conf with
      | some c => (match c.hasher with | some h => some h | none => some default_hasher)
      | none => some default_hasher
    expander :=
      match conf with
      | some c => (match c.expander with | some e => some e | none => some default_expander)
      | none => some default_expander }

/-- The function `new_cache`; `conf = none` is the NULL argument. -/
def new_cache (conf : Option config_t) : cache_t :=
  let config := new_config conf
  { config := config
    cache_maps := List.replicate config.map_num (new_map config.map_init_len) }

/-! ## Lookup -/

/-- The function `cache_get`. The two booleans say whether
`pthread_rwlock_tryrdlock` succeeded on the shard lock and on the bucket
lock. Returns the found flag and the content of `dst` afterwards. -/
def cache_get (cache : cache_t) (key : Key) (dst : Option Bytes) (dst_size : Nat)
    (now : Int) (map_lock_ok node_lock_ok : Bool) : Except Fault (Bool × Option Bytes) :=
  match cache.config.hasher with
  | none => .error .undefined
  | some hasher =>
    match _find_pos hasher key cache.config.map_num with
    | .error e => .error e
    | .ok mappos =>
      if !map_lock_ok then .ok (false, dst)
      else
        match cache.cache_maps[mappos]? with
        | none => .error .undefined
        | some map =>
          match _find_pos hasher key map.length with
          | .error e => .error e
          | .ok nodepos =>
            if !node_lock_ok then .ok (false, dst)
            else
              match map.nodes[nodepos]? with
              | none => .error .undefined
              | some node => _traverse_copy_node node now key dst dst_size

/-- The function `cache_get_block`: as `cache_get`, the locks being taken
with the blocking `pthread_rwlock_rdlock`. -/
def cache_get_block (cache : cache_t) (key : Key) (dst : Option Bytes) (dst_size : Nat)
    (now : Int) (map_lock_ok node_lock_ok : Bool) : Except Fault (Bool × Option Bytes) :=
  match cache.config.hasher with
  | none => .error .undefined
  | some hasher =>
    match _find_pos hasher key cache.config.map_num with
    | .error e => .error e
    | .ok mappos =>
      if !map_lock_ok then .ok (false, dst)
      else
        match cache.cache_maps[mappos]? with
        | none => .error .undefined
        | some map =>
          match _find_pos hasher key map.length with
          | .error e => .error e
          | .ok nodepos =>
            if !node_lock_ok then .ok (false, dst)
            else
              match map.nodes[nodepos]? with
              | none => .error .undefined
              | some node => _traverse_copy_node node now key dst dst_size

/-! ## Insertion and update -/

/-- The update loop of `cache_set`: walks the chain to the first node whose
key matches and rewrites its data, size and expiry; `none` when the loop
ends with `updated == false`, a fault when `must_auto_realloc` panics. -/
def set_update (key : Key) (src : Bytes) (src_size : Nat) (expr : Int) :
    Chain → Except Fault (Option Chain)
  | [] => .ok none
  | p :: next =>
    if p.key = key then
      if p.size ≠ src_size then
        match must_auto_realloc p.data src_size with
        | .error e => .error e
        | .ok data =>
          .ok (some ({ p with
                       data := memcpy data src src_size
                       size := src_size
                       expr := expr } :: next))
      else
        .ok (some ({ p with
                     data := memcpy (memset p.data 0 p.size) src p.size
                     expr := expr } :: next))
    else
      match set_update key src src_size expr next with
      | .error e => .error e
      | .ok none => .ok none
      | .ok (some next2) => .ok (some (p :: next2))

/-- The function `cache_set`. The two booleans say whether the blocking
lock calls succeeded on the shard lock and on the bucket lock. Returns the
cache afterwards and the returned flag. -/
def cache_set (cache : cache_t) (key : Key) (src : Bytes) (src_size : Nat)
    (now : Int) (map_lock_ok node_lock_ok : Bool) : Except Fault (cache_t × Bool) :=
  match cache.config.hasher with
  | none => .error .undefined
  | some hasher =>
    match _find_pos hasher key cache.config.map_num with
    | .error e => .error e
    | .ok mappos =>
      if !map_lock_ok then .ok (cache, false)
      else
        match cache.cache_maps[mappos]? with
        | none => .error .undefined
        | some map =>
          match _find_pos hasher key map.length with
          | .error e => .error e
          | .ok nodepos =>
            if !node_lock_ok then .ok (cache, false)
            else
              match map.nodes[nodepos]? with
              | none => .error .undefined
              | some root =>
                let expr : Int := now + (cache.config.cache_second : Int)
                match set_update key src src_size expr root with
                | .error e => .error e
                | .ok updated =>
                  let map2 : cache_map_t :=
                    match updated with
                    | some chain => { map with nodes := map.nodes.set nodepos chain }
                    | none =>
                      let fresh := _new_node (key.length + 1) src_size
                      let node : cache_node_t :=
                        { fresh with
                          key := key
                          data := memcpy fresh.data src src_size
                          expr := expr
                          size := src_size }
                      { map with
                        nodes := map.nodes.set nodepos (node :: root)
                        size := (map.size + 1) % 2 ^ 32 }
                  .ok ({ cache with cache_maps := cache.cache_maps.set mappos map2 }, true)

/-! ## Cleaner (background sweep) -/

/-- The test `expr > 0 && now > expr` used by the cleaner. -/
def expired (node : cache_node_t) (now : Int) : Bool :=
  decide (node.expr > 0) && decide (now > node.expr)

/-- The first loop of the cleaner on one bucket ("clean the following
nodes first"): `node` walks the chain; when the successor of `node` is
expired it is unlinked, and in both cases `node` then moves to its (new)
successor. The head of the chain is never examined here. -/
def sweep_following (now : Int) : Chain → Chain
  | [] => []
  | [node] => [node]
  | node :: next_node :: rest =>
    if expired next_node now then node :: sweep_following now rest
    else node :: sweep_following now (next_node :: rest)

/-- The body of the cleaner for one locked bucket: the loop over the
following nodes, then the head ("clean the head node last"): when the head
is expired it is freed and the bucket is set to NULL. -/
def sweep_bucket (now : Int) (chain : Chain) : Chain :=
  match sweep_following now chain with
  | [] => []
  | head :: rest => if expired head now then [] else head :: rest

/-- The loop `for (j = 0; j < map->length; ++j)` of the cleaner, from index
`j` for `n` more rounds. A bucket whose lock is not acquired is skipped. -/
def sweep_buckets (now : Int) (node_lock_ok : Nat → Bool) :
    Nat → Nat → List Chain → Except Fault (List Chain)
  | 0, _, nodes => .ok nodes
  | n + 1, j, nodes =>
    match nodes[j]? with
    | none => .error .undefined
    | some node =>
      if !node_lock_ok j then sweep_buckets now node_lock_ok n (j + 1) nodes
      else sweep_buckets now node_lock_ok n (j + 1) (nodes.set j (sweep_bucket now node))

/-- The loop `for (i = 0; i < map_num; ++i)` of the cleaner, from index `i`
for `n` more rounds. A shard whose lock is not acquired is skipped. -/
def sweep_maps (now : Int) (map_lock_ok : Nat → Bool) (node_lock_ok : Nat → Nat → Bool) :
    Nat → Nat → List cache_map_t → Except Fault (List cache_map_t)
  | 0, _, maps => .ok maps
  | n + 1, i, maps =>
    if !map_lock_ok i then sweep_maps now map_lock_ok node_lock_ok n (i + 1) maps
    else
      match maps[i]? with
      | none => .error .undefined
      | some map =>
        match sweep_buckets now (node_lock_ok i) map.length 0 map.nodes with
        | .error e => .error e
        | .ok nodes =>
          sweep_maps now map_lock_ok node_lock_ok n (i + 1)
            (maps.set i { map with nodes := nodes })

/-- The function `_cleaner_thread` (one pass). `map_lock_ok i` and
`node_lock_ok i j` say whether the lock of shard `i`, and of bucket `j` of
shard `i`, was acquired. -/
def _cleaner_thread (cache : cache_t) (now : Int) (map_lock_ok : Nat → Bool)
    (node_lock_ok : Nat → Nat → Bool) : Except Fault cache_t :=
  match sweep_maps now map_lock_ok node_lock_ok cache.config.map_num 0 cache.cache_maps with
  | .error e => .error e
  | .ok maps => .ok { cache with cache_maps := maps }

/-! ## Expander (background resize) -/

/-- Tail insertion in `_cache_map_expand`: an empty bucket takes the node as
head, otherwise the chain is walked to its last node and the node linked
after it. -/
def tail_insert (new_node : cache_node_t) : Chain → Chain
  | [] => [new_node]
  | p :: next => p :: tail_insert new_node next

/-- The inner loop `while (node != NULL)` of `_cache_map_expand`: every node
of one old chain is copied, given the expiry `now + cache_second`, and
tail-inserted in the bucket of the new shard that `_find_pos` selects. -/
def expand_chain (hasher : Option hasher_t) (cache_second : Nat) (now : Int) :
    Chain → cache_map_t → Except Fault cache_map_t
  | [], map => .ok map
  | node :: next, map =>
    let fresh := _new_node (node.key.length + 1) node.size
    let new_node : cache_node_t :=
      { fresh with
        key := node.key
        data := memcpy fresh.data node.data node.size
        expr := now + (cache_second : Int)
        size := node.size }
    match hasher with
    | none => .error .undefined
    | some h =>
      match _find_pos h new_node.key map.length with
      | .error e => .error e
      | .ok new_pos =>
        match map.nodes[new_pos]? with
        | none => .error .undefined
        | some chain =>
          expand_chain hasher cache_second now next
            { map with nodes := map.nodes.set new_pos (tail_insert new_node chain) }

/-- The loop `for (i = 0; i < origin->length; ++i)` of `_cache_map_expand`,
from index `i` for `n` more rounds. -/
def expand_buckets (hasher : Option hasher_t) (cache_second : Nat) (now : Int)
    (origin_nodes : List Chain) : Nat → Nat → cache_map_t → Except Fault cache_map_t
  | 0, _, map => .ok map
  | n + 1, i, map =>
    match origin_nodes[i]? with
    | none => .error .undefined
    | some node =>
      match expand_chain hasher cache_second now node map with
      | .error e => .error e
      | .ok map2 => expand_buckets hasher cache_second now origin_nodes n (i + 1) map2

/-- The function `_cache_map_expand`: a shard of twice the length (in
`uint32_t`) with the same size counter and empty buckets, into which the
nodes of the old shard are copied bucket by bucket. -/
def _cache_map_expand (cache : cache_t) (origin : cache_map_t) (now : Int) :
    Except Fault cache_map_t :=
  let length := (origin.length * 2) % 2 ^ 32
  let map : cache_map_t :=
    { length := length, size := origin.size, nodes := List.replicate length [] }
  expand_buckets cache.config.hasher cache.config.cache_second now origin.nodes
    origin.length 0 map

/-- The loop `for (i = 0; i < map_num; ++i)` of `_expand_thread`, from index
`i` for `n` more rounds. A shard whose lock is not acquired is skipped. -/
def expand_maps (cache : cache_t) (now : Int) (map_lock_ok : Nat → Bool) :
    Nat → Nat → List cache_map_t → Except Fault (List cache_map_t)
  | 0, _, maps => .ok maps
  | n + 1, i, maps =>
    if !map_lock_ok i then expand_maps cache now map_lock_ok n (i + 1) maps
    else
      match maps[i]? with
      | none => .error .undefined
      | some origin_map =>
        match cache.config.expander with
        | none => .error .undefined
        | some expander =>
          if expander origin_map.length origin_map.size then
            match _cache_map_expand cache origin_map now with
            | .error e => .error e
            | .ok map => expand_maps cache now map_lock_ok n (i + 1) (maps.set i map)
          else expand_maps cache now map_lock_ok n (i + 1) maps

/-- The function `_expand_thread` (one pass). `map_lock_ok i` says whether
the write lock of shard `i` was acquired. -/
def _expand_thread (cache : cache_t) (now : Int) (map_lock_ok : Nat → Bool) :
    Except Fault cache_t :=
  match expand_maps cache now map_lock_ok cache.config.map_num 0 cache.cache_maps with
  | .error e => .error e
  | .ok maps => .ok { cache with cache_maps := maps }

/-! ## Well-formed states -/

/-- The array of a shard has as many buckets as its `length` field says. -/
def map_wf (m : cache_map_t) : Prop :=
  m.nodes.length = m.length

instance (m : cache_map_t) : Decidable (map_wf m) := by
  unfold map_wf; infer_instance

/-- The representation invariant of `cache_t`: the shard array has `map_num`
entries, every shard array has `length` buckets, and the two function
pointers of the stored configuration are not NULL. -/
def cache_wf (c : cache_t) : Prop :=
  c.cache_maps.length = c.config.map_num ∧
  (∀ m ∈ c.cache_maps, map_wf m) ∧
  c.config.hasher.isSome = true ∧
  c.config.expander.isSome = true

instance (c : cache_t) : Decidable (cache_wf c) := by
  unfold cache_wf; infer_instance

/-- The chain in which `key` is looked up and stored: bucket
`hasher(key, length)` of shard `hasher(key, map_num)`; `none` when there is
no hasher or one of the two indices falls outside its array. -/
def bucket_of (c : cache_t) (key : Key) : Option Chain :=
  match c.config.hasher with
  | none => none
  | some hasher =>
    match c.cache_maps[hasher key c.config.map_num]? with
    | none => none
    | some map => map.nodes[hasher key map.length]?

/-- The hasher is in range for `key`: its shard index is below `map_num` and
inside the shard array, and its bucket index is below the `length` of the
selected shard and inside the bucket array of that shard. -/
def hasher_in_range (c : cache_t) (key : Key) : Prop :=
  match c.config.hasher with
  | none => False
  | some hasher =>
    hasher key c.config.map_num < c.config.map_num ∧
    match c.cache_maps[hasher key c.config.map_num]? with
    | none => False
    | some map =>
      hasher key map.length < map.length ∧ hasher key map.length < map.nodes.length

instance (c : cache_t) (key : Key) : Decidable (hasher_in_range c key) := by
  unfold hasher_in_range
  split
  · infer_instance
  · split <;> infer_instance

/-! ## Reachable states -/

/-- States reached from `new_cache` by calls of `cache_set` and passes of the
cleaner and of the expander that return, executed one after the other, at
any times and under any lock outcomes. -/
inductive Reachable : cache_t → Prop where
  | init (conf : Option config_t) : Reachable (new_cache conf)
  | set {c c2 : cache_t} (key : Key) (src : Bytes) (src_size : Nat) (now : Int)
      (l1 l2 ret : Bool) :
      Reachable c → cache_set c key src src_size now l1 l2 = .ok (c2, ret) → Reachable c2
  | clean {c c2 : cache_t} (now : Int) (mok : Nat → Bool) (nok : Nat → Nat → Bool) :
      Reachable c → _cleaner_thread c now mok nok = .ok c2 → Reachable c2
  | expand {c c2 : cache_t} (now : Int) (mok : Nat → Bool) :
      Reachable c → _expand_thread c now mok = .ok c2 → Reachable c2

/-- Steps that neither write key `k` nor resize: `Quiet k c c2` holds when
`c2` is reached from `c` by calls of `cache_set` on keys other than `k` and
passes of the cleaner, at any times and under any lock outcomes. -/
inductive Quiet (k : Key) : cache_t → cache_t → Prop where
  | refl (c : cache_t) : Quiet k c c
  | set {c c1 c2 : cache_t} (key : Key) (src : Bytes) (src_size : Nat) (now : Int)
      (l1 l2 ret : Bool) :
      Quiet k c c1 → key ≠ k → cache_set c1 key src src_size now l1 l2 = .ok (c2, ret) →
      Quiet k c c2
  | clean {c c1 c2 : cache_t} (now : Int) (mok : Nat → Bool) (nok : Nat → Nat → Bool) :
      Quiet k c c1 → _cleaner_thread c1 now mok nok = .ok c2 → Quiet k c c2

/-! ## Specification of lookup and update

Functions that say, in terms of lists, what the lookup selects and what
`cache_set` leaves; the theorems relate them to the embedded code. -/

/-- The node that a lookup selects: the first node of the chain that is
valid at `now` and whose key is `key`. -/
def first_match (chain : Chain) (now : Int) (key : Key) : Option cache_node_t :=
  chain.find? (fun n => _valid_node n now && decide (n.key = key))

/-- The node that the update branch of `cache_set` leaves in place of a
node `p` whose key matched, when `must_auto_realloc` returns: a zeroed block
of the new size is filled from `src`. -/
def updated_node (p : cache_node_t) (src : Bytes) (src_size : Nat) (expr : Int) :
    cache_node_t :=
  if p.size ≠ src_size then
    { p with
      data := memcpy (List.replicate src_size 0) src src_size
      size := src_size
      expr := expr }
  else
    { p with
      data := memcpy (memset p.data 0 p.size) src p.size
      expr := expr }

/-- The node that the insertion branch of `cache_set` links at the head. -/
def inserted_node (key : Key) (src : Bytes) (src_size : Nat) (expr : Int) : cache_node_t :=
  { key := key, data := src.take src_size, size := src_size, expr := expr }

/-- The chain in which the first node with the key is replaced by its
`updated_node`; `none` when no node of the chain has the key. -/
def update_chain (key : Key) (src : Bytes) (src_size : Nat) (expr : Int) :
    Chain → Option Chain
  | [] => none
  | p :: next =>
    if p.key = key then some (updated_node p src src_size expr :: next)
    else
      match update_chain key src src_size expr next with
      | none => none
      | some next2 => some (p :: next2)

/-- The update loop of `cache_set` reaches `realloc(p->data, 0)`: the first
node of the chain with the key has a size other than `src_size`, and
`src_size` is 0. -/
def realloc_fault (root : Chain) (key : Key) (src_size : Nat) : Prop :=
  match root.find? (fun p => decide (p.key = key)) with
  | none => False
  | some p => p.size ≠ src_size ∧ src_size = 0

instance (root : Chain) (key : Key) (src_size : Nat) :
    Decidable (realloc_fault root key src_size) := by
  unfold realloc_fault
  split <;> infer_instance

/-- The chain that `cache_set` leaves in the bucket whose chain was `root`,
when it returns. -/
def set_chain (key : Key) (src : Bytes) (src_size : Nat) (expr : Int) (root : Chain) :
    Chain :=
  match update_chain key src src_size expr root with
  | some chain => chain
  | none => inserted_node key src src_size expr :: root

/-- The shard that `cache_set` leaves in place of `map` when the bucket at
`nodepos` held `root`. -/
def set_map (map : cache_map_t) (nodepos : Nat) (k : Key) (src : Bytes) (n : Nat)
    (e : Int) (root : Chain) : cache_map_t :=
  { map with
    nodes := map.nodes.set nodepos (set_chain k src n e root)
    size := if update_chain k src n e root = none then (map.size + 1) % 2 ^ 32 else map.size }

/-- The range check of `_find_pos` fails during a lookup or a write of `key`:
the shard index is not below `map_num`, or the shard lock was acquired (the
bucket index is computed only then) and the bucket index is not below the
`length` of the selected shard. -/
def range_fault (c : cache_t) (hasher : hasher_t) (key : Key) (map_lock_ok : Bool) : Prop :=
  c.config.map_num ≤ hasher key c.config.map_num ∨
  (map_lock_ok = true ∧ ∃ map, c.cache_maps[hasher key c.config.map_num]? = some map ∧
    map.length ≤ hasher key map.length)

/-- The value that the specification gives to a numeric configuration
field: the supplied value when a configuration is supplied and the value is
positive, otherwise the default. -/
def supplied_or_default (conf : Option config_t) (field : config_t → Nat) (dflt : Nat) : Nat :=
  match conf with
  | none => dflt
  | some cf => if 0 < field cf then field cf else dflt

/-- The function pointer that the specification gives to a configuration
field: the supplied one when a configuration is supplied and the pointer is
not NULL, otherwise the default. -/
def supplied_or_default_fn {α : Type} (conf : Option config_t) (field : config_t → Option α)
    (dflt : α) : α :=
  match conf with
  | none => dflt
  | some cf =>
    match field cf with
    | none => dflt
    | some f => f

/-! ## Relations between states and invariants -/

/-- Two lists of equal length whose entries at equal indices are related. -/
def pointwise {α : Type} (R : α → α → Prop) (l l2 : List α) : Prop :=
  l2.length = l.length ∧ ∀ (j : Nat) (a b : α), l[j]? = some a → l2[j]? = some b → R a b

/-- A chain obtained from another by removing nodes. -/
def shrinks (chain chain2 : Chain) : Prop := chain2.Sublist chain

/-- A shard obtained from another by removing nodes from its chains. -/
def map_shrinks (m m2 : cache_map_t) : Prop :=
  m2.length = m.length ∧ m2.size = m.size ∧ pointwise shrinks m.nodes m2.nodes

/-- The keys of a chain, head first. -/
def chain_keys (chain : Chain) : List Key :=
  chain.map (·.key)

/-- Uniqueness and placement in one chain: no two nodes of the chain have
the same key, and every key of the chain hashes to the bucket index `j`
under the shard length `len`. -/
def chain_inv (h : hasher_t) (len j : Nat) (chain : Chain) : Prop :=
  (chain_keys chain).Nodup ∧ ∀ key ∈ chain_keys chain, h key len = j

/-- Invariant of one shard at index `i`: the bucket array has `length`
entries, every chain satisfies `chain_inv` for its index, and every key of
the shard hashes to `i` under the number of shards. -/
def map_inv (h : hasher_t) (map_num i : Nat) (m : cache_map_t) : Prop :=
  m.nodes.length = m.length ∧
  ∀ (j : Nat) (chain : Chain), m.nodes[j]? = some chain →
    chain_inv h m.length j chain ∧ ∀ key ∈ chain_keys chain, h key map_num = i

/-- Invariant of the reachable states. -/
def cache_inv (c : cache_t) : Prop :=
  ∃ h e, c.config.hasher = some h ∧ c.config.expander = some e ∧
    0 < c.config.cache_second ∧
    c.cache_maps.length = c.config.map_num ∧
    ∀ (i : Nat) (m : cache_map_t), c.cache_maps[i]? = some m → map_inv h c.config.map_num i m

/-- Every node with key `k` in the bucket of `k` has expiry `e`, the hasher
being in range for `k`. -/
def all_expire_at (c : cache_t) (k : Key) (e : Int) : Prop :=
  ∃ h map chain, c.config.hasher = some h ∧
    h k c.config.map_num < c.config.map_num ∧
    c.cache_maps[h k c.config.map_num]? = some map ∧
    h k map.length < map.length ∧
    map.nodes[h k map.length]? = some chain ∧
    ∀ nd ∈ chain, nd.key = k → nd.expr = e

/-- The copy that `_cache_map_expand` makes of a node: same key and size,
the first `size` bytes of the data, expiry `now + cache_second`. -/
def refresh (cache_second : Nat) (now : Int) (node : cache_node_t) : cache_node_t :=
  { key := node.key, data := node.data.take node.size, size := node.size,
    expr := now + (cache_second : Int) }

/-- The nodes of a list that `hasher` sends to bucket `j` of a shard of
length `len`, copied by `refresh`, in the order of the list. -/
def moved (h : hasher_t) (cache_second : Nat) (now : Int) (len j : Nat)
    (nodes : List cache_node_t) : Chain :=
  (nodes.filter (fun nd => decide (h nd.key len = j))).map (refresh cache_second now)

/-- The relation between a shard before and after a round of the expander
loop: unchanged, or replaced by its expansion. -/
def expanded_or_same (c : cache_t) (now : Int) (m m2 : cache_map_t) : Prop :=
  m2 = m ∨ _cache_map_expand c m now = .ok m2

/-! ## Concrete configurations and states -/

/-- A small configuration: two shards of two buckets, entries kept for ten
seconds, default hasher and expander. -/
def demo_conf : config_t :=
  { map_num := 2, map_init_len := 2, cache_second := 10, sweep_second := 0,
    expand_second := 0, hasher := none, expander := none }

/-- The cache built from `demo_conf`. -/
def demo_cache : cache_t := new_cache (some demo_conf)

/-- The key of the demo driver, the string haha. -/
def haha : Key := [104, 97, 104, 97]

/-- The value hehe of the demo driver. -/
def hehe : Bytes := [104, 101, 104, 101]

/-- The value hohoho of the demo driver. -/
def hohoho : Bytes := [104, 111, 104, 111, 104, 111]

/-- The demo cache after `cache_set(haha, hohoho, 6)` at time 0. -/
def demo_cache_hohoho : cache_t :=
  match cache_set demo_cache haha hohoho 6 0 true true with
  | .ok (c, _) => c
  | .error _ => demo_cache

/-- The node stored by `cache_set(haha, hohoho, 6)` at time 0 with a
lifetime of ten seconds. -/
def hohoho_node : cache_node_t :=
  { key := haha, data := hohoho, size := 6, expr := 10 }

/-- A hasher that is in range for one shard and out of range for the two
buckets of that shard. -/
def skew_hasher : hasher_t := fun _ m => if m = 1 then 0 else 7

/-- One shard of two buckets with `skew_hasher`. -/
def skew_conf : config_t :=
  { map_num := 1, map_init_len := 2, cache_second := 10, sweep_second := 0,
    expand_second := 0, hasher := some skew_hasher, expander := none }

/-- A hasher that is out of range for every modulus up to 1000. -/
def far_hasher : hasher_t := fun _ _ => 1000

/-- Default sizes and times with `far_hasher` supplied. -/
def far_conf : config_t :=
  { map_num := 0, map_init_len := 0, cache_second := 0, sweep_second := 0,
    expand_second := 0, hasher := some far_hasher, expander := none }

/-- One shard of one bucket, entries kept for ten seconds, default hasher
and expander: every key falls in the same chain. -/
def tiny_conf : config_t :=
  { map_num := 1, map_init_len := 1, cache_second := 10, sweep_second := 0,
    expand_second := 0, hasher := none, expander := none }

/-- The state after a `cache_set` with both locks acquired (the state itself
when the call does not return). -/
def after_set (c : cache_t) (key : Key) (src : Bytes) (now : Int) : cache_t :=
  match cache_set c key src src.length now true true with
  | .ok (c2, _) => c2
  | .error _ => c

/-- The state after a cleaner pass with all locks acquired (the state itself
when the pass does not return). -/
def after_clean (c : cache_t) (now : Int) : cache_t :=
  match _cleaner_thread c now (fun _ => true) (fun _ _ => true) with
  | .ok c2 => c2
  | .error _ => c

/-- The state after an expander pass with all locks acquired (the state
itself when the pass does not return). -/
def after_expand (c : cache_t) (now : Int) : cache_t :=
  match _expand_thread c now (fun _ => true) with
  | .ok c2 => c2
  | .error _ => c

/-- The key a. -/
def key_a : Key := [97]

/-- The key b. -/
def key_b : Key := [98]

/-- The key c. -/
def key_c : Key := [99]

/-- The one-bucket cache of `tiny_conf` after `cache_set(a, [1], 1)` at time
0: its chain is the node a of size 1 with expiry 10. -/
def stored_a_state : cache_t := after_set (new_cache (some tiny_conf)) key_a [1] 0

/-- Keys a and b written at time 0, key c at time 15, in the one bucket of
`tiny_conf`: the chain is c (expiry 25), b (expiry 10), a (expiry 10). -/
def run_state : cache_t :=
  after_set (after_set (after_set (new_cache (some tiny_conf)) key_a [1] 0) key_b [2] 0)
    key_c [3] 15

/-- Key a written at time 0, key b at time 1, key a again at time 5, in the
one bucket of `tiny_conf`: the chain is b (expiry 11), a (expiry 15). -/
def head_state : cache_t :=
  after_set (after_set (after_set (new_cache (some tiny_conf)) key_a [1] 0) key_b [2] 1)
    key_a [1] 5

/-! ## Further specification functions and concrete states -/

/-- The hash that the specification gives for the default hasher before the
mask and the remainder: from 5381, `h <- (h + (h << 5) + c) mod 2 ^ 32` over
the characters `c` of the key in order, on unbounded integers (`h << 5` is
`h * 2 ^ 5`). -/
def djb_fold (key : Key) : Int :=
  key.foldl (fun h c => (h + h * 2 ^ 5 + c) % 2 ^ 32) 5381

/-- The state after `cache_set` of key a at time 0 on the one-bucket cache
of `tiny_conf`, and a cleaner pass at time 20 with all locks acquired. -/
def swept_state : cache_t :=
  after_clean (after_set (new_cache (some tiny_conf)) key_a [1] 0) 20

/-- A well-formed state of one shard with one empty bucket whose size
counter holds the largest `uint32_t` value. -/
def full_counter_state : cache_t :=
  { config := new_config (some tiny_conf)
    cache_maps := [{ nodes := [[]], length := 1, size := 4294967295 }] }

/-! ## Locks held across a call

The three operations again, each returning in addition the successful lock
calls it made, in order; `cache_get_traced_result` and its siblings show
that the results are those of the operations above. -/

/-- A lock of the cache: the lock of shard `i` (`map_locks[i]`) or the lock
of bucket `j` of shard `i` (`node_locks[j]` of that shard). -/
inductive lock_id where
  | map_lock (i : Nat)
  | node_lock (i j : Nat)
  deriving DecidableEq, Repr

/-- A pthread call on a lock that succeeded: a read acquisition
(`pthread_rwlock_rdlock` or `pthread_rwlock_tryrdlock`), a write
acquisition (`pthread_rwlock_wrlock`), or `pthread_rwlock_unlock`. -/
inductive lock_op where
  | rdlock (l : lock_id)
  | wrlock (l : lock_id)
  | unlock (l : lock_id)
  deriving DecidableEq, Repr

/-- The locks held by the calling thread after one more call. -/
def lock_step (held : List lock_id) (op : lock_op) : List lock_id :=
  match op with
  | .rdlock l => l :: held
  | .wrlock l => l :: held
  | .unlock l => held.erase l

/-- The locks held by the calling thread after a sequence of calls. -/
def locks_after (held : List lock_id) (ops : List lock_op) : List lock_id :=
  ops.foldl lock_step held

/-- The function `cache_get` with the successful lock calls it makes before
it returns, in order. -/
def cache_get_traced (cache : cache_t) (key : Key) (dst : Option Bytes) (dst_size : Nat)
    (now : Int) (map_lock_ok node_lock_ok : Bool) :
    Except Fault ((Bool × Option Bytes) × List lock_op) :=
  match cache.config.hasher with
  | none => .error .undefined
  | some hasher =>
    match _find_pos hasher key cache.config.map_num with
    | .error e => .error e
    | .ok mappos =>
      if !map_lock_ok then .ok ((false, dst), [])
      else
        match cache.cache_maps[mappos]? with
        | none => .error .undefined
        | some map =>
          match _find_pos hasher key map.length with
          | .error e => .error e
          | .ok nodepos =>
            if !node_lock_ok then .ok ((false, dst), [.rdlock (.map_lock mappos)])
            else
              match map.nodes[nodepos]? with
              | none => .error .undefined
              | some node =>
                match _traverse_copy_node node now key dst dst_size with
                | .error e => .error e
                | .ok found =>
                  .ok (found,
                    [.rdlock (.map_lock mappos), .rdlock (.node_lock mappos nodepos),
                     .unlock (.node_lock mappos nodepos), .unlock (.map_lock mappos)])

/-- The function `cache_get_block` with the successful lock calls it makes
before it returns, in order. -/
def cache_get_block_traced (cache : cache_t) (key : Key) (dst : Option Bytes)
    (dst_size : Nat) (now : Int) (map_lock_ok node_lock_ok : Bool) :
    Except Fault ((Bool × Option Bytes) × List lock_op) :=
  match cache.config.hasher with
  | none => .error .undefined
  | some hasher =>
    match _find_pos hasher key cache.config.map_num with
    | .error e => .error e
    | .ok mappos =>
      if !map_lock_ok then .ok ((false, dst), [])
      else
        match cache.cache_maps[mappos]? with
        | none => .error .undefined
        | some map =>
          match _find_pos hasher key map.length with
          | .error e => .error e
          | .ok nodepos =>
            if !node_lock_ok then .ok ((false, dst), [.rdlock (.map_lock mappos)])
            else
              match map.nodes[nodepos]? with
              | none => .error .undefined
              | some node =>
                match _traverse_copy_node node now key dst dst_size with
                | .error e => .error e
                | .ok found =>
                  .ok (found,
                    [.rdlock (.map_lock mappos), .rdlock (.node_lock mappos nodepos),
                     .unlock (.node_lock mappos nodepos), .unlock (.map_lock mappos)])

/-- The function `cache_set` with the successful lock calls it makes before
it returns, in order. -/
def cache_set_traced (cache : cache_t) (key : Key) (src : Bytes) (src_size : Nat)
    (now : Int) (map_lock_ok node_lock_ok : Bool) :
    Except Fault ((cache_t × Bool) × List lock_op) :=
  match cache.config.hasher with
  | none => .error .undefined
  | some hasher =>
    match _find_pos hasher key cache.config.map_num with
    | .error e => .error e
    | .ok mappos =>
      if !map_lock_ok then .ok ((cache, false), [])
      else
        match cache.cache_maps[mappos]? with
        | none => .error .undefined
        | some map =>
          match _find_pos hasher key map.length with
          | .error e => .error e
          | .ok nodepos =>
            if !node_lock_ok then .ok ((cache, false), [.rdlock (.map_lock mappos)])
            else
              match cache_set cache key src src_size now map_lock_ok node_lock_ok with
              | .error e => .error e
              | .ok r =>
                .ok (r,
                  [.rdlock (.map_lock mappos), .wrlock (.node_lock mappos nodepos),
                   .unlock (.node_lock mappos nodepos), .unlock (.map_lock mappos)])

/-! ## Basic facts on buffers and chains -/

theorem must_auto_malloc_eq (n : Nat) : must_auto_malloc n = List.replicate n 0 := by
  simp [must_auto_malloc, memset]

theorem must_auto_realloc_eq (p : Bytes) (n : Nat) (hn : n ≠ 0) :
    must_auto_realloc p n = .ok (List.replicate n 0) := by
  simp only [must_auto_realloc, realloc, hn, if_false, memset]
  have hl : (p.take n ++ List.replicate (n - p.length) 0).length = n := by
    simp only [List.length_append, List.length_take, List.length_replicate]; omega
  rw [List.drop_of_length_le (by omega)]
  simp

theorem must_auto_realloc_zero (p : Bytes) :
    must_auto_realloc p 0 = .error (.panic .realloc_failed) := by
  simp [must_auto_realloc, realloc]

theorem memcpy_zero_buffer (src : Bytes) (n : Nat) :
    memcpy (List.replicate n 0) src n = src.take n := by
  simp [memcpy]

theorem memcpy_memset (data src : Bytes) (n : Nat) :
    memcpy (memset data 0 n) src n = src.take n ++ data.drop n := by
  simp [memcpy, memset, List.drop_append_eq_append_drop]

theorem copy_size_eq_min (a b : Nat) : (if a < b then a else b) = min a b := by
  split <;> omega

theorem traverse_eq_first_match (chain : Chain) (now : Int) (key : Key) (buf : Bytes)
    (cap : Nat) :
    _traverse_copy_node chain now key (some buf) cap =
      .ok (match first_match chain now key with
           | none => (false, some buf)
           | some n => (true, some (memcpy buf n.data (min cap n.size)))) := by
  induction chain with
  | nil => simp [_traverse_copy_node, first_match]
  | cons n next ih =>
    unfold _traverse_copy_node
    by_cases hv : _valid_node n now = true
    · by_cases hk : n.key = key
      · simp [first_match, hv, hk, _copy_node_data, copy_size_eq_min]
      · simp [first_match, hv, hk]
        simpa [first_match] using ih
    · simp only [Bool.not_eq_true] at hv
      simp [first_match, hv]
      simpa [first_match] using ih

theorem traverse_none_of_first_match (chain : Chain) (now : Int) (key : Key)
    (dst : Option Bytes) (cap : Nat) (h : first_match chain now key = none) :
    _traverse_copy_node chain now key dst cap = .ok (false, dst) := by
  induction chain with
  | nil => simp [_traverse_copy_node]
  | cons n next ih =>
    unfold _traverse_copy_node
    simp only [first_match, List.find?_cons] at h
    split at h
    · cases h
    · rename_i hp
      have hp2 : (!_valid_node n now || decide (n.key ≠ key)) = true := by
        simp only [Bool.and_eq_false_imp, decide_eq_false_iff_not] at hp
        by_cases hv : _valid_node n now = true
        · simp [hp hv]
        · simp [hv]
      have : (!_valid_node n now || n.key ≠ key) := by simpa using hp2
      simp only [this, if_true]
      exact ih h

/-! ## Facts on `cache_get` and `cache_set` -/

theorem bucket_of_isSome (c : cache_t) (k : Key)
    (hr : hasher_in_range c k) : ∃ chain, bucket_of c k = some chain := by
  unfold hasher_in_range at hr
  unfold bucket_of
  split at hr
  · exact hr.elim
  · rename_i h hh
    obtain ⟨-, hr2⟩ := hr
    split at hr2
    · exact hr2.elim
    · rename_i map hmap
      have hlt : h k map.length < map.nodes.length := hr2.2
      exact ⟨map.nodes[h k map.length], List.getElem?_eq_getElem hlt⟩

theorem cache_get_eq_traverse (c : cache_t) (k : Key) (dst : Option Bytes) (cap : Nat)
    (now : Int) (chain : Chain) (hr : hasher_in_range c k)
    (hb : bucket_of c k = some chain) :
    cache_get c k dst cap now true true = _traverse_copy_node chain now k dst cap := by
  unfold hasher_in_range at hr
  unfold bucket_of at hb
  unfold cache_get
  split at hr
  · exact hr.elim
  · rename_i h hh
    try simp only [hh] at hb ⊢
    obtain ⟨hr1, hr2⟩ := hr
    have h1 : _find_pos h k c.config.map_num = .ok (h k c.config.map_num) := by
      simp [_find_pos, hr1]
    simp only [h1]
    split at hr2
    · exact hr2.elim
    · rename_i map hmap
      try simp only [hmap] at hb ⊢
      have h2 : _find_pos h k map.length = .ok (h k map.length) := by
        simp [_find_pos, hr2.1]
      simp [h2, hb]

theorem updated_node_key (p : cache_node_t) (src : Bytes) (n : Nat) (e : Int) :
    (updated_node p src n e).key = p.key := by
  unfold updated_node; split <;> rfl

theorem updated_node_expr (p : cache_node_t) (src : Bytes) (n : Nat) (e : Int) :
    (updated_node p src n e).expr = e := by
  unfold updated_node; split <;> rfl

theorem updated_node_size (p : cache_node_t) (src : Bytes) (n : Nat) (e : Int) :
    (updated_node p src n e).size = n := by
  unfold updated_node
  split
  · rfl
  · rename_i h
    simpa using h

theorem updated_node_data (p : cache_node_t) (src : Bytes) (n : Nat) (e : Int)
    (hn : n ≤ src.length) : (updated_node p src n e).data.take n = src.take n := by
  unfold updated_node
  split
  · simp [memcpy_zero_buffer]
  · rename_i h
    have hs : p.size = n := by simpa using h
    simp only [memcpy_memset, hs]
    rw [List.take_append_of_le_length (by simp [hn])]
    exact List.take_take n n src |>.trans (by simp)

theorem update_chain_none_iff (k : Key) (src : Bytes) (n : Nat) (e : Int) (root : Chain) :
    update_chain k src n e root = none ↔ ∀ m ∈ root, m.key ≠ k := by
  induction root with
  | nil => simp [update_chain]
  | cons p next ih =>
    unfold update_chain
    by_cases hk : p.key = k
    · simp only [hk, if_true]
      constructor
      · intro h; cases h
      · intro h; exact absurd rfl (hk ▸ h p (List.mem_cons_self _ _))
    · simp only [hk, if_false]
      constructor
      · intro h
        split at h
        · rename_i hnone
          intro m hm
          rcases List.mem_cons.mp hm with rfl | hm2
          · exact hk
          · exact (ih.mp hnone) m hm2
        · cases h
      · intro h
        have := ih.mpr (fun m hm => h m (List.mem_cons_of_mem _ hm))
        simp [this]

theorem update_chain_some (k : Key) (src : Bytes) (n : Nat) (e : Int) (root chain : Chain)
    (h : update_chain k src n e root = some chain) :
    ∃ pre p post, root = pre ++ p :: post ∧ (∀ m ∈ pre, m.key ≠ k) ∧ p.key = k ∧
      chain = pre ++ updated_node p src n e :: post := by
  induction root generalizing chain with
  | nil => simp [update_chain] at h
  | cons p next ih =>
    unfold update_chain at h
    by_cases hk : p.key = k
    · simp only [hk, if_true] at h
      subst hk
      refine ⟨[], p, next, rfl, by simp, rfl, ?_⟩
      simpa using h.symm
    · simp only [hk, if_false] at h
      split at h
      · cases h
      · rename_i next2 hnext
        obtain ⟨pre, q, post, h1, h2, h3, h4⟩ := ih next2 hnext
        refine ⟨p :: pre, q, post, by simp [h1], ?_, h3, ?_⟩
        · intro m hm
          rcases List.mem_cons.mp hm with rfl | hm2
          · exact hk
          · exact h2 m hm2
        · cases h; simp [h4]

theorem realloc_fault_nil (k : Key) (n : Nat) : ¬ realloc_fault [] k n := by
  simp [realloc_fault]

theorem realloc_fault_cons_eq (p : cache_node_t) (next : Chain) (n : Nat) :
    realloc_fault (p :: next) p.key n ↔ (p.size ≠ n ∧ n = 0) := by
  simp [realloc_fault]

theorem realloc_fault_cons_ne (p : cache_node_t) (next : Chain) (k : Key) (n : Nat)
    (hk : p.key ≠ k) : realloc_fault (p :: next) k n ↔ realloc_fault next k n := by
  simp [realloc_fault, hk]

theorem realloc_fault_of_pos (root : Chain) (k : Key) (n : Nat) (hn : n ≠ 0) :
    ¬ realloc_fault root k n := by
  unfold realloc_fault
  split
  · exact fun h => h
  · exact fun h => hn h.2

theorem realloc_fault_of_absent (root : Chain) (k : Key) (n : Nat)
    (h : ∀ m ∈ root, m.key ≠ k) : ¬ realloc_fault root k n := by
  induction root with
  | nil => exact realloc_fault_nil k n
  | cons p next ih =>
    rw [realloc_fault_cons_ne p next k n (h p (List.mem_cons_self _ _))]
    exact ih (fun m hm => h m (List.mem_cons_of_mem _ hm))

/-- The update loop of the source panics in `must_auto_realloc` exactly when
it reaches `realloc(p->data, 0)`. -/
theorem set_update_fault (k : Key) (src : Bytes) (n : Nat) (e : Int) (root : Chain)
    (hf : realloc_fault root k n) :
    set_update k src n e root = .error (.panic .realloc_failed) := by
  induction root with
  | nil => exact absurd hf (realloc_fault_nil k n)
  | cons p next ih =>
    unfold set_update
    by_cases hk : p.key = k
    · subst hk
      obtain ⟨h1, h2⟩ := (realloc_fault_cons_eq p next n).mp hf
      subst h2
      simp only [if_true, h1, ne_eq, not_false_eq_true, must_auto_realloc_zero]
    · simp only [hk, if_false]
      rw [ih ((realloc_fault_cons_ne p next k n hk).mp hf)]

/-- Apart from that panic the update loop of the source computes
`update_chain`. -/
theorem set_update_eq (k : Key) (src : Bytes) (n : Nat) (e : Int) (root : Chain)
    (hf : ¬ realloc_fault root k n) :
    set_update k src n e root = .ok (update_chain k src n e root) := by
  induction root with
  | nil => simp [set_update, update_chain]
  | cons p next ih =>
    unfold set_update update_chain
    by_cases hk : p.key = k
    · subst hk
      have hf2 := fun h => hf ((realloc_fault_cons_eq p next n).mpr h)
      simp only [if_true]
      by_cases hs : p.size = n
      · simp [hs, updated_node]
      · have hn : n ≠ 0 := fun h0 => hf2 ⟨hs, h0⟩
        simp [hs, updated_node, must_auto_realloc_eq p.data n hn]
    · simp only [hk, if_false]
      rw [ih (fun h => hf ((realloc_fault_cons_ne p next k n hk).mpr h))]
      cases update_chain k src n e next <;> rfl

theorem inserted_node_eq (k : Key) (src : Bytes) (n : Nat) (e : Int) :
    ({ _new_node (k.length + 1) n with
        key := k
        data := memcpy (_new_node (k.length + 1) n).data src n
        expr := e
        size := n } : cache_node_t) = inserted_node k src n e := by
  simp [_new_node, inserted_node, must_auto_malloc_eq, memcpy_zero_buffer]

theorem cache_set_eq (c : cache_t) (k : Key) (src : Bytes) (n : Nat) (now : Int)
    (h : hasher_t) (map : cache_map_t) (root : Chain)
    (hh : c.config.hasher = some h)
    (h1 : h k c.config.map_num < c.config.map_num)
    (hmap : c.cache_maps[h k c.config.map_num]? = some map)
    (h2 : h k map.length < map.length)
    (hroot : map.nodes[h k map.length]? = some root)
    (hsafe : ¬ realloc_fault root k n) :
    cache_set c k src n now true true =
      .ok ({ c with
             cache_maps := (c.cache_maps.set (h k c.config.map_num)
               (set_map map (h k map.length) k src n (now + (c.config.cache_second : Int)) root)) },
           true) := by
  unfold cache_set
  have f1 : _find_pos h k c.config.map_num = .ok (h k c.config.map_num) := by
    simp [_find_pos, h1]
  have f2 : _find_pos h k map.length = .ok (h k map.length) := by
    simp [_find_pos, h2]
  simp only [hh, f1, hmap, f2, hroot]
  simp only [Bool.not_true, Bool.false_eq_true, if_false]
  rw [set_update_eq k src n (now + (c.config.cache_second : Int)) root hsafe]
  simp only
  congr 2
  congr 1
  unfold set_map set_chain
  cases hs : update_chain k src n (now + (c.config.cache_second : Int)) root with
  | none => simp [inserted_node_eq]
  | some chain => simp

theorem cache_set_realloc_fault (c : cache_t) (k : Key) (src : Bytes) (n : Nat) (now : Int)
    (h : hasher_t) (map : cache_map_t) (root : Chain)
    (hh : c.config.hasher = some h)
    (h1 : h k c.config.map_num < c.config.map_num)
    (hmap : c.cache_maps[h k c.config.map_num]? = some map)
    (h2 : h k map.length < map.length)
    (hroot : map.nodes[h k map.length]? = some root)
    (hf : realloc_fault root k n) :
    cache_set c k src n now true true = .error (.panic .realloc_failed) := by
  unfold cache_set
  have f1 : _find_pos h k c.config.map_num = .ok (h k c.config.map_num) := by
    simp [_find_pos, h1]
  have f2 : _find_pos h k map.length = .ok (h k map.length) := by
    simp [_find_pos, h2]
  simp only [hh, f1, hmap, f2, hroot]
  simp only [Bool.not_true, Bool.false_eq_true, if_false]
  rw [set_update_fault k src n (now + (c.config.cache_second : Int)) root hf]

theorem in_range_data (c : cache_t) (k : Key) (hr : hasher_in_range c k) :
    ∃ h map root, c.config.hasher = some h ∧
      h k c.config.map_num < c.config.map_num ∧
      c.cache_maps[h k c.config.map_num]? = some map ∧
      h k map.length < map.length ∧
      map.nodes[h k map.length]? = some root ∧
      bucket_of c k = some root := by
  unfold hasher_in_range at hr
  unfold bucket_of
  split at hr
  · exact hr.elim
  · rename_i h hh
    obtain ⟨hr1, hr2⟩ := hr
    split at hr2
    · exact hr2.elim
    · rename_i map hmap
      have hlt : h k map.length < map.nodes.length := hr2.2
      exact ⟨h, map, map.nodes[h k map.length], hh, hr1, hmap, hr2.1,
        List.getElem?_eq_getElem hlt, List.getElem?_eq_getElem hlt⟩

/-- With the hasher in range and both locks acquired, `cache_set` either
panics in `must_auto_realloc` (the zero-length overwrite of a node of another
size) or returns true and leaves `set_chain` in the bucket of the key. -/
theorem cache_set_spec (c : cache_t) (k : Key) (src : Bytes) (n : Nat) (now : Int)
    (hr : hasher_in_range c k) :
    ∃ root, bucket_of c k = some root ∧
      ((realloc_fault root k n ∧
          cache_set c k src n now true true = .error (.panic .realloc_failed)) ∨
       (¬ realloc_fault root k n ∧ ∃ c1,
          cache_set c k src n now true true = .ok (c1, true) ∧
          c1.config = c.config ∧ hasher_in_range c1 k ∧
          bucket_of c1 k =
            some (set_chain k src n (now + (c.config.cache_second : Int)) root))) := by
  obtain ⟨h, map, root, hh, h1, hmap, h2, hroot, hb⟩ := in_range_data c k hr
  have hi : h k c.config.map_num < c.cache_maps.length := (List.getElem?_eq_some.mp hmap).1
  have hj : h k map.length < map.nodes.length := (List.getElem?_eq_some.mp hroot).1
  refine ⟨root, hb, ?_⟩
  by_cases hf : realloc_fault root k n
  · exact Or.inl ⟨hf, cache_set_realloc_fault c k src n now h map root hh h1 hmap h2 hroot hf⟩
  · refine Or.inr ⟨hf, _, cache_set_eq c k src n now h map root hh h1 hmap h2 hroot hf,
      rfl, ?_, ?_⟩
    · simp [hasher_in_range, hh, h1, hi, set_map, h2, hj]
    · simp [bucket_of, hh, hi, set_map, hj]

/-- When `cache_set` returns, with the hasher in range, it returned true and
left `set_chain` in the bucket of the key. -/
theorem cache_set_returned (c c1 : cache_t) (k : Key) (src : Bytes) (n : Nat) (now : Int)
    (ret : Bool) (hr : hasher_in_range c k)
    (hset : cache_set c k src n now true true = .ok (c1, ret)) :
    ret = true ∧ c1.config = c.config ∧ hasher_in_range c1 k ∧
      ∃ root, bucket_of c k = some root ∧ ¬ realloc_fault root k n ∧
        bucket_of c1 k =
          some (set_chain k src n (now + (c.config.cache_second : Int)) root) := by
  obtain ⟨root, hb, hcase⟩ := cache_set_spec c k src n now hr
  rcases hcase with ⟨_, herr⟩ | ⟨hf, c2, hok, hcfg, hr2, hb2⟩
  · rw [herr] at hset; cases hset
  · rw [hok] at hset
    cases hset
    exact ⟨rfl, hcfg, hr2, root, hb, hf, hb2⟩

theorem first_match_set_chain (k : Key) (src : Bytes) (n : Nat) (e now : Int) (root : Chain)
    (hv : e ≤ 0 ∨ now ≤ e) :
    ∃ nd, first_match (set_chain k src n e root) now k = some nd ∧
      nd.key = k ∧ nd.size = n ∧ nd.expr = e ∧ (n ≤ src.length → nd.data.take n = src.take n) := by
  have hvalid : ∀ nd : cache_node_t, nd.expr = e → _valid_node nd now = true := by
    intro nd hnd
    simp only [_valid_node, hnd, Bool.or_eq_true, decide_eq_true_eq]
    exact hv
  unfold set_chain
  cases hs : update_chain k src n e root with
  | none =>
    refine ⟨inserted_node k src n e, ?_, rfl, rfl, rfl, ?_⟩
    · have hvi := hvalid (inserted_node k src n e) rfl
      have hki : (inserted_node k src n e).key = k := rfl
      simp [first_match, hvi, hki]
    · intro _; simp [inserted_node]
  | some chain =>
    obtain ⟨pre, p, post, h1, h2, h3, h4⟩ := update_chain_some k src n e root chain hs
    refine ⟨updated_node p src n e, ?_, ?_, updated_node_size p src n e,
      updated_node_expr p src n e, updated_node_data p src n e⟩
    · have hpre : List.find? (fun x => _valid_node x now && decide (x.key = k)) pre = none := by
        rw [List.find?_eq_none]
        intro x hx
        simp [h2 x hx]
      simp [first_match, h4, hpre, hvalid _ (updated_node_expr p src n e),
        updated_node_key, h3]
    · rw [updated_node_key, h3]

/-! ## Lookup, truncation, round trip and overwrite (C6, C3, C1, C2) -/

theorem valid_node_iff (n : cache_node_t) (now : Int) :
    _valid_node n now = true ↔ (n.expr ≤ 0 ∨ now ≤ n.expr) := by
  simp [_valid_node]

theorem first_match_some (chain : Chain) (now : Int) (k : Key) (nd : cache_node_t)
    (h : first_match chain now k = some nd) :
    (nd.key = k ∧ (nd.expr ≤ 0 ∨ now ≤ nd.expr)) ∧
    ∃ pre post, chain = pre ++ nd :: post ∧
      ∀ m ∈ pre, ¬ (m.key = k ∧ (m.expr ≤ 0 ∨ now ≤ m.expr)) := by
  unfold first_match at h
  rw [List.find?_eq_some] at h
  obtain ⟨hp, pre, post, hc, hpre⟩ := h
  simp only [Bool.and_eq_true, decide_eq_true_eq, valid_node_iff] at hp
  refine ⟨⟨hp.2, hp.1⟩, pre, post, hc, ?_⟩
  intro m hm hcontra
  have := hpre m hm
  simp [hcontra.1, (valid_node_iff m now).mpr hcontra.2] at this

theorem first_match_none (chain : Chain) (now : Int) (k : Key)
    (h : first_match chain now k = none) :
    ∀ m ∈ chain, ¬ (m.key = k ∧ (m.expr ≤ 0 ∨ now ≤ m.expr)) := by
  unfold first_match at h
  rw [List.find?_eq_none] at h
  intro m hm hcontra
  have := h m hm
  simp [hcontra.1, (valid_node_iff m now).mpr hcontra.2] at this

theorem traverse_false_dst (chain : Chain) (now : Int) (k : Key) (dst d : Option Bytes)
    (cap : Nat) (h : _traverse_copy_node chain now k dst cap = .ok (false, d)) : d = dst := by
  induction chain with
  | nil =>
    simp only [_traverse_copy_node, Except.ok.injEq, Prod.mk.injEq, true_and] at h
    exact h.symm
  | cons n next ih =>
    unfold _traverse_copy_node at h
    split at h
    · exact ih h
    · split at h
      · cases h
      · simp at h

theorem cache_get_false_dst (c : cache_t) (k : Key) (dst d : Option Bytes) (cap : Nat)
    (now : Int) (l1 l2 : Bool) (h : cache_get c k dst cap now l1 l2 = .ok (false, d)) :
    d = dst := by
  unfold cache_get at h
  repeat' split at h
  all_goals first
    | exact traverse_false_dst _ _ _ _ _ _ h
    | (cases h; first | rfl | done)

/-- C6 (lookup definition). For every state, with both locks acquired and
the hasher in range, `cache_get` returns a found flag that is true exactly
when the chain of bucket `hasher(k, length)` of shard `hasher(k, map_num)`
holds a node with key `k` that is valid at `now` (`expr <= 0` or
`now <= expr`); when true the bytes copied come from the first such node of
the chain; when false the buffer is untouched. The lookup is a function of
the state and returns no new state: no node is removed on the read path. -/
theorem lookup_definition (c : cache_t) (k : Key) (buf : Bytes) (cap : Nat) (now : Int)
    (hr : hasher_in_range c k) :
    ∃ chain found buf1, bucket_of c k = some chain ∧
      cache_get c k (some buf) cap now true true = .ok (found, some buf1) ∧
      (found = true ↔ ∃ n ∈ chain, n.key = k ∧ (n.expr ≤ 0 ∨ now ≤ n.expr)) ∧
      (found = true → ∃ pre n post, chain = pre ++ n :: post ∧
        (∀ m ∈ pre, ¬ (m.key = k ∧ (m.expr ≤ 0 ∨ now ≤ m.expr))) ∧
        n.key = k ∧ (n.expr ≤ 0 ∨ now ≤ n.expr) ∧
        buf1 = memcpy buf n.data (min cap n.size)) ∧
      (found = false → buf1 = buf) := by
  obtain ⟨chain, hb⟩ := bucket_of_isSome c k hr
  have hg := cache_get_eq_traverse c k (some buf) cap now chain hr hb
  rw [traverse_eq_first_match] at hg
  cases hfm : first_match chain now k with
  | none =>
    rw [hfm] at hg
    refine ⟨chain, false, buf, hb, hg, ?_, by simp, by simp⟩
    constructor
    · intro h; cases h
    · rintro ⟨n, hn, hk⟩
      exact absurd hk (first_match_none chain now k hfm n hn)
  | some nd =>
    rw [hfm] at hg
    obtain ⟨hnd, pre, post, hc, hpre⟩ := first_match_some chain now k nd hfm
    refine ⟨chain, true, _, hb, hg, ?_, ?_, by simp⟩
    · constructor
      · intro _
        exact ⟨nd, by simp [hc], hnd⟩
      · intro _; rfl
    · intro _
      exact ⟨pre, nd, post, hc, hpre, hnd.1, hnd.2, rfl⟩

/-- C3 (truncation). When the lookup of `k` selects a node (the first node
of its bucket chain that is valid and has key `k`), `cache_get` with
capacity `cap` returns true and the buffer becomes the first
`min cap size` bytes of the stored data followed by the old buffer from
index `min cap size` on; with a stored buffer of at least `size` bytes and a
destination of at least `cap` bytes the destination keeps its length, its
first `min cap size` bytes are those of the stored value and every byte at
a later index is unchanged. Whenever `cache_get` returns false, under any
lock outcomes, the buffer is unchanged. -/
theorem truncation (c : cache_t) (k : Key) (buf : Bytes) (cap : Nat) (now : Int) :
    (∀ chain nd, hasher_in_range c k → bucket_of c k = some chain →
      first_match chain now k = some nd →
      ∃ buf1, cache_get c k (some buf) cap now true true = .ok (true, some buf1) ∧
        buf1 = nd.data.take (min cap nd.size) ++ buf.drop (min cap nd.size) ∧
        (nd.size ≤ nd.data.length → cap ≤ buf.length →
          buf1.length = buf.length ∧
          (∀ i, i < min cap nd.size → buf1[i]? = nd.data[i]?) ∧
          (∀ i, min cap nd.size ≤ i → buf1[i]? = buf[i]?))) ∧
    (∀ l1 l2 d, cache_get c k (some buf) cap now l1 l2 = .ok (false, d) → d = some buf) := by
  refine ⟨?_, fun l1 l2 d h => cache_get_false_dst c k (some buf) d cap now l1 l2 h⟩
  intro chain nd hr hb hfm
  have hg := cache_get_eq_traverse c k (some buf) cap now chain hr hb
  rw [traverse_eq_first_match, hfm] at hg
  refine ⟨_, hg, rfl, ?_⟩
  intro hsz hcap
  have hm1 : min cap nd.size ≤ nd.data.length := by omega
  have hm2 : min cap nd.size ≤ buf.length := by omega
  have hlen : (List.take (min cap nd.size) nd.data).length = min cap nd.size := by
    simp [hm1]
  refine ⟨?_, ?_, ?_⟩
  · simp only [memcpy, List.length_append, hlen, List.length_drop]
    omega
  · intro i hi
    simp only [memcpy]
    rw [List.getElem?_append_left (by omega), List.getElem?_take_of_lt hi]
  · intro i hi
    simp only [memcpy]
    rw [List.getElem?_append_right (by omega), hlen, List.getElem?_drop]
    congr 1
    omega

/-- Round trip of a write that returns. With the hasher in range for `k` and
all locks acquired, a `cache_set(k, v, n)` with `n` the length of `v` at time
`t0` that returns has returned true, and a `cache_get(k, buf, n)` at a time
`t1` with `t1 <= t0 + cache_second` returns true with the first `n` bytes of
the buffer equal to `v` (whether or not `t0 <= t1`). By `cache_set_spec` the
write returns unless it is the zero-length overwrite of a node of another
size. -/
theorem round_trip_of_return (c c1 : cache_t) (k : Key) (v buf : Bytes) (t0 t1 : Int)
    (ret : Bool) (hr : hasher_in_range c k)
    (hset : cache_set c k v v.length t0 true true = .ok (c1, ret))
    (h1 : t1 ≤ t0 + (c.config.cache_second : Int)) :
    ret = true ∧
    ∃ buf1, cache_get c1 k (some buf) v.length t1 true true = .ok (true, some buf1) ∧
      buf1.take v.length = v := by
  obtain ⟨hret, -, hr1, root, -, -, hb1⟩ := cache_set_returned c c1 k v v.length t0 ret hr hset
  obtain ⟨nd, hfm, -, hsize, -, hdata⟩ :=
    first_match_set_chain k v v.length (t0 + (c.config.cache_second : Int)) t1 root (Or.inr h1)
  have hg := cache_get_eq_traverse c1 k (some buf) v.length t1 _ hr1 hb1
  rw [traverse_eq_first_match, hfm] at hg
  refine ⟨hret, _, hg, ?_⟩
  have hd := hdata (le_refl _)
  simp only [List.take_length] at hd
  simp only [memcpy, hsize, min_self]
  rw [List.take_append_of_le_length (by simp [hd])]
  simp [hd]

/-- Overwrite by writes that return. With the hasher in range for `k` and
all locks acquired, after a `cache_set(k, v1, n1)` and then a
`cache_set(k, v2, n2)` that both return (each length that of its value), both
have returned true, and a `cache_get(k, buf, cap)` with `cap >= n2` at a time
not later than the expiry `t2 + cache_second` of the second write returns
true and the buffer becomes the `n2` bytes of `v2` followed by the old buffer
from index `n2` on. -/
theorem overwrite_of_return (c c1 c2 : cache_t) (k : Key) (v1 v2 buf : Bytes) (cap : Nat)
    (t1 t2 t3 : Int) (ret1 ret2 : Bool)
    (hr : hasher_in_range c k)
    (hset1 : cache_set c k v1 v1.length t1 true true = .ok (c1, ret1))
    (hset2 : cache_set c1 k v2 v2.length t2 true true = .ok (c2, ret2))
    (hcap : v2.length ≤ cap)
    (h3 : t3 ≤ t2 + (c.config.cache_second : Int)) :
    ret1 = true ∧ ret2 = true ∧
    cache_get c2 k (some buf) cap t3 true true =
      .ok (true, some (v2 ++ buf.drop v2.length)) := by
  obtain ⟨hret1, hc1, hr1, -⟩ := cache_set_returned c c1 k v1 v1.length t1 ret1 hr hset1
  obtain ⟨hret2, -, hr2, root2, -, -, hb2⟩ :=
    cache_set_returned c1 c2 k v2 v2.length t2 ret2 hr1 hset2
  rw [hc1] at hb2
  obtain ⟨nd, hfm, -, hsize, -, hdata⟩ :=
    first_match_set_chain k v2 v2.length (t2 + (c.config.cache_second : Int)) t3 root2
      (Or.inr h3)
  have hg := cache_get_eq_traverse c2 k (some buf) cap t3 _ hr2 hb2
  rw [traverse_eq_first_match, hfm] at hg
  refine ⟨hret1, hret2, ?_⟩
  rw [hg]
  have hd := hdata (le_refl _)
  simp only [List.take_length] at hd
  simp only [memcpy, hsize, min_eq_right hcap, hd]

theorem round_trip_of_return_witness :
    hasher_in_range demo_cache haha ∧
    cache_set demo_cache haha hehe hehe.length 0 true true
      = .ok (after_set demo_cache haha hehe 0, true) ∧
    (5 : Int) ≤ 0 + (demo_cache.config.cache_second : Int) ∧
    (true = true ∧
      ∃ buf1, cache_get (after_set demo_cache haha hehe 0) haha (some [0, 0, 0, 0, 0, 0])
          hehe.length 5 true true = .ok (true, some buf1) ∧
        buf1.take hehe.length = hehe) :=
  ⟨by decide, rfl, by decide,
    round_trip_of_return demo_cache (after_set demo_cache haha hehe 0) haha hehe
      [0, 0, 0, 0, 0, 0] 0 5 true (by decide) rfl (by decide)⟩

theorem overwrite_of_return_witness :
    hasher_in_range demo_cache haha ∧
    cache_set demo_cache haha hehe hehe.length 1 true true
      = .ok (after_set demo_cache haha hehe 1, true) ∧
    cache_set (after_set demo_cache haha hehe 1) haha hohoho hohoho.length 2 true true
      = .ok (after_set (after_set demo_cache haha hehe 1) haha hohoho 2, true) ∧
    hohoho.length ≤ 8 ∧
    (7 : Int) ≤ 2 + (demo_cache.config.cache_second : Int) ∧
    (true = true ∧ true = true ∧
      cache_get (after_set (after_set demo_cache haha hehe 1) haha hohoho 2) haha
          (some [1, 2, 3, 4, 5, 6, 7, 8]) 8 7 true true =
        .ok (true, some (hohoho ++ List.drop hohoho.length [1, 2, 3, 4, 5, 6, 7, 8]))) :=
  ⟨by decide, rfl, rfl, by decide, by decide,
    overwrite_of_return demo_cache (after_set demo_cache haha hehe 1)
      (after_set (after_set demo_cache haha hehe 1) haha hohoho 2) haha hehe hohoho
      [1, 2, 3, 4, 5, 6, 7, 8] 8 1 2 7 true true (by decide) rfl rfl (by decide) (by decide)⟩

/-- C1 (round trip) fails on a zero-length write over a stored value of
another size. On the one-bucket cache of `tiny_conf`, `cache_set(a, [1], 1)`
at time 0 returns true and leaves the node a of size 1 in the chain; the
hasher is in range for a. A following `cache_set(a, v, 0)` with the empty
value at time 1, both locks acquired, calls
`must_auto_realloc(p->data, 0)`: `realloc` returns NULL and the call panics,
so the write does not return and no `cache_get` follows it. -/
theorem round_trip_zero_length_aborts :
    cache_set (new_cache (some tiny_conf)) key_a [1] 1 0 true true
      = .ok (stored_a_state, true) ∧
    hasher_in_range stored_a_state key_a ∧
    bucket_of stored_a_state key_a = some [⟨key_a, [1], 1, 10⟩] ∧
    cache_set stored_a_state key_a [] ([] : Bytes).length 1 true true
      = .error (.panic .realloc_failed) := by
  refine ⟨rfl, by decide, by decide, rfl⟩

/-- C2 (overwrite) fails when the second value is empty and the first is
not. On the demo cache, `cache_set(haha, hehe, 4)` at time 0 returns true;
the following `cache_set(haha, v2, 0)` with the empty value at time 1, both
locks acquired and the hasher in range, finds the node of size 4, calls
`must_auto_realloc(p->data, 0)` and panics on the NULL that `realloc`
returns: the second write does not return and no `cache_get` follows it. -/
theorem overwrite_zero_length_aborts :
    hasher_in_range demo_cache haha ∧
    cache_set demo_cache haha hehe hehe.length 0 true true
      = .ok (after_set demo_cache haha hehe 0, true) ∧
    hasher_in_range (after_set demo_cache haha hehe 0) haha ∧
    bucket_of (after_set demo_cache haha hehe 0) haha = some [⟨haha, hehe, 4, 10⟩] ∧
    cache_set (after_set demo_cache haha hehe 0) haha [] ([] : Bytes).length 1 true true
      = .error (.panic .realloc_failed) := by
  refine ⟨by decide, rfl, by decide, by decide, rfl⟩

theorem truncation_witness :
    (hasher_in_range demo_cache_hohoho haha ∧
     bucket_of demo_cache_hohoho haha = some [hohoho_node] ∧
     first_match [hohoho_node] 3 haha = some hohoho_node ∧
     ∃ buf1, cache_get demo_cache_hohoho haha (some [1, 2, 3, 4, 5]) 4 3 true true
         = .ok (true, some buf1) ∧
       buf1 = [104, 111, 104, 111, 5]) ∧
    (cache_get demo_cache_hohoho haha (some [1, 2, 3, 4, 5]) 4 3 true false
        = .ok (false, some [1, 2, 3, 4, 5]) ∧
     some [1, 2, 3, 4, 5] = some [1, 2, 3, 4, 5]) :=
  have h := truncation demo_cache_hohoho haha [1, 2, 3, 4, 5] 4 3
  ⟨⟨by decide, by decide, by decide,
    (h.1 [hohoho_node] hohoho_node (by decide) (by decide) (by decide)).imp
      (fun _ hb => ⟨hb.1, hb.2.1⟩)⟩,
   rfl, h.2 true false (some [1, 2, 3, 4, 5]) rfl⟩

theorem lookup_definition_witness :
    hasher_in_range demo_cache_hohoho haha ∧
    ∃ chain found buf1, bucket_of demo_cache_hohoho haha = some chain ∧
      cache_get demo_cache_hohoho haha (some [1, 2, 3, 4, 5]) 4 3 true true
        = .ok (found, some buf1) ∧
      (found = true ↔ ∃ n ∈ chain, n.key = haha ∧ (n.expr ≤ 0 ∨ (3 : Int) ≤ n.expr)) ∧
      (found = true → ∃ pre n post, chain = pre ++ n :: post ∧
        (∀ m ∈ pre, ¬ (m.key = haha ∧ (m.expr ≤ 0 ∨ (3 : Int) ≤ m.expr))) ∧
        n.key = haha ∧ (n.expr ≤ 0 ∨ (3 : Int) ≤ n.expr) ∧
        buf1 = memcpy [1, 2, 3, 4, 5] n.data (min 4 n.size)) ∧
      (found = false → buf1 = [1, 2, 3, 4, 5]) :=
  ⟨by decide,
    lookup_definition demo_cache_hohoho haha [1, 2, 3, 4, 5] 4 3 (by decide)⟩

/-! ## Case analysis of the operations and the range check (C10) -/

theorem find_pos_ok (h : hasher_t) (k : Key) (m : Nat) (hlt : h k m < m) :
    _find_pos h k m = .ok (h k m) := by
  simp [_find_pos, hlt]

theorem find_pos_panic (h : hasher_t) (k : Key) (m : Nat) (hge : m ≤ h k m) :
    _find_pos h k m = .error (.panic .hasher_invalid_position) := by
  simp [_find_pos, hge]

theorem traverse_some_ne_error (chain : Chain) (now : Int) (k : Key) (buf : Bytes) (cap : Nat)
    (e : Fault) : _traverse_copy_node chain now k (some buf) cap ≠ .error e := by
  rw [traverse_eq_first_match]
  intro h
  cases h

theorem cache_get_block_eq (c : cache_t) (k : Key) (dst : Option Bytes) (cap : Nat)
    (now : Int) (l1 l2 : Bool) :
    cache_get_block c k dst cap now l1 l2 = cache_get c k dst cap now l1 l2 := rfl

/-- The outcome of `cache_get` on a well-formed state, by cases on the two
hash indices and the two lock outcomes. -/
theorem cache_get_cases (c : cache_t) (k : Key) (dst : Option Bytes) (cap : Nat) (now : Int)
    (l1 l2 : Bool) (h : hasher_t) (hwf : cache_wf c) (hh : c.config.hasher = some h) :
    (c.config.map_num ≤ h k c.config.map_num ∧
      cache_get c k dst cap now l1 l2 = .error (.panic .hasher_invalid_position)) ∨
    (h k c.config.map_num < c.config.map_num ∧ l1 = false ∧
      cache_get c k dst cap now l1 l2 = .ok (false, dst)) ∨
    (h k c.config.map_num < c.config.map_num ∧ l1 = true ∧
      ∃ map, c.cache_maps[h k c.config.map_num]? = some map ∧
        ((map.length ≤ h k map.length ∧
            cache_get c k dst cap now l1 l2 = .error (.panic .hasher_invalid_position)) ∨
         (h k map.length < map.length ∧ l2 = false ∧
            cache_get c k dst cap now l1 l2 = .ok (false, dst)) ∨
         (h k map.length < map.length ∧ l2 = true ∧
            ∃ chain, map.nodes[h k map.length]? = some chain ∧
              cache_get c k dst cap now l1 l2 = _traverse_copy_node chain now k dst cap))) := by
  obtain ⟨w1, w2, -, -⟩ := hwf
  unfold cache_get
  simp only [hh]
  by_cases h1 : h k c.config.map_num < c.config.map_num
  · right
    rw [find_pos_ok h k _ h1]
    cases l1 with
    | false => left; exact ⟨h1, rfl, rfl⟩
    | true =>
      right
      refine ⟨h1, rfl, ?_⟩
      have hi : h k c.config.map_num < c.cache_maps.length := by omega
      refine ⟨c.cache_maps[h k c.config.map_num], List.getElem?_eq_getElem hi, ?_⟩
      simp only [List.getElem?_eq_getElem hi]
      generalize hmap : c.cache_maps[h k c.config.map_num] = map
      have hmem : map ∈ c.cache_maps := hmap ▸ List.getElem_mem _
      have hl : map.nodes.length = map.length := w2 map hmem
      by_cases h2 : h k map.length < map.length
      · right
        rw [find_pos_ok h k _ h2]
        cases l2 with
        | false => left; exact ⟨h2, rfl, rfl⟩
        | true =>
          right
          have hj : h k map.length < map.nodes.length := by omega
          refine ⟨h2, rfl, map.nodes[h k map.length], List.getElem?_eq_getElem hj, ?_⟩
          simp [List.getElem?_eq_getElem hj]
      · left
        have h2' : map.length ≤ h k map.length := by omega
        rw [find_pos_panic h k _ h2']
        exact ⟨h2', rfl⟩
  · left
    have h1' : c.config.map_num ≤ h k c.config.map_num := by omega
    rw [find_pos_panic h k _ h1']
    exact ⟨h1', rfl⟩

/-- The outcome of `cache_set` on a well-formed state, by cases on the two
hash indices and the two lock outcomes. -/
theorem cache_set_cases (c : cache_t) (k : Key) (src : Bytes) (n : Nat) (now : Int)
    (l1 l2 : Bool) (h : hasher_t) (hwf : cache_wf c) (hh : c.config.hasher = some h) :
    (c.config.map_num ≤ h k c.config.map_num ∧
      cache_set c k src n now l1 l2 = .error (.panic .hasher_invalid_position)) ∨
    (h k c.config.map_num < c.config.map_num ∧ l1 = false ∧
      cache_set c k src n now l1 l2 = .ok (c, false)) ∨
    (h k c.config.map_num < c.config.map_num ∧ l1 = true ∧
      ∃ map, c.cache_maps[h k c.config.map_num]? = some map ∧
        ((map.length ≤ h k map.length ∧
            cache_set c k src n now l1 l2 = .error (.panic .hasher_invalid_position)) ∨
         (h k map.length < map.length ∧ l2 = false ∧
            cache_set c k src n now l1 l2 = .ok (c, false)) ∨
         (h k map.length < map.length ∧ l2 = true ∧
            ∃ root, map.nodes[h k map.length]? = some root ∧
              ((realloc_fault root k n ∧
                  cache_set c k src n now l1 l2 = .error (.panic .realloc_failed)) ∨
               (¬ realloc_fault root k n ∧
                  cache_set c k src n now l1 l2 =
                    .ok ({ c with
                           cache_maps := (c.cache_maps.set (h k c.config.map_num)
                             (set_map map (h k map.length) k src n
                               (now + (c.config.cache_second : Int)) root)) },
                         true)))))) := by
  obtain ⟨w1, w2, -, -⟩ := hwf
  by_cases h1 : h k c.config.map_num < c.config.map_num
  · right
    have hi : h k c.config.map_num < c.cache_maps.length := by omega
    have hmapq := List.getElem?_eq_getElem hi
    generalize hmap : c.cache_maps[h k c.config.map_num] = map at hmapq
    have hmem : map ∈ c.cache_maps := hmap ▸ List.getElem_mem _
    have hl : map.nodes.length = map.length := w2 map hmem
    cases l1 with
    | false =>
      left
      refine ⟨h1, rfl, ?_⟩
      unfold cache_set
      simp [hh, find_pos_ok h k _ h1]
    | true =>
      right
      refine ⟨h1, rfl, map, hmapq, ?_⟩
      by_cases h2 : h k map.length < map.length
      · right
        cases l2 with
        | false =>
          left
          refine ⟨h2, rfl, ?_⟩
          unfold cache_set
          simp [hh, find_pos_ok h k _ h1, hmapq, find_pos_ok h k _ h2]
        | true =>
          right
          have hj : h k map.length < map.nodes.length := by omega
          refine ⟨h2, rfl, map.nodes[h k map.length], List.getElem?_eq_getElem hj, ?_⟩
          by_cases hf : realloc_fault map.nodes[h k map.length] k n
          · exact Or.inl ⟨hf, cache_set_realloc_fault c k src n now h map _ hh h1 hmapq h2
              (List.getElem?_eq_getElem hj) hf⟩
          · exact Or.inr ⟨hf, cache_set_eq c k src n now h map _ hh h1 hmapq h2
              (List.getElem?_eq_getElem hj) hf⟩
      · left
        have h2' : map.length ≤ h k map.length := by omega
        refine ⟨h2', ?_⟩
        unfold cache_set
        simp [hh, find_pos_ok h k _ h1, hmapq, find_pos_panic h k _ h2']
  · left
    have h1' : c.config.map_num ≤ h k c.config.map_num := by omega
    refine ⟨h1', ?_⟩
    unfold cache_set
    simp [hh, find_pos_panic h k _ h1']

theorem traverse_error (chain : Chain) (now : Int) (k : Key) (dst : Option Bytes) (cap : Nat)
    (e : Fault) (h : _traverse_copy_node chain now k dst cap = .error e) :
    e = .panic .destination_not_allocated := by
  induction chain with
  | nil => simp [_traverse_copy_node] at h
  | cons n next ih =>
    unfold _traverse_copy_node at h
    split at h
    · exact ih h
    · unfold _copy_node_data at h
      split at h
      · rename_i heq
        split at heq
        · cases heq; cases h; rfl
        · cases heq
      · cases h

theorem cache_get_range (c : cache_t) (k : Key) (dst : Option Bytes) (cap : Nat) (now : Int)
    (l1 l2 : Bool) (h : hasher_t) (hwf : cache_wf c) (hh : c.config.hasher = some h) :
    (cache_get c k dst cap now l1 l2 = .error (.panic .hasher_invalid_position) ↔
      range_fault c h k l1) ∧
    cache_get c k dst cap now l1 l2 ≠ .error .undefined := by
  unfold range_fault
  rcases cache_get_cases c k dst cap now l1 l2 h hwf hh with
    ⟨h1, hg⟩ | ⟨h1, hl, hg⟩ | ⟨h1, hl, map, hmap, hrest⟩
  · rw [hg]
    exact ⟨⟨fun _ => Or.inl h1, fun _ => rfl⟩, by simp⟩
  · rw [hg]
    refine ⟨⟨fun hc => (by cases hc), ?_⟩, by simp⟩
    rintro (h' | ⟨hl', -⟩)
    · omega
    · rw [hl] at hl'; cases hl'
  · rcases hrest with ⟨h2, hg⟩ | ⟨h2, hl2, hg⟩ | ⟨h2, hl2, chain, hchain, hg⟩
    · rw [hg]
      exact ⟨⟨fun _ => Or.inr ⟨hl, map, hmap, h2⟩, fun _ => rfl⟩, by simp⟩
    · rw [hg]
      refine ⟨⟨fun hc => (by cases hc), ?_⟩, by simp⟩
      rintro (h' | ⟨-, map', hmap', h2'⟩)
      · omega
      · rw [hmap] at hmap'; cases hmap'; omega
    · rw [hg]
      refine ⟨⟨fun hc => ?_, ?_⟩, fun hc => ?_⟩
      · have := traverse_error _ _ _ _ _ _ hc
        cases this
      · rintro (h' | ⟨-, map', hmap', h2'⟩)
        · omega
        · rw [hmap] at hmap'; cases hmap'; omega
      · have := traverse_error _ _ _ _ _ _ hc
        cases this

theorem cache_set_range (c : cache_t) (k : Key) (src : Bytes) (n : Nat) (now : Int)
    (l1 l2 : Bool) (h : hasher_t) (hwf : cache_wf c) (hh : c.config.hasher = some h) :
    (cache_set c k src n now l1 l2 = .error (.panic .hasher_invalid_position) ↔
      range_fault c h k l1) ∧
    cache_set c k src n now l1 l2 ≠ .error .undefined := by
  unfold range_fault
  rcases cache_set_cases c k src n now l1 l2 h hwf hh with
    ⟨h1, hg⟩ | ⟨h1, hl, hg⟩ | ⟨h1, hl, map, hmap, hrest⟩
  · rw [hg]
    exact ⟨⟨fun _ => Or.inl h1, fun _ => rfl⟩, by simp⟩
  · rw [hg]
    refine ⟨⟨fun hc => (by cases hc), ?_⟩, by simp⟩
    rintro (h' | ⟨hl', -⟩)
    · omega
    · rw [hl] at hl'; cases hl'
  · rcases hrest with ⟨h2, hg⟩ | ⟨h2, hl2, hg⟩ | ⟨h2, hl2, root, hroot, hg⟩
    · rw [hg]
      exact ⟨⟨fun _ => Or.inr ⟨hl, map, hmap, h2⟩, fun _ => rfl⟩, by simp⟩
    · rw [hg]
      refine ⟨⟨fun hc => (by cases hc), ?_⟩, by simp⟩
      rintro (h' | ⟨-, map', hmap', h2'⟩)
      · omega
      · rw [hmap] at hmap'; cases hmap'; omega
    · rcases hg with ⟨-, hg⟩ | ⟨-, hg⟩
      all_goals rw [hg]
      all_goals refine ⟨⟨fun hc => (by cases hc), ?_⟩, by simp⟩
      all_goals
        rintro (h' | ⟨-, map', hmap', h2'⟩)
        · omega
        · rw [hmap] at hmap'; cases hmap'; omega

/-- C10 as stated fails where the shard lock is not acquired: with
`skew_hasher` the bucket index 7 of the key is not below the bucket count 2
of the selected shard, and `cache_get` returns false instead of raising the
fault, because it returns before the second call of `_find_pos`. -/
theorem hash_range_check_counterexample :
    (∃ map, (new_cache (some skew_conf)).cache_maps[skew_hasher haha 1]? = some map ∧
      map.length ≤ skew_hasher haha map.length) ∧
    cache_get (new_cache (some skew_conf)) haha (some [1]) 1 0 false true
      = .ok (false, some [1]) :=
  ⟨⟨new_map 2, rfl, by decide⟩, rfl⟩

/-- C10 (hash range check), amended. `_find_pos` raises the range fault
exactly when `hasher(key, m) >= m` and otherwise returns `hasher(key, m)`.
On a well-formed state `cache_get`, `cache_get_block` and `cache_set` raise
that fault exactly when the shard index is not below `map_num`, or the shard
lock was acquired and the bucket index is not below the `length` of the
selected shard; and none of them reads a shard or bucket array out of
range. -/
theorem hash_range_check (hasher : hasher_t) (key : Key) (m : Nat) :
    (_find_pos hasher key m = .error (.panic .hasher_invalid_position) ↔ m ≤ hasher key m) ∧
    (¬ m ≤ hasher key m → _find_pos hasher key m = .ok (hasher key m)) ∧
    (∀ (c : cache_t) (dst : Option Bytes) (cap : Nat) (src : Bytes) (n : Nat) (now : Int)
        (l1 l2 : Bool), cache_wf c → c.config.hasher = some hasher →
      (cache_get c key dst cap now l1 l2 = .error (.panic .hasher_invalid_position) ↔
        range_fault c hasher key l1) ∧
      (cache_get_block c key dst cap now l1 l2 = .error (.panic .hasher_invalid_position) ↔
        range_fault c hasher key l1) ∧
      (cache_set c key src n now l1 l2 = .error (.panic .hasher_invalid_position) ↔
        range_fault c hasher key l1) ∧
      cache_get c key dst cap now l1 l2 ≠ .error .undefined ∧
      cache_get_block c key dst cap now l1 l2 ≠ .error .undefined ∧
      cache_set c key src n now l1 l2 ≠ .error .undefined) := by
  refine ⟨?_, ?_, ?_⟩
  · unfold _find_pos
    by_cases hm : m ≤ hasher key m <;> simp [hm]
  · intro hm
    exact find_pos_ok hasher key m (by omega)
  · intro c dst cap src n now l1 l2 hwf hh
    have hg := cache_get_range c key dst cap now l1 l2 hasher hwf hh
    have hs := cache_set_range c key src n now l1 l2 hasher hwf hh
    exact ⟨hg.1, by rw [cache_get_block_eq]; exact hg.1, hs.1, hg.2,
      by rw [cache_get_block_eq]; exact hg.2, hs.2⟩

theorem hash_range_check_witness :
    cache_wf (new_cache (some skew_conf)) ∧
    (new_cache (some skew_conf)).config.hasher = some skew_hasher ∧
    range_fault (new_cache (some skew_conf)) skew_hasher haha true ∧
    cache_get (new_cache (some skew_conf)) haha (some [1]) 1 0 true true
      = .error (.panic .hasher_invalid_position) ∧
    ¬ 1 ≤ skew_hasher haha 1 ∧
    _find_pos skew_hasher haha 1 = .ok (skew_hasher haha 1) :=
  have h := (hash_range_check skew_hasher haha 2).2.2 (new_cache (some skew_conf))
    (some [1]) 1 [] 0 0 true true (by decide) rfl
  ⟨by decide, rfl, h.1.mp rfl, h.1.mpr (h.1.mp rfl), by decide,
    (hash_range_check skew_hasher haha 1).2.1 (by decide)⟩

/-! ## Construction (C9) -/

theorem default_hasher_lt (k : Key) (m : Nat) (hm : 0 < m) : default_hasher k m < m := by
  unfold default_hasher
  exact Nat.mod_lt _ hm

theorem new_config_map_num_pos (conf : Option config_t) : 0 < (new_config conf).map_num := by
  unfold new_config
  cases conf with
  | none => simp [DEFAULT_MAP_NUM]
  | some cf =>
    simp only
    split
    · assumption
    · simp [DEFAULT_MAP_NUM]

theorem new_config_map_init_len_pos (conf : Option config_t) :
    0 < (new_config conf).map_init_len := by
  unfold new_config
  cases conf with
  | none => simp [DEFAULT_MAP_INIT_LEN]
  | some cf =>
    simp only
    split
    · assumption
    · simp [DEFAULT_MAP_INIT_LEN]

theorem new_config_cache_second_pos (conf : Option config_t) :
    0 < (new_config conf).cache_second := by
  unfold new_config
  cases conf with
  | none => simp [DEFAULT_CACHE_SECONDS]
  | some cf =>
    simp only
    split
    · assumption
    · simp [DEFAULT_CACHE_SECONDS]

theorem new_config_hasher (conf : Option config_t) :
    (new_config conf).hasher = some (supplied_or_default_fn conf (·.hasher) default_hasher) := by
  unfold new_config supplied_or_default_fn
  cases conf with
  | none => rfl
  | some cf => cases hc : cf.hasher <;> simp [hc]

theorem new_config_expander (conf : Option config_t) :
    (new_config conf).expander =
      some (supplied_or_default_fn conf (·.expander) default_expander) := by
  unfold new_config supplied_or_default_fn
  cases conf with
  | none => rfl
  | some cf => cases hc : cf.expander <;> simp [hc]

theorem new_cache_wf (conf : Option config_t) : cache_wf (new_cache conf) := by
  refine ⟨by simp [new_cache], ?_, ?_, ?_⟩
  · intro m hm
    simp only [new_cache, List.mem_replicate] at hm
    rw [hm.2]
    simp [map_wf, new_map]
  · simp [new_cache, new_config_hasher]
  · simp [new_cache, new_config_expander]

theorem new_cache_bucket (conf : Option config_t) (i j : Nat) (map : cache_map_t)
    (chain : Chain) (hmap : (new_cache conf).cache_maps[i]? = some map)
    (hchain : map.nodes[j]? = some chain) : chain = [] := by
  have hm : map ∈ (new_cache conf).cache_maps := List.getElem?_mem hmap
  simp only [new_cache, List.mem_replicate] at hm
  have hc : chain ∈ map.nodes := List.getElem?_mem hchain
  rw [hm.2] at hc
  simp only [new_map, List.mem_replicate] at hc
  exact hc.2

theorem new_cache_get_false (conf : Option config_t) (k : Key) (dst : Option Bytes)
    (cap : Nat) (now : Int) (l1 l2 : Bool) (h : hasher_t)
    (hh : (new_cache conf).config.hasher = some h)
    (hno : ¬ range_fault (new_cache conf) h k l1) :
    cache_get (new_cache conf) k dst cap now l1 l2 = .ok (false, dst) := by
  rcases cache_get_cases (new_cache conf) k dst cap now l1 l2 h (new_cache_wf conf) hh with
    ⟨h1, -⟩ | ⟨-, -, hg⟩ | ⟨h1, hl, map, hmap, hrest⟩
  · exact absurd (Or.inl h1) hno
  · exact hg
  · rcases hrest with ⟨h2, -⟩ | ⟨-, -, hg⟩ | ⟨-, -, chain, hchain, hg⟩
    · exact absurd (Or.inr ⟨hl, map, hmap, h2⟩) hno
    · exact hg
    · rw [hg, new_cache_bucket conf _ _ map chain hmap hchain]
      rfl

theorem new_cache_default_no_fault (conf : Option config_t) (k : Key) (l1 : Bool) :
    ¬ range_fault (new_cache conf) default_hasher k l1 := by
  rintro (h1 | ⟨-, map, hmap, h2⟩)
  · have := default_hasher_lt k (new_cache conf).config.map_num (new_config_map_num_pos conf)
    omega
  · have hm : map ∈ (new_cache conf).cache_maps := List.getElem?_mem hmap
    simp only [new_cache, List.mem_replicate] at hm
    have hl : map.length = (new_config conf).map_init_len := by rw [hm.2]; rfl
    have := default_hasher_lt k map.length (hl ▸ new_config_map_init_len_pos conf)
    omega

/-- C9 as stated fails in its last part: on the fresh cache built with the
supplied `far_hasher`, `cache_get` does not return false, it raises the
fault of the range check. -/
theorem construction_defaults_counterexample :
    cache_get (new_cache (some far_conf)) haha (some [1]) 1 0 true true
      = .error (.panic .hasher_invalid_position) ∧
    ¬ ∃ d, cache_get (new_cache (some far_conf)) haha (some [1]) 1 0 true true
      = .ok (false, d) := by
  have h : cache_get (new_cache (some far_conf)) haha (some [1]) 1 0 true true
      = .error (.panic .hasher_invalid_position) := by
    unfold cache_get
    rfl
  refine ⟨h, ?_⟩
  rintro ⟨d, hd⟩
  rw [h] at hd
  cases hd

/-- C9 (construction defaults), amended. For every configuration argument
`new_cache` stores, for each of `map_num`, `map_init_len`, `cache_second`,
`sweep_second`, `expand_second`, the supplied value when it is positive and
otherwise 128, 1024, 60, 150, 300; the supplied hasher and expander when
not NULL and otherwise the defaults; the cache has `map_num` shards, each
with `map_init_len` empty buckets and size counter 0. On that fresh cache
`cache_get` returns false for every key for which the range check of the
stored hasher does not fail, raises the range fault for the other keys, and
returns false for every key when the stored hasher is the default one. -/
theorem construction_defaults (conf : Option config_t) :
    (new_cache conf).config.map_num = supplied_or_default conf (·.map_num) 128 ∧
    (new_cache conf).config.map_init_len = supplied_or_default conf (·.map_init_len) 1024 ∧
    (new_cache conf).config.cache_second = supplied_or_default conf (·.cache_second) 60 ∧
    (new_cache conf).config.sweep_second = supplied_or_default conf (·.sweep_second) 150 ∧
    (new_cache conf).config.expand_second = supplied_or_default conf (·.expand_second) 300 ∧
    (new_cache conf).config.hasher =
      some (supplied_or_default_fn conf (·.hasher) default_hasher) ∧
    (new_cache conf).config.expander =
      some (supplied_or_default_fn conf (·.expander) default_expander) ∧
    (new_cache conf).cache_maps.length = (new_cache conf).config.map_num ∧
    (∀ map ∈ (new_cache conf).cache_maps,
      map.length = (new_cache conf).config.map_init_len ∧
      map.nodes = List.replicate (new_cache conf).config.map_init_len [] ∧
      map.size = 0) ∧
    (∀ k dst cap now l1 l2,
      ¬ range_fault (new_cache conf) (supplied_or_default_fn conf (·.hasher) default_hasher) k l1 →
      cache_get (new_cache conf) k dst cap now l1 l2 = .ok (false, dst)) ∧
    (∀ k dst cap now l1 l2,
      range_fault (new_cache conf) (supplied_or_default_fn conf (·.hasher) default_hasher) k l1 →
      cache_get (new_cache conf) k dst cap now l1 l2 =
        .error (.panic .hasher_invalid_position)) ∧
    (supplied_or_default_fn conf (·.hasher) default_hasher = default_hasher →
      ∀ k dst cap now l1 l2,
        cache_get (new_cache conf) k dst cap now l1 l2 = .ok (false, dst)) := by
  have hh : (new_cache conf).config.hasher =
      some (supplied_or_default_fn conf (·.hasher) default_hasher) := new_config_hasher conf
  refine ⟨?_, ?_, ?_, ?_, ?_, hh, new_config_expander conf, by simp [new_cache], ?_, ?_, ?_, ?_⟩
  · cases conf <;> rfl
  · cases conf <;> rfl
  · cases conf <;> rfl
  · cases conf <;> rfl
  · cases conf <;> rfl
  · intro map hm
    simp only [new_cache, List.mem_replicate] at hm
    rw [hm.2]
    exact ⟨rfl, rfl, rfl⟩
  · intro k dst cap now l1 l2 hno
    exact new_cache_get_false conf k dst cap now l1 l2 _ hh hno
  · intro k dst cap now l1 l2 hf
    exact (cache_get_range (new_cache conf) k dst cap now l1 l2 _ (new_cache_wf conf) hh).1.mpr hf
  · intro hd k dst cap now l1 l2
    rw [hd] at hh
    exact new_cache_get_false conf k dst cap now l1 l2 _ hh
      (new_cache_default_no_fault conf k l1)

theorem construction_defaults_witness :
    (¬ range_fault (new_cache none) (supplied_or_default_fn none (·.hasher) default_hasher)
        haha true ∧
      cache_get (new_cache none) haha (some [1]) 1 0 true true = .ok (false, some [1])) ∧
    (range_fault (new_cache (some far_conf))
        (supplied_or_default_fn (some far_conf) (·.hasher) default_hasher) haha true ∧
      cache_get (new_cache (some far_conf)) haha (some [1]) 1 0 true true
        = .error (.panic .hasher_invalid_position)) ∧
    (supplied_or_default_fn (some demo_conf) (·.hasher) default_hasher = default_hasher ∧
      cache_get (new_cache (some demo_conf)) haha none 1 0 true true = .ok (false, none)) :=
  have hno : ¬ range_fault (new_cache none)
      (supplied_or_default_fn none (·.hasher) default_hasher) haha true :=
    new_cache_default_no_fault none haha true
  have hf : range_fault (new_cache (some far_conf))
      (supplied_or_default_fn (some far_conf) (·.hasher) default_hasher) haha true :=
    Or.inl (by decide)
  ⟨⟨hno, (construction_defaults none).2.2.2.2.2.2.2.2.2.1 haha (some [1]) 1 0 true true hno⟩,
   ⟨hf, (construction_defaults (some far_conf)).2.2.2.2.2.2.2.2.2.2.1
      haha (some [1]) 1 0 true true hf⟩,
   ⟨rfl, (construction_defaults (some demo_conf)).2.2.2.2.2.2.2.2.2.2.2 rfl
      haha none 1 0 true true⟩⟩

/-! ## The cleaner at two concrete states (C7, C8) -/

/-- C7, the code at a failing input. In `run_state` the chain is c (expiry
25), b (expiry 10), a (expiry 10). The cleaner pass at time 20 with all
locks acquired unlinks b and then steps over a without testing it: a, whose
expiry has passed, is still in the chain after the pass. -/
theorem cleaner_skips_after_removal :
    run_state.cache_maps =
      [{ nodes := [[⟨key_c, [3], 1, 25⟩, ⟨key_b, [2], 1, 10⟩, ⟨key_a, [1], 1, 10⟩]],
         length := 1, size := 3 }] ∧
    ∃ c2, _cleaner_thread run_state 20 (fun _ => true) (fun _ _ => true) = .ok c2 ∧
      c2.cache_maps =
        [{ nodes := [[⟨key_c, [3], 1, 25⟩, ⟨key_a, [1], 1, 10⟩]], length := 1, size := 3 }] ∧
      ∃ map ∈ c2.cache_maps, ∃ chain ∈ map.nodes, ∃ nd ∈ chain,
        nd.expr > 0 ∧ (20 : Int) > nd.expr :=
  ⟨by decide, after_clean run_state 20, rfl, by decide, by decide⟩

/-- C8, the code at a failing input. In `head_state` the chain is b (expiry
11), a (expiry 15). The cleaner pass at time 12 with all locks acquired
finds the head b expired and sets the bucket to NULL: a, which is not
expired, is gone, and the lookup of a at time 12 returns true before the
pass and false after it. -/
theorem cleaner_drops_chain_after_expired_head :
    head_state.cache_maps =
      [{ nodes := [[⟨key_b, [2], 1, 11⟩, ⟨key_a, [1], 1, 15⟩]], length := 1, size := 2 }] ∧
    cache_get head_state key_a (some [0]) 1 12 true true = .ok (true, some [1]) ∧
    ∃ c2, _cleaner_thread head_state 12 (fun _ => true) (fun _ _ => true) = .ok c2 ∧
      c2.cache_maps = [{ nodes := [[]], length := 1, size := 2 }] ∧
      cache_get c2 key_a (some [0]) 1 12 true true = .ok (false, some [0]) :=
  ⟨by decide, rfl, after_clean head_state 12, rfl, by decide, rfl⟩

/-! ## A cleaner pass returns and only removes nodes -/

theorem pointwise_refl {α : Type} (R : α → α → Prop) (hR : ∀ a, R a a) (l : List α) :
    pointwise R l l := by
  refine ⟨rfl, ?_⟩
  intro j a b ha hb
  rw [ha] at hb
  cases hb
  exact hR a

theorem pointwise_trans {α : Type} (R : α → α → Prop)
    (hR : ∀ a b c, R a b → R b c → R a c) (l l2 l3 : List α)
    (h12 : pointwise R l l2) (h23 : pointwise R l2 l3) : pointwise R l l3 := by
  refine ⟨h23.1.trans h12.1, ?_⟩
  intro j a c ha hc
  have hj : j < l.length := (List.getElem?_eq_some.mp ha).1
  have hj2 : j < l2.length := by rw [h12.1]; exact hj
  exact hR a l2[j] c (h12.2 j a l2[j] ha (List.getElem?_eq_getElem hj2))
    (h23.2 j l2[j] c (List.getElem?_eq_getElem hj2) hc)

theorem pointwise_set {α : Type} (R : α → α → Prop) (hR : ∀ a, R a a) (l : List α)
    (j : Nat) (a b : α) (ha : l[j]? = some a) (hab : R a b) : pointwise R l (l.set j b) := by
  refine ⟨by simp, ?_⟩
  intro x a2 b2 ha2 hb2
  by_cases hx : j = x
  · subst hx
    have hj : j < l.length := (List.getElem?_eq_some.mp ha).1
    rw [List.getElem?_set_self hj] at hb2
    rw [ha] at ha2
    cases ha2; cases hb2
    exact hab
  · rw [List.getElem?_set_ne hx] at hb2
    rw [ha2] at hb2
    cases hb2
    exact hR a2

theorem sweep_following_sublist (now : Int) (chain : Chain) :
    (sweep_following now chain).Sublist chain := by
  induction chain using sweep_following.induct now with
  | case1 => simp [sweep_following]
  | case2 node => simp [sweep_following]
  | case3 node next_node rest hexp ih =>
    rw [sweep_following, if_pos hexp]
    exact (ih.trans (List.sublist_cons_self _ _)).cons₂ _
  | case4 node next_node rest hexp ih =>
    rw [sweep_following, if_neg hexp]
    exact ih.cons₂ _

theorem sweep_bucket_sublist (now : Int) (chain : Chain) :
    (sweep_bucket now chain).Sublist chain := by
  unfold sweep_bucket
  have h := sweep_following_sublist now chain
  split
  · exact List.nil_sublist _
  · rename_i head rest heq
    rw [heq] at h
    split
    · exact List.nil_sublist _
    · exact h

theorem shrinks_refl (a : Chain) : shrinks a a := List.Sublist.refl a

theorem shrinks_trans (a b c : Chain) (hab : shrinks a b) (hbc : shrinks b c) : shrinks a c :=
  List.Sublist.trans hbc hab

theorem sweep_buckets_total (now : Int) (ok : Nat → Bool) (n : Nat) :
    ∀ (j : Nat) (nodes : List Chain), j + n ≤ nodes.length →
      ∃ nodes2, sweep_buckets now ok n j nodes = .ok nodes2 ∧ pointwise shrinks nodes nodes2 := by
  induction n with
  | zero =>
    intro j nodes _
    exact ⟨nodes, rfl, pointwise_refl shrinks shrinks_refl nodes⟩
  | succ n ih =>
    intro j nodes hlen
    have hj : j < nodes.length := by omega
    unfold sweep_buckets
    simp only [List.getElem?_eq_getElem hj]
    split
    · exact ih (j + 1) nodes (by omega)
    · obtain ⟨nodes2, h1, h2⟩ :=
        ih (j + 1) (nodes.set j (sweep_bucket now nodes[j])) (by simp; omega)
      refine ⟨nodes2, h1, ?_⟩
      refine pointwise_trans shrinks shrinks_trans _ _ _ ?_ h2
      exact pointwise_set shrinks shrinks_refl nodes j nodes[j] _
        (List.getElem?_eq_getElem hj) (sweep_bucket_sublist now _)

theorem map_shrinks_refl (m : cache_map_t) : map_shrinks m m :=
  ⟨rfl, rfl, pointwise_refl shrinks shrinks_refl _⟩

theorem map_shrinks_trans (a b c : cache_map_t) (hab : map_shrinks a b)
    (hbc : map_shrinks b c) : map_shrinks a c :=
  ⟨hbc.1.trans hab.1, hbc.2.1.trans hab.2.1,
    pointwise_trans shrinks shrinks_trans _ _ _ hab.2.2 hbc.2.2⟩

theorem sweep_maps_total (now : Int) (mok : Nat → Bool) (nok : Nat → Nat → Bool) (n : Nat) :
    ∀ (i : Nat) (maps : List cache_map_t), i + n ≤ maps.length →
      (∀ m ∈ maps, map_wf m) →
      ∃ maps2, sweep_maps now mok nok n i maps = .ok maps2 ∧
        pointwise map_shrinks maps maps2 := by
  induction n with
  | zero =>
    intro i maps _ _
    exact ⟨maps, rfl, pointwise_refl map_shrinks map_shrinks_refl maps⟩
  | succ n ih =>
    intro i maps hlen hwf
    have hi : i < maps.length := by omega
    unfold sweep_maps
    split
    · exact ih (i + 1) maps (by omega) hwf
    · simp only [List.getElem?_eq_getElem hi]
      have hm : map_wf maps[i] := hwf _ (List.getElem_mem _)
      obtain ⟨nodes2, hn1, hn2⟩ :=
        sweep_buckets_total now (nok i) maps[i].length 0 maps[i].nodes (by rw [hm]; omega)
      simp only [hn1]
      have hwf2 : ∀ m ∈ maps.set i { maps[i] with nodes := nodes2 }, map_wf m := by
        intro m hmem
        rcases List.mem_or_eq_of_mem_set hmem with h | rfl
        · exact hwf m h
        · exact hn2.1.trans hm
      obtain ⟨maps2, h1, h2⟩ :=
        ih (i + 1) (maps.set i { maps[i] with nodes := nodes2 }) (by simp; omega) hwf2
      refine ⟨maps2, h1, pointwise_trans map_shrinks map_shrinks_trans _ _ _ ?_ h2⟩
      exact pointwise_set map_shrinks map_shrinks_refl maps i maps[i] _
        (List.getElem?_eq_getElem hi) ⟨rfl, rfl, hn2⟩

/-- On a well-formed state a cleaner pass returns, keeps the configuration,
and leaves in every bucket a chain obtained from the old one by removing
nodes. -/
theorem cleaner_total (c : cache_t) (now : Int) (mok : Nat → Bool) (nok : Nat → Nat → Bool)
    (hwf : cache_wf c) :
    ∃ c2, _cleaner_thread c now mok nok = .ok c2 ∧ c2.config = c.config ∧
      pointwise map_shrinks c.cache_maps c2.cache_maps := by
  obtain ⟨w1, w2, -, -⟩ := hwf
  obtain ⟨maps2, h1, h2⟩ :=
    sweep_maps_total now mok nok c.config.map_num 0 c.cache_maps (by omega) w2
  refine ⟨{ c with cache_maps := maps2 }, ?_, rfl, h2⟩
  unfold _cleaner_thread
  simp [h1]

/-! ## The invariant of the reachable states -/

theorem cache_inv_wf (c : cache_t) (hinv : cache_inv c) : cache_wf c := by
  obtain ⟨h, e, hh, he, -, hlen, hm⟩ := hinv
  refine ⟨hlen, ?_, by simp [hh], by simp [he]⟩
  intro m hmem
  obtain ⟨i, hi⟩ := List.mem_iff_getElem?.mp hmem
  exact (hm i m hi).1

theorem new_cache_inv (conf : Option config_t) : cache_inv (new_cache conf) := by
  refine ⟨_, _, new_config_hasher conf, new_config_expander conf,
    new_config_cache_second_pos conf, by simp [new_cache], ?_⟩
  intro i m hm
  have hmem : m ∈ (new_cache conf).cache_maps := List.getElem?_mem hm
  simp only [new_cache, List.mem_replicate] at hmem
  refine ⟨by rw [hmem.2]; simp [new_map], ?_⟩
  intro j chain hchain
  have := new_cache_bucket conf i j m chain hm hchain
  subst this
  simp [chain_inv, chain_keys]

theorem chain_keys_sublist (chain chain2 : Chain) (h : chain2.Sublist chain) :
    (chain_keys chain2).Sublist (chain_keys chain) :=
  List.Sublist.map _ h

theorem chain_inv_shrinks (h : hasher_t) (len j : Nat) (chain chain2 : Chain)
    (hs : shrinks chain chain2) (hinv : chain_inv h len j chain) : chain_inv h len j chain2 := by
  have hk := chain_keys_sublist chain chain2 hs
  exact ⟨hinv.1.sublist hk, fun key hkey => hinv.2 key (hk.subset hkey)⟩

theorem map_inv_shrinks (h : hasher_t) (map_num i : Nat) (m m2 : cache_map_t)
    (hs : map_shrinks m m2) (hinv : map_inv h map_num i m) : map_inv h map_num i m2 := by
  obtain ⟨hl, -, hlen, hp⟩ := hs
  refine ⟨by rw [hlen, hl]; exact hinv.1, ?_⟩
  intro j chain2 hc2
  have hj : j < m.nodes.length := by
    rw [← hlen]; exact (List.getElem?_eq_some.mp hc2).1
  have hc := List.getElem?_eq_getElem hj
  have hsh := hp j _ chain2 hc hc2
  obtain ⟨h1, h2⟩ := hinv.2 j _ hc
  refine ⟨?_, fun key hkey => h2 key ((chain_keys_sublist _ _ hsh).subset hkey)⟩
  rw [hl]
  exact chain_inv_shrinks h m.length j _ chain2 hsh h1

theorem cleaner_inv (c c2 : cache_t) (now : Int) (mok : Nat → Bool) (nok : Nat → Nat → Bool)
    (hinv : cache_inv c) (hc : _cleaner_thread c now mok nok = .ok c2) : cache_inv c2 := by
  obtain ⟨c3, h3, hconf, hp⟩ := cleaner_total c now mok nok (cache_inv_wf c hinv)
  rw [h3] at hc
  cases hc
  obtain ⟨h, e, hh, he, hpos, hlen, hm⟩ := hinv
  refine ⟨h, e, by rw [hconf]; exact hh, by rw [hconf]; exact he, by rw [hconf]; exact hpos,
    by rw [hconf, hp.1]; exact hlen, ?_⟩
  intro i m2 hm2
  have hi : i < c.cache_maps.length := by
    rw [← hp.1]; exact (List.getElem?_eq_some.mp hm2).1
  have hmi := List.getElem?_eq_getElem hi
  rw [hconf]
  exact map_inv_shrinks h _ i _ m2 (hp.2 i _ m2 hmi hm2) (hm i _ hmi)

theorem chain_keys_set_chain (k : Key) (src : Bytes) (n : Nat) (e : Int) (root : Chain) :
    chain_keys (set_chain k src n e root) =
      if k ∈ chain_keys root then chain_keys root else k :: chain_keys root := by
  unfold set_chain
  cases hs : update_chain k src n e root with
  | none =>
    have hnone := (update_chain_none_iff k src n e root).mp hs
    have : k ∉ chain_keys root := by
      simp only [chain_keys, List.mem_map, not_exists, not_and]
      exact fun m hm => hnone m hm
    rw [if_neg this]
    simp [chain_keys, inserted_node]
  | some chain =>
    obtain ⟨pre, p, post, h1, h2, h3, h4⟩ := update_chain_some k src n e root chain hs
    have : k ∈ chain_keys root := by
      simp only [chain_keys, List.mem_map]
      exact ⟨p, by simp [h1], h3⟩
    rw [if_pos this]
    simp [chain_keys, h1, h4, updated_node_key]

theorem chain_inv_set_chain (h : hasher_t) (len : Nat) (k : Key) (src : Bytes) (n : Nat)
    (e : Int) (root : Chain) (hinv : chain_inv h len (h k len) root) :
    chain_inv h len (h k len) (set_chain k src n e root) := by
  unfold chain_inv
  rw [chain_keys_set_chain]
  split
  · exact hinv
  · rename_i hk
    refine ⟨List.nodup_cons.mpr ⟨hk, hinv.1⟩, ?_⟩
    intro key hkey
    rcases List.mem_cons.mp hkey with rfl | h2
    · rfl
    · exact hinv.2 key h2

theorem cache_set_inv (c c2 : cache_t) (k : Key) (src : Bytes) (n : Nat) (now : Int)
    (l1 l2 ret : Bool) (hinv : cache_inv c)
    (hs : cache_set c k src n now l1 l2 = .ok (c2, ret)) : cache_inv c2 := by
  have hwf := cache_inv_wf c hinv
  obtain ⟨h, e, hh, he, hpos, hlen, hm⟩ := hinv
  rcases cache_set_cases c k src n now l1 l2 h hwf hh with
    ⟨-, hg⟩ | ⟨-, -, hg⟩ | ⟨h1, -, map, hmap, hrest⟩
  · rw [hg] at hs; cases hs
  · rw [hg] at hs; cases hs
    exact ⟨h, e, hh, he, hpos, hlen, hm⟩
  · rcases hrest with ⟨-, hg⟩ | ⟨-, -, hg⟩ | ⟨h2, -, root, hroot, hg⟩
    · rw [hg] at hs; cases hs
    · rw [hg] at hs; cases hs
      exact ⟨h, e, hh, he, hpos, hlen, hm⟩
    · rcases hg with ⟨-, hg⟩ | ⟨-, hg⟩
      · rw [hg] at hs; cases hs
      rw [hg] at hs; cases hs
      refine ⟨h, e, hh, he, hpos, by simpa using hlen, ?_⟩
      intro i m hmi
      simp only at hmi
      by_cases hi : h k c.config.map_num = i
      · subst hi
        have hlt : h k c.config.map_num < c.cache_maps.length := by omega
        rw [List.getElem?_set_self hlt] at hmi
        cases hmi
        obtain ⟨m1, m2⟩ := hm _ map hmap
        refine ⟨by simpa [set_map] using m1, ?_⟩
        intro j chain hchain
        simp only [set_map] at hchain ⊢
        by_cases hj : h k map.length = j
        · subst hj
          have hjl : h k map.length < map.nodes.length := by omega
          rw [List.getElem?_set_self hjl] at hchain
          cases hchain
          obtain ⟨r1, r2⟩ := m2 _ root hroot
          refine ⟨chain_inv_set_chain h map.length k src n _ root r1, ?_⟩
          intro key hkey
          rw [chain_keys_set_chain] at hkey
          split at hkey
          · exact r2 key hkey
          · rcases List.mem_cons.mp hkey with rfl | h3
            · rfl
            · exact r2 key h3
        · rw [List.getElem?_set_ne hj] at hchain
          exact m2 j chain hchain
      · rw [List.getElem?_set_ne hi] at hmi
        exact hm i m hmi

/-! ## The expander -/

theorem tail_insert_eq (nd : cache_node_t) (chain : Chain) :
    tail_insert nd chain = chain ++ [nd] := by
  induction chain with
  | nil => rfl
  | cons p next ih => simp [tail_insert, ih]

theorem moved_nil (h : hasher_t) (cs : Nat) (now : Int) (len j : Nat) :
    moved h cs now len j [] = [] := rfl

theorem moved_cons (h : hasher_t) (cs : Nat) (now : Int) (len j : Nat) (nd : cache_node_t)
    (l : List cache_node_t) :
    moved h cs now len j (nd :: l) =
      if h nd.key len = j then refresh cs now nd :: moved h cs now len j l
      else moved h cs now len j l := by
  unfold moved
  by_cases hj : h nd.key len = j <;> simp [List.filter_cons, hj]

theorem moved_append (h : hasher_t) (cs : Nat) (now : Int) (len j : Nat)
    (l1 l2 : List cache_node_t) :
    moved h cs now len j (l1 ++ l2) = moved h cs now len j l1 ++ moved h cs now len j l2 := by
  simp [moved]

theorem expand_chain_ok (h : hasher_t) (cs : Nat) (now : Int) (chain : Chain) :
    ∀ (map map2 : cache_map_t), map.nodes.length = map.length →
      expand_chain (some h) cs now chain map = .ok map2 →
      map2.length = map.length ∧ map2.size = map.size ∧
      map2.nodes.length = map.nodes.length ∧
      (∀ nd ∈ chain, h nd.key map.length < map.length) ∧
      ∀ j : Nat, map2.nodes[j]? =
        (map.nodes[j]?).map (fun ch => ch ++ moved h cs now map.length j chain) := by
  induction chain with
  | nil =>
    intro map map2 _ hok
    simp only [expand_chain, Except.ok.injEq] at hok
    subst hok
    refine ⟨rfl, rfl, rfl, by simp, ?_⟩
    intro j
    cases map.nodes[j]? <;> simp [moved_nil]
  | cons node next ih =>
    intro map map2 hwf hok
    unfold expand_chain at hok
    simp only at hok
    by_cases hlt : h node.key map.length < map.length
    · rw [find_pos_ok h _ _ hlt] at hok
      simp only at hok
      have hj : h node.key map.length < map.nodes.length := by omega
      rw [List.getElem?_eq_getElem hj] at hok
      simp only at hok
      obtain ⟨a1, a2, a3, a4, a5⟩ := ih _ map2 (by simpa using hwf) hok
      simp only [List.length_set] at a3
      refine ⟨a1, a2, a3, ?_, ?_⟩
      · intro nd hnd
        rcases List.mem_cons.mp hnd with rfl | hn
        · exact hlt
        · exact a4 nd hn
      · intro j
        rw [a5 j]
        simp only
        rw [moved_cons]
        by_cases hpos : h node.key map.length = j
        · subst hpos
          rw [List.getElem?_set_self hj, List.getElem?_eq_getElem hj]
          simp only [Option.map_some', if_pos, tail_insert_eq, List.append_assoc]
          congr 2
          simp [refresh, _new_node, must_auto_malloc_eq, memcpy_zero_buffer]
        · rw [List.getElem?_set_ne hpos, if_neg hpos]
    · have hge : map.length ≤ h node.key map.length := by omega
      rw [find_pos_panic h _ _ hge] at hok
      cases hok

theorem expand_buckets_ok (h : hasher_t) (cs : Nat) (now : Int) (origin_nodes : List Chain)
    (n : Nat) :
    ∀ (i : Nat) (map map2 : cache_map_t), map.nodes.length = map.length →
      expand_buckets (some h) cs now origin_nodes n i map = .ok map2 →
      map2.length = map.length ∧ map2.size = map.size ∧
      map2.nodes.length = map.nodes.length ∧
      (∀ nd ∈ ((origin_nodes.drop i).take n).flatten, h nd.key map.length < map.length) ∧
      ∀ j : Nat, map2.nodes[j]? =
        (map.nodes[j]?).map
          (fun ch => ch ++ moved h cs now map.length j ((origin_nodes.drop i).take n).flatten) := by
  induction n with
  | zero =>
    intro i map map2 _ hok
    simp only [expand_buckets, Except.ok.injEq] at hok
    subst hok
    refine ⟨rfl, rfl, rfl, by simp, ?_⟩
    intro j
    cases map.nodes[j]? <;> simp [moved_nil]
  | succ n ih =>
    intro i map map2 hwf hok
    unfold expand_buckets at hok
    split at hok
    · cases hok
    · rename_i chain hchain
      split at hok
      · cases hok
      · rename_i map1 hmap1
        obtain ⟨b1, b2, b3, b4, b5⟩ := expand_chain_ok h cs now chain map map1 hwf hmap1
        obtain ⟨a1, a2, a3, a4, a5⟩ := ih (i + 1) map1 map2 (by omega) hok
        have hi : i < origin_nodes.length := (List.getElem?_eq_some.mp hchain).1
        have hci : origin_nodes[i] = chain := by
          have := List.getElem?_eq_getElem hi
          rw [hchain] at this
          exact (Option.some.inj this).symm
        have hdrop : (origin_nodes.drop i).take (n + 1) =
            chain :: (origin_nodes.drop (i + 1)).take n := by
          rw [List.drop_eq_getElem_cons hi, List.take_succ_cons, hci]
        refine ⟨by omega, by omega, by omega, ?_, ?_⟩
        · intro nd hnd
          rw [hdrop, List.flatten_cons, List.mem_append] at hnd
          rcases hnd with h1 | h2
          · exact b4 nd h1
          · have := a4 nd h2
            rw [b1] at this
            exact this
        · intro j
          rw [a5 j, b5 j, hdrop, List.flatten_cons, moved_append, b1]
          cases map.nodes[j]? <;> simp

theorem cache_map_expand_ok (c : cache_t) (origin map2 : cache_map_t) (now : Int)
    (h : hasher_t) (hh : c.config.hasher = some h)
    (hwf : origin.nodes.length = origin.length)
    (hok : _cache_map_expand c origin now = .ok map2) :
    map2.length = (origin.length * 2) % 2 ^ 32 ∧ map2.size = origin.size ∧
    map2.nodes.length = map2.length ∧
    (∀ nd ∈ origin.nodes.flatten, h nd.key map2.length < map2.length) ∧
    ∀ j : Nat, j < map2.length →
      map2.nodes[j]? =
        some (moved h c.config.cache_second now map2.length j origin.nodes.flatten) := by
  unfold _cache_map_expand at hok
  rw [hh] at hok
  simp only at hok
  obtain ⟨a1, a2, a3, a4, a5⟩ := expand_buckets_ok h c.config.cache_second now origin.nodes
    origin.length 0 _ map2 (by simp) hok
  simp only [List.length_replicate, List.drop_zero] at a1 a2 a3 a4 a5
  rw [← hwf, List.take_length] at a4 a5
  rw [hwf] at a4 a5
  refine ⟨a1, a2, by rw [a3, a1], ?_, ?_⟩
  · intro nd hnd
    rw [a1]
    exact a4 nd hnd
  · intro j hj
    rw [a5 j, a1]
    rw [a1] at hj
    rw [List.getElem?_replicate, if_pos hj]
    simp

theorem expand_maps_ok (c : cache_t) (now : Int) (mok : Nat → Bool) (n : Nat) :
    ∀ (i : Nat) (maps maps2 : List cache_map_t),
      expand_maps c now mok n i maps = .ok maps2 →
      maps2.length = maps.length ∧
      ∀ (x : Nat) (a b : cache_map_t), maps[x]? = some a → maps2[x]? = some b →
        b = a ∨ (i ≤ x ∧ _cache_map_expand c a now = .ok b) := by
  induction n with
  | zero =>
    intro i maps maps2 hok
    simp only [expand_maps, Except.ok.injEq] at hok
    subst hok
    refine ⟨rfl, ?_⟩
    intro x a b ha hb
    rw [ha] at hb
    cases hb
    exact Or.inl rfl
  | succ n ih =>
    intro i maps maps2 hok
    have hweak : ∀ maps1 : List cache_map_t, maps1 = maps →
        expand_maps c now mok n (i + 1) maps1 = .ok maps2 →
        maps2.length = maps.length ∧
        ∀ (x : Nat) (a b : cache_map_t), maps[x]? = some a → maps2[x]? = some b →
          b = a ∨ (i ≤ x ∧ _cache_map_expand c a now = .ok b) := by
      intro maps1 h1 hok1
      subst h1
      obtain ⟨a1, a2⟩ := ih (i + 1) _ maps2 hok1
      refine ⟨a1, ?_⟩
      intro x a b ha hb
      rcases a2 x a b ha hb with h | ⟨h, h2⟩
      · exact Or.inl h
      · exact Or.inr ⟨by omega, h2⟩
    unfold expand_maps at hok
    split at hok
    · exact hweak maps rfl hok
    · split at hok
      · cases hok
      · rename_i origin_map horigin
        split at hok
        · cases hok
        · split at hok
          · split at hok
            · cases hok
            · rename_i map hmap
              obtain ⟨a1, a2⟩ := ih (i + 1) _ maps2 hok
              have hi : i < maps.length := (List.getElem?_eq_some.mp horigin).1
              refine ⟨by simpa using a1, ?_⟩
              intro x a b ha hb
              by_cases hx : i = x
              · subst hx
                rw [horigin] at ha
                cases ha
                rcases a2 i map b (by rw [List.getElem?_set_self hi]) hb with h | ⟨h, -⟩
                · subst h
                  exact Or.inr ⟨le_refl _, hmap⟩
                · omega
              · rcases a2 x a b (by rw [List.getElem?_set_ne hx]; exact ha) hb with h | ⟨h, h2⟩
                · exact Or.inl h
                · exact Or.inr ⟨by omega, h2⟩
          · exact hweak maps rfl hok

/-- A returning expander pass keeps the configuration and leaves every shard
unchanged or replaced by its expansion. -/
theorem expander_ok (c c2 : cache_t) (now : Int) (mok : Nat → Bool)
    (hok : _expand_thread c now mok = .ok c2) :
    c2.config = c.config ∧ pointwise (expanded_or_same c now) c.cache_maps c2.cache_maps := by
  unfold _expand_thread at hok
  split at hok
  · cases hok
  · rename_i maps hmaps
    cases hok
    obtain ⟨a1, a2⟩ := expand_maps_ok c now mok _ 0 _ maps hmaps
    refine ⟨rfl, a1, ?_⟩
    intro j a b ha hb
    rcases a2 j a b ha hb with h | ⟨-, h⟩
    · exact Or.inl h
    · exact Or.inr h

theorem chain_keys_moved (h : hasher_t) (cs : Nat) (now : Int) (len j : Nat)
    (nodes : List cache_node_t) :
    chain_keys (moved h cs now len j nodes) =
      (chain_keys nodes).filter (fun key => decide (h key len = j)) := by
  unfold chain_keys moved
  rw [List.filter_map, List.map_map]
  rfl

theorem mem_chain_keys_flatten (nodes : List Chain) (key : Key)
    (hk : key ∈ chain_keys nodes.flatten) :
    ∃ (j : Nat) (chain : Chain), nodes[j]? = some chain ∧ key ∈ chain_keys chain := by
  simp only [chain_keys, List.mem_map, List.mem_flatten] at hk
  obtain ⟨nd, ⟨chain, hc, hnd⟩, hkey⟩ := hk
  obtain ⟨j, hj⟩ := List.mem_iff_getElem?.mp hc
  exact ⟨j, chain, hj, by simp only [chain_keys, List.mem_map]; exact ⟨nd, hnd, hkey⟩⟩

theorem flatten_keys_nodup (h : hasher_t) (map_num i : Nat) (m : cache_map_t)
    (hinv : map_inv h map_num i m) : (chain_keys m.nodes.flatten).Nodup := by
  unfold chain_keys
  rw [List.map_flatten, List.nodup_flatten]
  constructor
  · intro l hl
    obtain ⟨chain, hc, rfl⟩ := List.mem_map.mp hl
    obtain ⟨j, hj⟩ := List.mem_iff_getElem?.mp hc
    exact (hinv.2 j chain hj).1.1
  · rw [List.pairwise_iff_getElem]
    intro a b ha hb hab
    simp only [List.length_map] at ha hb
    simp only [List.getElem_map]
    intro key hka hkb
    have h1 := (hinv.2 a _ (List.getElem?_eq_getElem ha)).1.2 key hka
    have h2 := (hinv.2 b _ (List.getElem?_eq_getElem hb)).1.2 key hkb
    omega

theorem cache_map_expand_inv (c : cache_t) (origin map2 : cache_map_t) (now : Int)
    (h : hasher_t) (map_num i : Nat) (hh : c.config.hasher = some h)
    (hinv : map_inv h map_num i origin)
    (hok : _cache_map_expand c origin now = .ok map2) : map_inv h map_num i map2 := by
  obtain ⟨a1, a2, a3, a4, a5⟩ := cache_map_expand_ok c origin map2 now h hh hinv.1 hok
  refine ⟨a3, ?_⟩
  intro j chain hchain
  have hj : j < map2.length := by
    rw [← a3]; exact (List.getElem?_eq_some.mp hchain).1
  rw [a5 j hj] at hchain
  cases hchain
  have hnd := flatten_keys_nodup h map_num i origin hinv
  refine ⟨⟨?_, ?_⟩, ?_⟩
  · rw [chain_keys_moved]
    exact hnd.filter _
  · intro key hkey
    rw [chain_keys_moved, List.mem_filter] at hkey
    simpa using hkey.2
  · intro key hkey
    rw [chain_keys_moved, List.mem_filter] at hkey
    obtain ⟨x, chain0, hx, hk0⟩ := mem_chain_keys_flatten origin.nodes key hkey.1
    exact (hinv.2 x chain0 hx).2 key hk0

theorem expander_inv (c c2 : cache_t) (now : Int) (mok : Nat → Bool)
    (hinv : cache_inv c) (hok : _expand_thread c now mok = .ok c2) : cache_inv c2 := by
  obtain ⟨hconf, hlen2, hp⟩ := expander_ok c c2 now mok hok
  obtain ⟨h, e, hh, he, hpos, hlen, hm⟩ := hinv
  refine ⟨h, e, by rw [hconf]; exact hh, by rw [hconf]; exact he, by rw [hconf]; exact hpos,
    by rw [hconf, hlen2]; exact hlen, ?_⟩
  intro i m2 hm2
  have hi : i < c.cache_maps.length := by
    rw [← hlen2]; exact (List.getElem?_eq_some.mp hm2).1
  have hmi := List.getElem?_eq_getElem hi
  rw [hconf]
  rcases hp i _ m2 hmi hm2 with h1 | h1
  · rw [h1]; exact hm i _ hmi
  · exact cache_map_expand_inv c _ m2 now h _ i hh (hm i _ hmi) h1

/-- Every reachable state satisfies the invariant: it is well formed, no
chain holds two nodes with the same key, and every node sits in the shard
and bucket that the hasher gives to its key. -/
theorem reachable_inv (c : cache_t) (hr : Reachable c) : cache_inv c := by
  induction hr with
  | init conf => exact new_cache_inv conf
  | set key src src_size now l1 l2 ret _ hs ih =>
    exact cache_set_inv _ _ key src src_size now l1 l2 ret ih hs
  | clean now mok nok _ hc ih => exact cleaner_inv _ _ now mok nok ih hc
  | expand now mok _ he ih => exact expander_inv _ _ now mok ih he

/-! ## Resize correctness (C5) -/

theorem cache_get_eval (c : cache_t) (k : Key) (dst : Option Bytes) (cap : Nat) (now : Int)
    (h : hasher_t) (map : cache_map_t) (chain : Chain)
    (hh : c.config.hasher = some h)
    (h1 : h k c.config.map_num < c.config.map_num)
    (hmap : c.cache_maps[h k c.config.map_num]? = some map)
    (h2 : h k map.length < map.length)
    (hchain : map.nodes[h k map.length]? = some chain) :
    cache_get c k dst cap now true true = _traverse_copy_node chain now k dst cap := by
  unfold cache_get
  simp [hh, find_pos_ok h k _ h1, hmap, find_pos_ok h k _ h2, hchain]

/-- A call of `cache_get` that returns true took both locks, had both hash
indices in range, and copied from the first valid node with the key in the
chain of the bucket. -/
theorem cache_get_true (c : cache_t) (k : Key) (buf : Bytes) (cap : Nat) (now : Int)
    (l1 l2 : Bool) (h : hasher_t) (d : Option Bytes) (hwf : cache_wf c)
    (hh : c.config.hasher = some h)
    (hg : cache_get c k (some buf) cap now l1 l2 = .ok (true, d)) :
    h k c.config.map_num < c.config.map_num ∧
    ∃ map chain nd, c.cache_maps[h k c.config.map_num]? = some map ∧
      h k map.length < map.length ∧ map.nodes[h k map.length]? = some chain ∧
      first_match chain now k = some nd ∧
      d = some (memcpy buf nd.data (min cap nd.size)) := by
  rcases cache_get_cases c k (some buf) cap now l1 l2 h hwf hh with
    ⟨-, hx⟩ | ⟨-, -, hx⟩ | ⟨h1, -, map, hmap, hrest⟩
  · rw [hx] at hg; cases hg
  · rw [hx] at hg; cases hg
  · rcases hrest with ⟨-, hx⟩ | ⟨-, -, hx⟩ | ⟨h2, -, chain, hchain, hx⟩
    · rw [hx] at hg; cases hg
    · rw [hx] at hg; cases hg
    · rw [hx, traverse_eq_first_match] at hg
      cases hfm : first_match chain now k with
      | none => rw [hfm] at hg; cases hg
      | some nd =>
        rw [hfm] at hg
        cases hg
        exact ⟨h1, map, chain, nd, hmap, h2, hchain, hfm, rfl⟩

theorem refresh_valid (cs : Nat) (now : Int) (nd : cache_node_t) :
    _valid_node (refresh cs now nd) now = true := by
  simp only [_valid_node, refresh, Bool.or_eq_true, decide_eq_true_eq]
  right
  omega

theorem first_match_moved (h : hasher_t) (cs : Nat) (now : Int) (len : Nat) (k : Key)
    (nodes : List cache_node_t) (nd : cache_node_t) (hnodup : (chain_keys nodes).Nodup)
    (hnd : nd ∈ nodes) (hk : nd.key = k) :
    first_match (moved h cs now len (h k len) nodes) now k = some (refresh cs now nd) := by
  induction nodes with
  | nil => cases hnd
  | cons x rest ih =>
    have hnodup2 : x.key ∉ chain_keys rest ∧ (chain_keys rest).Nodup := by
      simpa [chain_keys] using hnodup
    rw [moved_cons]
    rcases List.mem_cons.mp hnd with rfl | hrest
    · rw [if_pos (by rw [hk])]
      have hv := refresh_valid cs now nd
      have hrk : (refresh cs now nd).key = k := hk
      simp [first_match, List.find?_cons, hv, hrk]
    · have hxk : x.key ≠ k := by
        intro hx
        apply hnodup2.1
        rw [hx, ← hk]
        exact List.mem_map.mpr ⟨nd, hrest, rfl⟩
      have ih2 := ih hnodup2.2 hrest
      split
      · have hrk : ¬ ((refresh cs now x).key = k) := hxk
        simp only [first_match, List.find?_cons, hrk, decide_False, Bool.and_false]
        exact ih2
      · exact ih2

theorem memcpy_refresh (buf : Bytes) (cs : Nat) (now : Int) (nd : cache_node_t) (cap : Nat) :
    memcpy buf (refresh cs now nd).data (min cap (refresh cs now nd).size) =
      memcpy buf nd.data (min cap nd.size) := by
  simp only [memcpy, refresh, List.take_take]
  congr 2
  omega

/-- C5 (resize correctness). In every reachable state, when `cache_get` of
`k` at time `now` returns true with buffer content `b`, then after an
expander pass run at time `now` that returns (under any lock outcomes of
the pass) `cache_get` of `k` at time `now` with both locks acquired returns
true with the same content `b`. No bound on the number of buckets is
needed. -/
theorem resize_correctness (c c2 : cache_t) (k : Key) (buf b : Bytes) (cap : Nat) (now : Int)
    (l1 l2 : Bool) (mok : Nat → Bool) (hreach : Reachable c)
    (hexp : _expand_thread c now mok = .ok c2)
    (hget : cache_get c k (some buf) cap now l1 l2 = .ok (true, some b)) :
    cache_get c2 k (some buf) cap now true true = .ok (true, some b) := by
  have hinv := reachable_inv c hreach
  have hwf := cache_inv_wf c hinv
  obtain ⟨h, e, hh, he, hpos, hlen, hm⟩ := hinv
  obtain ⟨h1, map, chain, nd, hmap, h2, hchain, hfm, hb⟩ :=
    cache_get_true c k buf cap now l1 l2 h (some b) hwf hh hget
  obtain ⟨hconf, hlen2, hp⟩ := expander_ok c c2 now mok hexp
  have hi2 : h k c.config.map_num < c2.cache_maps.length := by omega
  obtain ⟨m2, hmap2⟩ : ∃ m2, c2.cache_maps[h k c.config.map_num]? = some m2 :=
    ⟨_, List.getElem?_eq_getElem hi2⟩
  have hh2 : c2.config.hasher = some h := by rw [hconf]; exact hh
  have h12 : h k c2.config.map_num < c2.config.map_num := by rw [hconf]; exact h1
  rcases hp _ map _ hmap hmap2 with hsame | hexpd
  · rw [hsame] at hmap2
    rw [cache_get_eval c2 k (some buf) cap now h map chain hh2 h12
      (by rw [hconf]; exact hmap2) h2 hchain, traverse_eq_first_match, hfm, hb]
  · obtain ⟨⟨hkey, -⟩, pre, post, hc, -⟩ := first_match_some chain now k nd hfm
    have hminv := hm _ map hmap
    obtain ⟨a1, a2, a3, a4, a5⟩ := cache_map_expand_ok c map m2 now h hh hminv.1 hexpd
    have hndc : nd ∈ chain := by rw [hc]; simp
    have hndf : nd ∈ map.nodes.flatten :=
      List.mem_flatten.mpr ⟨chain, List.getElem?_mem hchain, hndc⟩
    have hj := a4 nd hndf
    rw [hkey] at hj
    have hfm2 := first_match_moved h c.config.cache_second now m2.length k map.nodes.flatten nd
      (flatten_keys_nodup h _ _ map hminv) hndf hkey
    rw [cache_get_eval c2 k (some buf) cap now h m2 _ hh2 h12
      (by rw [hconf]; exact hmap2) hj (a5 _ hj), traverse_eq_first_match, hfm2, hb]
    simp only [memcpy_refresh]

/-! ## Expiry (C4) -/

theorem mem_set_chain_self (k : Key) (src : Bytes) (n : Nat) (e : Int) (root : Chain)
    (hnodup : (chain_keys root).Nodup) :
    ∀ nd ∈ set_chain k src n e root, nd.key = k → nd.expr = e := by
  intro nd hnd hk
  unfold set_chain at hnd
  cases hs : update_chain k src n e root with
  | none =>
    rw [hs] at hnd
    have hnone := (update_chain_none_iff k src n e root).mp hs
    rcases List.mem_cons.mp hnd with rfl | h2
    · rfl
    · exact absurd hk (hnone nd h2)
  | some chain =>
    rw [hs] at hnd
    obtain ⟨pre, p, post, h1, h2, h3, h4⟩ := update_chain_some k src n e root chain hs
    simp only [h4, List.mem_append, List.mem_cons] at hnd
    rcases hnd with hpre | rfl | hpost
    · exact absurd hk (h2 nd hpre)
    · exact updated_node_expr p src n e
    · exfalso
      rw [h1] at hnodup
      simp only [chain_keys, List.map_append, List.map_cons] at hnodup
      have := (List.nodup_cons.mp (List.nodup_append.mp hnodup).2.1).1
      apply this
      rw [h3, ← hk]
      exact List.mem_map.mpr ⟨nd, hpost, rfl⟩

theorem mem_set_chain_other (key k : Key) (src : Bytes) (n : Nat) (e : Int) (root : Chain)
    (hne : key ≠ k) : ∀ nd ∈ set_chain key src n e root, nd.key = k → nd ∈ root := by
  intro nd hnd hk
  unfold set_chain at hnd
  cases hs : update_chain key src n e root with
  | none =>
    rw [hs] at hnd
    rcases List.mem_cons.mp hnd with rfl | h2
    · exact absurd hk hne
    · exact h2
  | some chain =>
    rw [hs] at hnd
    obtain ⟨pre, p, post, h1, h2, h3, h4⟩ := update_chain_some key src n e root chain hs
    simp only [h4, List.mem_append, List.mem_cons] at hnd
    rw [h1]
    rcases hnd with hpre | rfl | hpost
    · simp [hpre]
    · rw [updated_node_key, h3] at hk
      exact absurd hk hne
    · simp [hpost]

theorem all_expire_at_after_set (c c1 : cache_t) (k : Key) (src : Bytes) (n : Nat) (now : Int)
    (l1 l2 : Bool) (hinv : cache_inv c)
    (hs : cache_set c k src n now l1 l2 = .ok (c1, true)) :
    all_expire_at c1 k (now + (c.config.cache_second : Int)) := by
  have hwf := cache_inv_wf c hinv
  obtain ⟨h, e, hh, he, hpos, hlen, hm⟩ := hinv
  rcases cache_set_cases c k src n now l1 l2 h hwf hh with
    ⟨-, hg⟩ | ⟨-, -, hg⟩ | ⟨h1, -, map, hmap, hrest⟩
  · rw [hg] at hs; cases hs
  · rw [hg] at hs; cases hs
  · rcases hrest with ⟨-, hg⟩ | ⟨-, -, hg⟩ | ⟨h2, -, root, hroot, hg⟩
    · rw [hg] at hs; cases hs
    · rw [hg] at hs; cases hs
    · rcases hg with ⟨-, hg⟩ | ⟨-, hg⟩
      · rw [hg] at hs; cases hs
      rw [hg] at hs; cases hs
      have hi : h k c.config.map_num < c.cache_maps.length := by omega
      have hminv := hm _ map hmap
      have hj : h k map.length < map.nodes.length := by rw [hminv.1]; exact h2
      refine ⟨h, set_map map (h k map.length) k src n (now + (c.config.cache_second : Int)) root,
        set_chain k src n (now + (c.config.cache_second : Int)) root,
        hh, h1, List.getElem?_set_self hi, h2, ?_, ?_⟩
      · simp only [set_map]
        exact List.getElem?_set_self hj
      · exact mem_set_chain_self k src n _ root (hminv.2 _ root hroot).1.1

theorem all_expire_at_set_other (c c2 : cache_t) (k key : Key) (e : Int) (src : Bytes)
    (n : Nat) (now : Int) (l1 l2 ret : Bool) (hwf : cache_wf c) (hne : key ≠ k)
    (ha : all_expire_at c k e)
    (hs : cache_set c key src n now l1 l2 = .ok (c2, ret)) : all_expire_at c2 k e := by
  obtain ⟨h, map, chain, hh, h1, hmap, h2, hchain, hall⟩ := ha
  rcases cache_set_cases c key src n now l1 l2 h hwf hh with
    ⟨-, hg⟩ | ⟨-, -, hg⟩ | ⟨g1, -, map', hmap', hrest⟩
  · rw [hg] at hs; cases hs
  · rw [hg] at hs; cases hs
    exact ⟨h, map, chain, hh, h1, hmap, h2, hchain, hall⟩
  · rcases hrest with ⟨-, hg⟩ | ⟨-, -, hg⟩ | ⟨g2, -, root, hroot, hg⟩
    · rw [hg] at hs; cases hs
    · rw [hg] at hs; cases hs
      exact ⟨h, map, chain, hh, h1, hmap, h2, hchain, hall⟩
    · rcases hg with ⟨-, hg⟩ | ⟨-, hg⟩
      · rw [hg] at hs; cases hs
      rw [hg] at hs; cases hs
      by_cases hi : h key c.config.map_num = h k c.config.map_num
      · rw [hi] at hmap'
        rw [hmap] at hmap'
        cases hmap'
        have hlt : h k c.config.map_num < c.cache_maps.length :=
          (List.getElem?_eq_some.mp hmap).1
        have hjl : h k map.length < map.nodes.length := (List.getElem?_eq_some.mp hchain).1
        by_cases hj : h key map.length = h k map.length
        · rw [hj] at hroot
          rw [hchain] at hroot
          cases hroot
          refine ⟨h, set_map map (h key map.length) key src n
              (now + (c.config.cache_second : Int)) chain,
            set_chain key src n (now + (c.config.cache_second : Int)) chain,
            hh, h1, by rw [hi]; exact List.getElem?_set_self hlt, h2, ?_, ?_⟩
          · simp only [set_map]
            rw [hj]
            exact List.getElem?_set_self hjl
          · intro nd hnd hk
            exact hall nd (mem_set_chain_other key k src n _ chain hne nd hnd hk) hk
        · refine ⟨h, set_map map (h key map.length) key src n
              (now + (c.config.cache_second : Int)) root, chain,
            hh, h1, by rw [hi]; exact List.getElem?_set_self hlt, h2, ?_, hall⟩
          simp only [set_map]
          rw [List.getElem?_set_ne hj]
          exact hchain
      · refine ⟨h, map, chain, hh, h1, ?_, h2, hchain, hall⟩
        simp only
        rw [List.getElem?_set_ne hi]
        exact hmap

theorem all_expire_at_clean (c c2 : cache_t) (k : Key) (e : Int) (now : Int)
    (mok : Nat → Bool) (nok : Nat → Nat → Bool) (hwf : cache_wf c)
    (ha : all_expire_at c k e)
    (hc : _cleaner_thread c now mok nok = .ok c2) : all_expire_at c2 k e := by
  obtain ⟨h, map, chain, hh, h1, hmap, h2, hchain, hall⟩ := ha
  obtain ⟨c3, h3, hconf, hlen, hp⟩ := cleaner_total c now mok nok hwf
  rw [h3] at hc
  cases hc
  have hi : h k c.config.map_num < c2.cache_maps.length := by
    rw [hlen]; exact (List.getElem?_eq_some.mp hmap).1
  obtain ⟨m2, hmap2⟩ : ∃ m2, c2.cache_maps[h k c.config.map_num]? = some m2 :=
    ⟨_, List.getElem?_eq_getElem hi⟩
  obtain ⟨q1, -, q2, q3⟩ := hp _ map m2 hmap hmap2
  have hj : h k map.length < m2.nodes.length := by
    rw [q2]; exact (List.getElem?_eq_some.mp hchain).1
  obtain ⟨chain2, hchain2⟩ : ∃ chain2, m2.nodes[h k map.length]? = some chain2 :=
    ⟨_, List.getElem?_eq_getElem hj⟩
  have hsub := q3 _ chain chain2 hchain hchain2
  refine ⟨h, m2, chain2, by rw [hconf]; exact hh, by rw [hconf]; exact h1,
    by rw [hconf]; exact hmap2, by rw [q1]; exact h2, by rw [q1]; exact hchain2, ?_⟩
  intro nd hnd hk
  exact hall nd (hsub.subset hnd) hk

theorem cache_set_wf (c c2 : cache_t) (key : Key) (src : Bytes) (n : Nat) (now : Int)
    (l1 l2 ret : Bool) (w : cache_wf c)
    (hs : cache_set c key src n now l1 l2 = .ok (c2, ret)) : cache_wf c2 := by
  obtain ⟨h, hh⟩ := Option.isSome_iff_exists.mp w.2.2.1
  rcases cache_set_cases c key src n now l1 l2 h w hh with
    ⟨-, hg⟩ | ⟨-, -, hg⟩ | ⟨g1, -, map, hmap, hrest⟩
  · rw [hg] at hs; cases hs
  · rw [hg] at hs; cases hs; exact w
  · rcases hrest with ⟨-, hg⟩ | ⟨-, -, hg⟩ | ⟨g2, -, root, hroot, hg⟩
    · rw [hg] at hs; cases hs
    · rw [hg] at hs; cases hs; exact w
    · rcases hg with ⟨-, hg⟩ | ⟨-, hg⟩
      · rw [hg] at hs; cases hs
      rw [hg] at hs; cases hs
      obtain ⟨w1, w2, w3, w4⟩ := w
      refine ⟨by simpa using w1, ?_, w3, w4⟩
      intro m hm
      rcases List.mem_or_eq_of_mem_set hm with hm1 | rfl
      · exact w2 m hm1
      · have := w2 map (List.getElem?_mem hmap)
        simpa [map_wf, set_map] using this

theorem cleaner_wf (c c2 : cache_t) (now : Int) (mok : Nat → Bool) (nok : Nat → Nat → Bool)
    (w : cache_wf c) (hc : _cleaner_thread c now mok nok = .ok c2) : cache_wf c2 := by
  obtain ⟨c3, h3, hconf, hlen, hp⟩ := cleaner_total c now mok nok w
  rw [h3] at hc
  cases hc
  obtain ⟨w1, w2, w3, w4⟩ := w
  refine ⟨by rw [hconf, hlen]; exact w1, ?_, by rw [hconf]; exact w3, by rw [hconf]; exact w4⟩
  intro m2 hm2
  obtain ⟨i, hi⟩ := List.mem_iff_getElem?.mp hm2
  have hil : i < c.cache_maps.length := by
    rw [← hlen]; exact (List.getElem?_eq_some.mp hi).1
  obtain ⟨q1, -, q2, -⟩ := hp i _ m2 (List.getElem?_eq_getElem hil) hi
  have := w2 _ (List.getElem_mem hil)
  unfold map_wf at this ⊢
  omega

theorem quiet_preserves (k : Key) (e : Int) (c c2 : cache_t) (hq : Quiet k c c2)
    (hwf : cache_wf c) (ha : all_expire_at c k e) : cache_wf c2 ∧ all_expire_at c2 k e := by
  induction hq with
  | refl => exact ⟨hwf, ha⟩
  | set key src src_size now l1 l2 ret _ hne hs ih =>
    obtain ⟨w, a⟩ := ih
    exact ⟨cache_set_wf _ _ key src src_size now l1 l2 ret w hs,
      all_expire_at_set_other _ _ k key e src src_size now l1 l2 ret w hne a hs⟩
  | clean now mok nok _ hc ih =>
    obtain ⟨w, a⟩ := ih
    exact ⟨cleaner_wf _ _ now mok nok w hc, all_expire_at_clean _ _ k e now mok nok w a hc⟩

theorem quiet_trans (k : Key) (a b c : cache_t) (hab : Quiet k a b) (hbc : Quiet k b c) :
    Quiet k a c := by
  induction hbc with
  | refl => exact hab
  | set key src src_size now l1 l2 ret _ hne hs ih =>
    exact Quiet.set key src src_size now l1 l2 ret ih hne hs
  | clean now mok nok _ hc ih => exact Quiet.clean now mok nok ih hc

theorem get_false_of_all_expired (c : cache_t) (k : Key) (e : Int) (dst : Option Bytes)
    (cap : Nat) (now : Int) (l1 l2 : Bool) (hwf : cache_wf c) (ha : all_expire_at c k e)
    (hpos : 0 < e) (hlt : e < now) :
    cache_get c k dst cap now l1 l2 = .ok (false, dst) := by
  obtain ⟨h, map, chain, hh, h1, hmap, h2, hchain, hall⟩ := ha
  rcases cache_get_cases c k dst cap now l1 l2 h hwf hh with
    ⟨g1, -⟩ | ⟨-, -, hg⟩ | ⟨-, -, map', hmap', hrest⟩
  · omega
  · exact hg
  · rw [hmap] at hmap'
    cases hmap'
    rcases hrest with ⟨g2, -⟩ | ⟨-, -, hg⟩ | ⟨-, -, chain', hchain', hg⟩
    · omega
    · exact hg
    · rw [hchain] at hchain'
      cases hchain'
      rw [hg]
      apply traverse_none_of_first_match
      unfold first_match
      rw [List.find?_eq_none]
      intro nd hnd
      by_cases hk : nd.key = k
      · have he := hall nd hnd hk
        simp only [_valid_node, he, Bool.and_eq_true, Bool.or_eq_true, decide_eq_true_eq,
          not_and]
        intro hv
        omega
      · simp [hk]

/-- C4 (expiry). Starting from a reachable state, after a `cache_set` of `k`
at a time `t0 >= 0` that returns true, then any calls of `cache_set` on
other keys and cleaner passes, then a cleaner pass at a time
`t1 > t0 + cache_second`, then again any calls of `cache_set` on other keys
and cleaner passes (no write of `k` and no expander pass in between),
`cache_get` of `k` at any time `t2 >= t1` returns false and leaves the
destination untouched, under any lock outcomes. The earlier operations may
have run at any times. -/
theorem expiry (c c1 c2 c3 c4 : cache_t) (k : Key) (v : Bytes) (n : Nat) (t0 t1 t2 : Int)
    (l1 l2 : Bool) (mok : Nat → Bool) (nok : Nat → Nat → Bool) (dst : Option Bytes)
    (cap : Nat) (g1 g2 : Bool)
    (hreach : Reachable c) (ht0 : 0 ≤ t0)
    (hset : cache_set c k v n t0 l1 l2 = .ok (c1, true))
    (hq1 : Quiet k c1 c2)
    (hclean : _cleaner_thread c2 t1 mok nok = .ok c3)
    (hq2 : Quiet k c3 c4)
    (h1 : t0 + (c.config.cache_second : Int) < t1) (h2 : t1 ≤ t2) :
    cache_get c4 k dst cap t2 g1 g2 = .ok (false, dst) := by
  have hinv := reachable_inv c hreach
  have hpos : 0 < c.config.cache_second := by
    obtain ⟨_, _, _, _, hpos, _⟩ := hinv
    exact hpos
  have ha1 := all_expire_at_after_set c c1 k v n t0 l1 l2 hinv hset
  have hwf1 := cache_set_wf c c1 k v n t0 l1 l2 true (cache_inv_wf c hinv) hset
  have hq14 : Quiet k c1 c4 := quiet_trans k c1 c3 c4 (Quiet.clean t1 mok nok hq1 hclean) hq2
  obtain ⟨hwf4, ha4⟩ := quiet_preserves k _ c1 c4 hq14 hwf1 ha1
  exact get_false_of_all_expired c4 k _ dst cap t2 g1 g2 hwf4 ha4 (by omega) (by omega)

theorem expiry_witness :
    Reachable (new_cache (some tiny_conf)) ∧ (0 : Int) ≤ 0 ∧
    cache_set (new_cache (some tiny_conf)) key_a [1] 1 0 true true
      = .ok (after_set (new_cache (some tiny_conf)) key_a [1] 0, true) ∧
    Quiet key_a (after_set (new_cache (some tiny_conf)) key_a [1] 0)
      (after_set (new_cache (some tiny_conf)) key_a [1] 0) ∧
    _cleaner_thread (after_set (new_cache (some tiny_conf)) key_a [1] 0) 11
        (fun _ => true) (fun _ _ => true)
      = .ok (after_clean (after_set (new_cache (some tiny_conf)) key_a [1] 0) 11) ∧
    Quiet key_a (after_clean (after_set (new_cache (some tiny_conf)) key_a [1] 0) 11)
      (after_clean (after_set (new_cache (some tiny_conf)) key_a [1] 0) 11) ∧
    (0 : Int) + ((new_cache (some tiny_conf)).config.cache_second : Int) < 11 ∧
    (11 : Int) ≤ 12 ∧
    cache_get (after_clean (after_set (new_cache (some tiny_conf)) key_a [1] 0) 11) key_a
      (some [0]) 1 12 true true = .ok (false, some [0]) :=
  ⟨Reachable.init _, le_refl _, rfl, Quiet.refl _, rfl, Quiet.refl _, by decide, by decide,
    expiry (new_cache (some tiny_conf)) _ _ _ _ key_a [1] 1 0 11 12 true true
      (fun _ => true) (fun _ _ => true) (some [0]) 1 true true
      (Reachable.init _) (le_refl _) rfl (Quiet.refl _) rfl (Quiet.refl _)
      (by decide) (by decide)⟩

theorem run_state_reachable : Reachable run_state :=
  Reachable.set key_c [3] 1 15 true true true
    (Reachable.set key_b [2] 1 0 true true true
      (Reachable.set key_a [1] 1 0 true true true (Reachable.init (some tiny_conf)) rfl)
      rfl)
    rfl

theorem resize_correctness_witness :
    Reachable run_state ∧
    _expand_thread run_state 20 (fun _ => true) = .ok (after_expand run_state 20) ∧
    (after_expand run_state 20).cache_maps.map (·.length) = [2] ∧
    cache_get run_state key_c (some [0, 0]) 2 20 true true = .ok (true, some [3, 0]) ∧
    cache_get (after_expand run_state 20) key_c (some [0, 0]) 2 20 true true
      = .ok (true, some [3, 0]) :=
  ⟨run_state_reachable, rfl, by decide, rfl,
    resize_correctness run_state (after_expand run_state 20) key_c [0, 0] [3, 0] 2 20
      true true (fun _ => true) run_state_reachable rfl rfl⟩

/-! ## The expander returns -/

theorem expand_chain_total (h : hasher_t) (cs : Nat) (now : Int) (chain : Chain) :
    ∀ map : cache_map_t, map.nodes.length = map.length →
      (∀ nd ∈ chain, h nd.key map.length < map.length) →
      ∃ map2, expand_chain (some h) cs now chain map = .ok map2 := by
  induction chain with
  | nil => intro map _ _; exact ⟨map, rfl⟩
  | cons node next ih =>
    intro map hwf hr
    have hlt := hr node (List.mem_cons_self _ _)
    have hj : h node.key map.length < map.nodes.length := by omega
    unfold expand_chain
    simp only [find_pos_ok h _ _ hlt, List.getElem?_eq_getElem hj]
    exact ih _ (by simpa using hwf) (fun nd hnd => hr nd (List.mem_cons_of_mem _ hnd))

theorem expand_buckets_total (h : hasher_t) (cs : Nat) (now : Int) (origin_nodes : List Chain)
    (n : Nat) :
    ∀ (i : Nat) (map : cache_map_t), i + n ≤ origin_nodes.length →
      map.nodes.length = map.length →
      (∀ nd ∈ origin_nodes.flatten, h nd.key map.length < map.length) →
      ∃ map2, expand_buckets (some h) cs now origin_nodes n i map = .ok map2 := by
  induction n with
  | zero => intro i map _ _ _; exact ⟨map, rfl⟩
  | succ n ih =>
    intro i map hlen hwf hr
    have hi : i < origin_nodes.length := by omega
    unfold expand_buckets
    simp only [List.getElem?_eq_getElem hi]
    obtain ⟨map1, h1⟩ := expand_chain_total h cs now origin_nodes[i] map hwf
      (fun nd hnd => hr nd (List.mem_flatten.mpr ⟨_, List.getElem_mem _, hnd⟩))
    simp only [h1]
    obtain ⟨b1, -, b3, -, -⟩ := expand_chain_ok h cs now _ map map1 hwf h1
    exact ih (i + 1) map1 (by omega) (by omega) (by rw [b1]; exact hr)

theorem cache_map_expand_total (c : cache_t) (origin : cache_map_t) (now : Int) (h : hasher_t)
    (hh : c.config.hasher = some h) (hwf : origin.nodes.length = origin.length)
    (hsmall : origin.length < 2 ^ 31)
    (hr : ∀ (key : Key) (m : Nat), 0 < m → h key m < m) :
    ∃ map2, _cache_map_expand c origin now = .ok map2 := by
  unfold _cache_map_expand
  rw [hh]
  refine expand_buckets_total h _ now origin.nodes origin.length 0 _ (by omega) (by simp) ?_
  intro nd hnd
  simp only
  apply hr
  obtain ⟨chain, hc, -⟩ := List.mem_flatten.mp hnd
  have hpos : 0 < origin.nodes.length := List.length_pos_of_mem hc
  omega

theorem expand_maps_total (c : cache_t) (now : Int) (mok : Nat → Bool) (h : hasher_t)
    (e : expander_t) (hh : c.config.hasher = some h) (he : c.config.expander = some e)
    (hr : ∀ (key : Key) (m : Nat), 0 < m → h key m < m) (n : Nat) :
    ∀ (i : Nat) (maps : List cache_map_t), i + n ≤ maps.length →
      (∀ (x : Nat) (m : cache_map_t), i ≤ x → maps[x]? = some m →
        m.nodes.length = m.length ∧ m.length < 2 ^ 31) →
      ∃ maps2, expand_maps c now mok n i maps = .ok maps2 := by
  induction n with
  | zero => intro i maps _ _; exact ⟨maps, rfl⟩
  | succ n ih =>
    intro i maps hlen hall
    have hi : i < maps.length := by omega
    unfold expand_maps
    split
    · exact ih (i + 1) maps (by omega) (fun x m hx hm => hall x m (by omega) hm)
    · simp only [List.getElem?_eq_getElem hi, he]
      split
      · obtain ⟨w, s⟩ := hall i maps[i] (le_refl _) (List.getElem?_eq_getElem hi)
        obtain ⟨map2, h2⟩ := cache_map_expand_total c maps[i] now h hh w s hr
        simp only [h2]
        refine ih (i + 1) _ (by simp; omega) ?_
        intro x m hx hm
        rw [List.getElem?_set_ne (by omega)] at hm
        exact hall x m (by omega) hm
      · exact ih (i + 1) maps (by omega) (fun x m hx hm => hall x m (by omega) hm)

/-- An expander pass returns on every well-formed state whose shards have
fewer than `2 ^ 31` buckets when the hasher stays below every positive
modulus, as `default_hasher` does. -/
theorem expander_returns (c : cache_t) (now : Int) (mok : Nat → Bool) (h : hasher_t)
    (hwf : cache_wf c) (hh : c.config.hasher = some h)
    (hsmall : ∀ m ∈ c.cache_maps, m.length < 2 ^ 31)
    (hr : ∀ (key : Key) (m : Nat), 0 < m → h key m < m) :
    ∃ c2, _expand_thread c now mok = .ok c2 := by
  obtain ⟨w1, w2, -, w4⟩ := hwf
  obtain ⟨e, he⟩ := Option.isSome_iff_exists.mp w4
  obtain ⟨maps2, h2⟩ := expand_maps_total c now mok h e hh he hr c.config.map_num 0
    c.cache_maps (by omega)
    (fun x m _ hm => ⟨w2 m (List.getElem?_mem hm), hsmall m (List.getElem?_mem hm)⟩)
  unfold _expand_thread
  simp only [h2]
  exact ⟨_, rfl⟩

/-! ## Writes and other keys (C20) -/

/-- A call of `cache_set` that returns either took no effect and returned
false, or returned true with both hash indices in range and left the state
described by `set_map`. No well-formedness is assumed. -/
theorem cache_set_returns (c c2 : cache_t) (k : Key) (src : Bytes) (n : Nat) (now : Int)
    (l1 l2 ret : Bool) (hs : cache_set c k src n now l1 l2 = .ok (c2, ret)) :
    (ret = false ∧ c2 = c) ∨
    (ret = true ∧ l1 = true ∧ l2 = true ∧ ∃ h map root, c.config.hasher = some h ∧
      h k c.config.map_num < c.config.map_num ∧
      c.cache_maps[h k c.config.map_num]? = some map ∧
      h k map.length < map.length ∧
      map.nodes[h k map.length]? = some root ∧
      c2 = { c with
             cache_maps := (c.cache_maps.set (h k c.config.map_num)
               (set_map map (h k map.length) k src n
                 (now + (c.config.cache_second : Int)) root)) }) := by
  cases hh : c.config.hasher with
  | none => simp [cache_set, hh] at hs
  | some h =>
    by_cases h1 : h k c.config.map_num < c.config.map_num
    · cases l1 with
      | false =>
        simp only [cache_set, hh, find_pos_ok h k _ h1, Bool.not_false, if_true,
          Except.ok.injEq, Prod.mk.injEq] at hs
        exact Or.inl ⟨hs.2.symm, hs.1.symm⟩
      | true =>
        cases hmap : c.cache_maps[h k c.config.map_num]? with
        | none => simp [cache_set, hh, find_pos_ok h k _ h1, hmap] at hs
        | some map =>
          by_cases h2 : h k map.length < map.length
          · cases l2 with
            | false =>
              simp only [cache_set, hh, find_pos_ok h k _ h1, hmap, find_pos_ok h k _ h2,
                Bool.not_true, Bool.not_false, if_true, Bool.false_eq_true, if_false,
                Except.ok.injEq, Prod.mk.injEq] at hs
              exact Or.inl ⟨hs.2.symm, hs.1.symm⟩
            | true =>
              cases hroot : map.nodes[h k map.length]? with
              | none =>
                simp [cache_set, hh, find_pos_ok h k _ h1, hmap, find_pos_ok h k _ h2,
                  hroot] at hs
              | some root =>
                by_cases hf : realloc_fault root k n
                · rw [cache_set_realloc_fault c k src n now h map root hh h1 hmap h2 hroot
                    hf] at hs
                  cases hs
                · rw [cache_set_eq c k src n now h map root hh h1 hmap h2 hroot hf] at hs
                  simp only [Except.ok.injEq, Prod.mk.injEq] at hs
                  exact Or.inr ⟨hs.2.symm, rfl, rfl, h, map, root, rfl, h1, hmap, h2, hroot,
                    hs.1.symm⟩
          · have h2' : map.length ≤ h k map.length := by omega
            simp [cache_set, hh, find_pos_ok h k _ h1, hmap, find_pos_panic h k _ h2'] at hs
    · have h1' : c.config.map_num ≤ h k c.config.map_num := by omega
      simp [cache_set, hh, find_pos_panic h k _ h1'] at hs

theorem traverse_skip (pre post : Chain) (x : cache_node_t) (now : Int) (k2 : Key)
    (dst : Option Bytes) (cap : Nat) (hx : x.key ≠ k2) :
    _traverse_copy_node (pre ++ x :: post) now k2 dst cap =
      _traverse_copy_node (pre ++ post) now k2 dst cap := by
  induction pre with
  | nil =>
    simp only [List.nil_append]
    rw [_traverse_copy_node]
    simp [hx]
  | cons p pre ih =>
    simp only [List.cons_append]
    rw [_traverse_copy_node, _traverse_copy_node, ih]

theorem traverse_set_chain_other (k k2 : Key) (src : Bytes) (n : Nat) (e now : Int)
    (root : Chain) (dst : Option Bytes) (cap : Nat) (hne : k ≠ k2) :
    _traverse_copy_node (set_chain k src n e root) now k2 dst cap =
      _traverse_copy_node root now k2 dst cap := by
  unfold set_chain
  cases hs : update_chain k src n e root with
  | none =>
    have hi : (inserted_node k src n e).key ≠ k2 := hne
    simpa using traverse_skip [] root (inserted_node k src n e) now k2 dst cap hi
  | some chain =>
    obtain ⟨pre, p, post, h1, -, h3, h4⟩ := update_chain_some k src n e root chain hs
    simp only [h1, h4]
    rw [traverse_skip pre post _ now k2 dst cap (by rw [updated_node_key, h3]; exact hne),
      traverse_skip pre post p now k2 dst cap (by rw [h3]; exact hne)]

/-- C20 (set does not disturb other keys). For every state and every pair
of distinct keys `k` and `k2`, after a call of `cache_set` on `k` that
returns (with either flag, under any lock outcomes), `cache_get` of `k2`
gives the same outcome as before the call: same found flag, same buffer
content, same fault if any, for every destination, capacity, time and lock
outcomes of the lookup, whether or not the two keys share shard and
bucket. -/
theorem set_keeps_other_keys (c c2 : cache_t) (k k2 : Key) (src : Bytes) (n : Nat)
    (now : Int) (l1 l2 ret : Bool) (hne : k ≠ k2)
    (hs : cache_set c k src n now l1 l2 = .ok (c2, ret)) :
    ∀ (dst : Option Bytes) (cap : Nat) (t : Int) (g1 g2 : Bool),
      cache_get c2 k2 dst cap t g1 g2 = cache_get c k2 dst cap t g1 g2 := by
  intro dst cap t g1 g2
  rcases cache_set_returns c c2 k src n now l1 l2 ret hs with
    ⟨-, rfl⟩ | ⟨-, -, -, h, map, root, hh, h1, hmap, h2, hroot, rfl⟩
  · rfl
  · have hi : h k c.config.map_num < c.cache_maps.length := (List.getElem?_eq_some.mp hmap).1
    have hj : h k map.length < map.nodes.length := (List.getElem?_eq_some.mp hroot).1
    unfold cache_get
    simp only [hh]
    by_cases g : h k2 c.config.map_num < c.config.map_num
    · rw [find_pos_ok h k2 _ g]
      simp only
      cases g1 with
      | false => rfl
      | true =>
        simp only [Bool.not_true, Bool.false_eq_true, if_false]
        by_cases hsame : h k c.config.map_num = h k2 c.config.map_num
        · rw [← hsame, List.getElem?_set_self hi, hmap]
          simp only [set_map]
          by_cases gj : h k2 map.length < map.length
          · rw [find_pos_ok h k2 _ gj]
            simp only
            cases g2 with
            | false => rfl
            | true =>
              simp only [Bool.not_true, Bool.false_eq_true, if_false]
              by_cases hjs : h k map.length = h k2 map.length
              · rw [← hjs, List.getElem?_set_self hj, hroot]
                simp only
                exact traverse_set_chain_other k k2 src n _ t root dst cap hne
              · rw [List.getElem?_set_ne hjs]
          · have gj' : map.length ≤ h k2 map.length := by omega
            rw [find_pos_panic h k2 _ gj']
        · rw [List.getElem?_set_ne hsame]
    · have g' : c.config.map_num ≤ h k2 c.config.map_num := by omega
      rw [find_pos_panic h k2 _ g']

theorem set_keeps_other_keys_witness :
    key_a ≠ key_b ∧
    cache_set head_state key_a [9] 1 6 true true = .ok (after_set head_state key_a [9] 6, true) ∧
    cache_get head_state key_b (some [0]) 1 6 true true = .ok (true, some [2]) ∧
    cache_get (after_set head_state key_a [9] 6) key_b (some [0]) 1 6 true true
      = cache_get head_state key_b (some [0]) 1 6 true true :=
  ⟨by decide, rfl, rfl,
    set_keeps_other_keys head_state _ key_a key_b [9] 1 6 true true true (by decide) rfl
      (some [0]) 1 6 true true⟩

/-! ## Uniqueness and placement in reachable states (C13, C14) -/

/-- C13 (key uniqueness). In every reachable state no bucket chain holds two
nodes with the same key: the list of the keys of every chain of every shard
has no duplicate. -/
theorem key_uniqueness (c : cache_t) (hreach : Reachable c) :
    ∀ m ∈ c.cache_maps, ∀ chain ∈ m.nodes, (chain.map (·.key)).Nodup := by
  obtain ⟨h, e, -, -, -, -, hm⟩ := reachable_inv c hreach
  intro m hmem chain hchain
  obtain ⟨i, hi⟩ := List.mem_iff_getElem?.mp hmem
  obtain ⟨j, hj⟩ := List.mem_iff_getElem?.mp hchain
  exact ((hm i m hi).2 j chain hj).1.1

theorem key_uniqueness_witness :
    Reachable run_state ∧
    ∀ m ∈ run_state.cache_maps, ∀ chain ∈ m.nodes, (chain.map (·.key)).Nodup :=
  ⟨run_state_reachable, key_uniqueness run_state run_state_reachable⟩

/-- C14 (placement). In every reachable state the stored hasher `h` sends
the key of every node stored in bucket `j` of shard `i` to `i` under the
number of shards and to `j` under the current length of shard `i`. -/
theorem placement (c : cache_t) (hreach : Reachable c) :
    ∃ h, c.config.hasher = some h ∧
      ∀ (i : Nat) (m : cache_map_t), c.cache_maps[i]? = some m →
        ∀ (j : Nat) (chain : Chain), m.nodes[j]? = some chain →
          ∀ nd ∈ chain, h nd.key c.config.map_num = i ∧ h nd.key m.length = j := by
  obtain ⟨h, e, hh, -, -, -, hm⟩ := reachable_inv c hreach
  refine ⟨h, hh, ?_⟩
  intro i m hi j chain hj nd hnd
  obtain ⟨⟨-, p1⟩, p2⟩ := (hm i m hi).2 j chain hj
  have hk : nd.key ∈ chain_keys chain := List.mem_map.mpr ⟨nd, hnd, rfl⟩
  exact ⟨p2 _ hk, p1 _ hk⟩

theorem placement_witness :
    Reachable run_state ∧
    ∃ h, run_state.config.hasher = some h ∧
      ∀ (i : Nat) (m : cache_map_t), run_state.cache_maps[i]? = some m →
        ∀ (j : Nat) (chain : Chain), m.nodes[j]? = some chain →
          ∀ nd ∈ chain, h nd.key run_state.config.map_num = i ∧ h nd.key m.length = j :=
  ⟨run_state_reachable, placement run_state run_state_reachable⟩

/-! ## The default hasher and the default expander (C16, C17) -/

theorem default_hasher_loop_eq (key : Key) :
    ∀ h : Nat, (default_hasher_loop h key : Int) =
      key.foldl (fun h c => (h + h * 2 ^ 5 + c) % 2 ^ 32) (h : Int) := by
  induction key with
  | nil => intro h; rfl
  | cons c key ih =>
    intro h
    simp only [default_hasher_loop, List.foldl_cons]
    have hstep : ((((h : Int) + (((h * 2 ^ 5 % 2 ^ 32 : Nat) : Int) + c) % 2 ^ 32) % 2 ^ 32).toNat
        : Int) = ((h : Int) + h * 2 ^ 5 + c) % 2 ^ 32 := by
      rw [Int.toNat_of_nonneg (Int.emod_nonneg _ (by norm_num))]
      push_cast
      omega
    rw [ih, hstep]

/-- C16 (default hash). For every key and every modulus `m > 0` the default
hasher returns `(h AND 0x7FFFFFFF) mod m` with `h` the fold `djb_fold` of
the key, the result is below `m`, and `_find_pos` with the default hasher
returns it without raising the range fault. The bound `m < 2 ^ 32` of the
type is not needed. -/
theorem default_hash (key : Key) (m : Nat) (hm : 0 < m) :
    default_hasher key m = ((djb_fold key).toNat &&& 0x7FFFFFFF) % m ∧
    default_hasher key m < m ∧
    _find_pos default_hasher key m = .ok (default_hasher key m) := by
  have hlt := default_hasher_lt key m hm
  refine ⟨?_, hlt, find_pos_ok default_hasher key m hlt⟩
  unfold default_hasher djb_fold
  have h := default_hasher_loop_eq key 5381
  rw [show ((5381 : Nat) : Int) = 5381 from rfl] at h
  rw [← h, Int.toNat_ofNat]

theorem default_hash_witness :
    0 < 128 ∧
    default_hasher haha 128 = ((djb_fold haha).toNat &&& 0x7FFFFFFF) % 128 ∧
    default_hasher haha 128 < 128 ∧
    _find_pos default_hasher haha 128 = .ok (default_hasher haha 128) :=
  ⟨by decide, default_hash haha 128 (by decide)⟩

theorem default_expander_below (length size : Nat) (hl : length < 2 ^ 31) :
    default_expander length size = true ↔ size > 2 * length := by
  unfold default_expander
  rw [Nat.mod_eq_of_lt (by omega)]
  simp

/-- C17, the code at a failing input. With `length = 2 ^ 31` and `size = 1`
the product `2 * length` wraps to 0 in `uint32_t`, so `default_expander`
returns true although `1 > 2 * 2 ^ 31` is false. -/
theorem default_expander_wraps :
    default_expander 2147483648 1 = true ∧ ¬ (1 > 2 * 2147483648) :=
  ⟨by decide, by decide⟩

/-! ## The size counter after a sweep (C19) -/

/-- C19, the code at a failing input. After `cache_set` of key a at time 0
on the one-bucket cache of `tiny_conf` and a cleaner pass at time 20 with
all locks acquired, the state is reachable, its only bucket is empty, and
the size counter of the shard still reads 1: the cleaner removes nodes and
never decrements the counter. -/
theorem size_counter_not_decremented :
    Reachable swept_state ∧
    swept_state.cache_maps = [{ nodes := [[]], length := 1, size := 1 }] ∧
    (swept_state.cache_maps.map (fun m => (m.size, m.nodes.flatten.length))) = [(1, 0)] :=
  ⟨Reachable.clean 20 (fun _ => true) (fun _ _ => true)
      (Reachable.set key_a [1] 1 0 true true true (Reachable.init (some tiny_conf)) rfl) rfl,
    by decide, by decide⟩

/-! ## The effect of `cache_set` (C11) -/

/-- C11 as stated fails in four ways. With the bucket lock not acquired
`cache_set` returns false and leaves the state as it was; with `far_hasher`,
out of range, it raises the range fault; on a shard whose size counter is
`2 ^ 32 - 1` the insertion of a new key leaves the counter at 0; and the
write of an empty value over the stored six bytes of the key panics in
`must_auto_realloc`, on the NULL that `realloc(p->data, 0)` returns. -/
theorem set_definition_counterexample :
    cache_set demo_cache haha hehe 4 0 true false = .ok (demo_cache, false) ∧
    cache_set (new_cache (some far_conf)) haha hehe 4 0 true true
      = .error (.panic .hasher_invalid_position) ∧
    (cache_wf full_counter_state ∧ hasher_in_range full_counter_state key_a ∧
      cache_set full_counter_state key_a [1] 1 0 true true
        = .ok (after_set full_counter_state key_a [1] 0, true) ∧
      (after_set full_counter_state key_a [1] 0).cache_maps
        = [{ nodes := [[⟨key_a, [1], 1, 10⟩]], length := 1, size := 0 }]) ∧
    (hasher_in_range demo_cache_hohoho haha ∧
      bucket_of demo_cache_hohoho haha = some [hohoho_node] ∧
      cache_set demo_cache_hohoho haha [] 0 1 true true
        = .error (.panic .realloc_failed)) := by
  refine ⟨rfl, ?_, ⟨by decide, by decide, rfl, by decide⟩, by decide, by decide, rfl⟩
  unfold cache_set
  rfl

/-- C11 (set definition), amended. With the hasher in range for `k` and both
locks acquired, and unless the write is the zero-length overwrite of a node
of another size (`realloc_fault`: `n = 0` and the first node with key `k` in
the chain has a size other than 0), `cache_set(k, v, n)` with `n` the length
of `v` returns true, keeps the configuration, every other shard and every
other bucket of the shard of `k`, and changes only the chain `root` of bucket
`hasher(k, length)` of shard `hasher(k, map_num)`. When `root` holds a node
with key `k`, the chain keeps its nodes in order and only the first such
node changes: same key, first `n` data bytes `v`, size `n`, expiry
`now + cache_second`; the size counter is unchanged. Otherwise the node
`(k, v, n, now + cache_second)` becomes the head, followed by `root`, and
the size counter grows by exactly 1 when it is below `2 ^ 32 - 1`. -/
theorem set_definition (c : cache_t) (k : Key) (v : Bytes) (now : Int)
    (hr : hasher_in_range c k)
    (hsafe : ∀ root, bucket_of c k = some root → ¬ realloc_fault root k v.length) :
    ∃ h map root c1 map1 chain1,
      c.config.hasher = some h ∧
      c.cache_maps[h k c.config.map_num]? = some map ∧
      map.nodes[h k map.length]? = some root ∧
      cache_set c k v v.length now true true = .ok (c1, true) ∧
      c1.config = c.config ∧ c1.cache_maps.length = c.cache_maps.length ∧
      (∀ i : Nat, i ≠ h k c.config.map_num → c1.cache_maps[i]? = c.cache_maps[i]?) ∧
      c1.cache_maps[h k c.config.map_num]? = some map1 ∧
      map1.length = map.length ∧ map1.nodes.length = map.nodes.length ∧
      (∀ j : Nat, j ≠ h k map.length → map1.nodes[j]? = map.nodes[j]?) ∧
      map1.nodes[h k map.length]? = some chain1 ∧
      ((∃ nd ∈ root, nd.key = k) →
        map1.size = map.size ∧
        ∃ pre p post p1, root = pre ++ p :: post ∧ (∀ m ∈ pre, m.key ≠ k) ∧ p.key = k ∧
          chain1 = pre ++ p1 :: post ∧ p1.key = k ∧ p1.data.take v.length = v ∧
          p1.size = v.length ∧ p1.expr = now + (c.config.cache_second : Int)) ∧
      ((∀ nd ∈ root, nd.key ≠ k) →
        chain1 = { key := k, data := v, size := v.length,
                   expr := now + (c.config.cache_second : Int) } :: root ∧
        (map.size + 1 < 2 ^ 32 → map1.size = map.size + 1)) := by
  obtain ⟨h, map, root, hh, h1, hmap, h2, hroot, hb⟩ := in_range_data c k hr
  have hf := hsafe root hb
  have hi : h k c.config.map_num < c.cache_maps.length := (List.getElem?_eq_some.mp hmap).1
  have hj : h k map.length < map.nodes.length := (List.getElem?_eq_some.mp hroot).1
  refine ⟨h, map, root, _, set_map map (h k map.length) k v v.length
      (now + (c.config.cache_second : Int)) root,
    set_chain k v v.length (now + (c.config.cache_second : Int)) root,
    hh, hmap, hroot, cache_set_eq c k v v.length now h map root hh h1 hmap h2 hroot hf,
    rfl, by simp, ?_, List.getElem?_set_self hi, rfl, by simp [set_map], ?_, ?_, ?_, ?_⟩
  · intro i hne
    exact List.getElem?_set_ne (Ne.symm hne)
  · intro j hne
    simp only [set_map]
    exact List.getElem?_set_ne (Ne.symm hne)
  · simp only [set_map]
    exact List.getElem?_set_self hj
  · rintro ⟨nd, hnd, hk⟩
    cases hs : update_chain k v v.length (now + (c.config.cache_second : Int)) root with
    | none => exact absurd hk ((update_chain_none_iff _ _ _ _ _).mp hs nd hnd)
    | some chain =>
      obtain ⟨pre, p, post, e1, e2, e3, e4⟩ := update_chain_some _ _ _ _ _ chain hs
      refine ⟨by simp [set_map, hs], pre, p, post, updated_node p v v.length _, e1, e2, e3,
        by simp [set_chain, hs, e4], by rw [updated_node_key, e3], ?_,
        updated_node_size _ _ _ _, updated_node_expr _ _ _ _⟩
      rw [updated_node_data p v v.length _ (le_refl _), List.take_length]
  · intro hnone
    have hs := (update_chain_none_iff k v v.length (now + (c.config.cache_second : Int)) root).mpr
      hnone
    refine ⟨by simp [set_chain, hs, inserted_node], ?_⟩
    intro hlt
    simp only [set_map, hs, if_true]
    exact Nat.mod_eq_of_lt hlt

theorem set_definition_witness :
    (hasher_in_range demo_cache haha ∧
     (∀ root, bucket_of demo_cache haha = some root →
        ¬ realloc_fault root haha hehe.length) ∧
     ∃ h map root c1 map1 chain1,
      demo_cache.config.hasher = some h ∧
      demo_cache.cache_maps[h haha demo_cache.config.map_num]? = some map ∧
      map.nodes[h haha map.length]? = some root ∧
      cache_set demo_cache haha hehe hehe.length 0 true true = .ok (c1, true) ∧
      c1.cache_maps[h haha demo_cache.config.map_num]? = some map1 ∧
      map1.nodes[h haha map.length]? = some chain1 ∧
      ((∀ nd ∈ root, nd.key ≠ haha) →
        chain1 = { key := haha, data := hehe, size := hehe.length,
                   expr := 0 + (demo_cache.config.cache_second : Int) } :: root ∧
        (map.size + 1 < 2 ^ 32 → map1.size = map.size + 1))) ∧
    (hasher_in_range demo_cache_hohoho haha ∧
     bucket_of demo_cache_hohoho haha = some [hohoho_node] ∧
     (∀ root, bucket_of demo_cache_hohoho haha = some root →
        ¬ realloc_fault root haha hehe.length) ∧
     ∃ h map root c1 map1 chain1,
      demo_cache_hohoho.config.hasher = some h ∧
      demo_cache_hohoho.cache_maps[h haha demo_cache_hohoho.config.map_num]? = some map ∧
      map.nodes[h haha map.length]? = some root ∧
      cache_set demo_cache_hohoho haha hehe hehe.length 3 true true = .ok (c1, true) ∧
      c1.cache_maps[h haha demo_cache_hohoho.config.map_num]? = some map1 ∧
      map1.nodes[h haha map.length]? = some chain1 ∧
      ((∃ nd ∈ root, nd.key = haha) →
        map1.size = map.size ∧
        ∃ pre p post p1, root = pre ++ p :: post ∧ (∀ m ∈ pre, m.key ≠ haha) ∧
          p.key = haha ∧ chain1 = pre ++ p1 :: post ∧ p1.key = haha ∧
          p1.data.take hehe.length = hehe ∧ p1.size = hehe.length ∧
          p1.expr = 3 + (demo_cache_hohoho.config.cache_second : Int))) :=
  ⟨⟨by decide, fun root _ => realloc_fault_of_pos root haha hehe.length (by decide),
    match set_definition demo_cache haha hehe 0 (by decide)
      (fun root _ => realloc_fault_of_pos root haha hehe.length (by decide)) with
    | ⟨h, map, root, c1, map1, chain1, a1, a2, a3, a4, _, _, _, a8, _, _, _, a12, _, a14⟩ =>
      ⟨h, map, root, c1, map1, chain1, a1, a2, a3, a4, a8, a12, a14⟩⟩,
   ⟨by decide, by decide,
    fun root _ => realloc_fault_of_pos root haha hehe.length (by decide),
    match set_definition demo_cache_hohoho haha hehe 3 (by decide)
      (fun root _ => realloc_fault_of_pos root haha hehe.length (by decide)) with
    | ⟨h, map, root, c1, map1, chain1, a1, a2, a3, a4, _, _, _, a8, _, _, _, a12, a13, _⟩ =>
      ⟨h, map, root, c1, map1, chain1, a1, a2, a3, a4, a8, a12, a13⟩⟩⟩

/-! ## The effect of an expander pass (C12) -/

theorem expand_maps_spec (c : cache_t) (now : Int) (mok : Nat → Bool) (e : expander_t)
    (he : c.config.expander = some e) (n : Nat) :
    ∀ (i : Nat) (maps maps2 : List cache_map_t),
      expand_maps c now mok n i maps = .ok maps2 →
      maps2.length = maps.length ∧
      ∀ (x : Nat) (a b : cache_map_t), maps[x]? = some a → maps2[x]? = some b →
        ((i ≤ x ∧ x < i + n) → mok x = true → e a.length a.size = true →
          _cache_map_expand c a now = .ok b) ∧
        ((i ≤ x ∧ x < i + n) → (mok x = false ∨ e a.length a.size = false) → b = a) ∧
        (¬ (i ≤ x ∧ x < i + n) → b = a) := by
  induction n with
  | zero =>
    intro i maps maps2 hok
    simp only [expand_maps, Except.ok.injEq] at hok
    subst hok
    refine ⟨rfl, ?_⟩
    intro x a b ha hb
    rw [ha] at hb
    cases hb
    exact ⟨fun h => by omega, fun _ _ => rfl, fun _ => rfl⟩
  | succ n ih =>
    intro i maps maps2 hok
    unfold expand_maps at hok
    by_cases hlock : mok i = true
    · simp only [hlock, Bool.not_true, Bool.false_eq_true, if_false] at hok
      cases horigin : maps[i]? with
      | none => simp [horigin] at hok
      | some origin_map =>
        simp only [horigin, he] at hok
        by_cases hpred : e origin_map.length origin_map.size = true
        · simp only [hpred, if_true] at hok
          cases hexp : _cache_map_expand c origin_map now with
          | error f => simp [hexp] at hok
          | ok map =>
            simp only [hexp] at hok
            obtain ⟨a1, a2⟩ := ih (i + 1) _ maps2 hok
            have hi : i < maps.length := (List.getElem?_eq_some.mp horigin).1
            refine ⟨by simpa using a1, ?_⟩
            intro x a b ha hb
            by_cases hx : i = x
            · subst hx
              rw [horigin] at ha
              cases ha
              have hb2 := (a2 i map b (by rw [List.getElem?_set_self hi]) hb).2.2 (by omega)
              subst hb2
              refine ⟨fun _ _ _ => hexp, ?_, fun h => by omega⟩
              rintro - (h | h)
              · rw [hlock] at h; cases h
              · rw [hpred] at h; cases h
            · obtain ⟨b1, b2, b3⟩ := a2 x a b (by rw [List.getElem?_set_ne hx]; exact ha) hb
              exact ⟨fun h => b1 (by omega), fun h => b2 (by omega), fun h => b3 (by omega)⟩
        · simp only [hpred, Bool.false_eq_true, if_false] at hok
          obtain ⟨a1, a2⟩ := ih (i + 1) _ maps2 hok
          refine ⟨a1, ?_⟩
          intro x a b ha hb
          obtain ⟨b1, b2, b3⟩ := a2 x a b ha hb
          by_cases hx : i = x
          · subst hx
            rw [horigin] at ha
            cases ha
            have hba := b3 (by omega)
            exact ⟨fun _ _ hp => absurd hp hpred, fun _ _ => hba, fun _ => hba⟩
          · exact ⟨fun h => b1 (by omega), fun h => b2 (by omega), fun h => b3 (by omega)⟩
    · have hlock' : mok i = false := by simpa using hlock
      simp only [hlock', Bool.not_false, if_true] at hok
      obtain ⟨a1, a2⟩ := ih (i + 1) _ maps2 hok
      refine ⟨a1, ?_⟩
      intro x a b ha hb
      obtain ⟨b1, b2, b3⟩ := a2 x a b ha hb
      by_cases hx : i = x
      · subst hx
        have hba := b3 (by omega)
        exact ⟨fun _ hm _ => absurd hm hlock, fun _ _ => hba, fun _ => hba⟩
      · exact ⟨fun h => b1 (by omega), fun h => b2 (by omega), fun h => b3 (by omega)⟩

/-- C12 as stated fails where the write lock of a shard is not acquired: in
`run_state` the expand predicate is true for the only shard (1 bucket, size
counter 3), and the pass with that lock not acquired skips the shard and
leaves it with its one bucket. -/
theorem expander_definition_counterexample :
    (∃ e, run_state.config.expander = some e ∧
      ∀ m ∈ run_state.cache_maps, e m.length m.size = true) ∧
    ∃ c2, _expand_thread run_state 20 (fun _ => false) = .ok c2 ∧
      c2.cache_maps = run_state.cache_maps ∧
      c2.cache_maps.map (·.length) = [1] :=
  ⟨⟨default_expander, rfl, by decide⟩, run_state, rfl, rfl, by decide⟩

/-- C12 (expander definition), amended. On a well-formed state whose shards
have fewer than `2 ^ 31` buckets, an expander pass that returns keeps the
configuration and the number of shards; it leaves unchanged every shard
whose write lock is not acquired or for which the expand predicate is
false; and it replaces every shard whose lock is acquired and for which the
predicate is true by a shard with exactly twice as many buckets and the
same size counter, in which the chain of bucket `j` is the list of the
nodes of the old shard, taken bucket by bucket and in chain order, whose
key the hasher sends to `j` under the new length, each with its key, its
size and the first `size` bytes of its data, and with expiry
`now + cache_second`. -/
theorem expander_definition (c c2 : cache_t) (now : Int) (mok : Nat → Bool)
    (hwf : cache_wf c) (hsmall : ∀ m ∈ c.cache_maps, m.length < 2 ^ 31)
    (hok : _expand_thread c now mok = .ok c2) :
    ∃ h e, c.config.hasher = some h ∧ c.config.expander = some e ∧
      c2.config = c.config ∧ c2.cache_maps.length = c.cache_maps.length ∧
      ∀ (i : Nat) (m m2 : cache_map_t), c.cache_maps[i]? = some m →
        c2.cache_maps[i]? = some m2 →
        ((mok i = false ∨ e m.length m.size = false) → m2 = m) ∧
        (mok i = true → e m.length m.size = true →
          m2.length = 2 * m.length ∧ m2.size = m.size ∧ m2.nodes.length = 2 * m.length ∧
          ∀ j : Nat, j < 2 * m.length →
            m2.nodes[j]? = some
              ((m.nodes.flatten.filter (fun nd => decide (h nd.key (2 * m.length) = j))).map
                (fun nd =>
                  { key := nd.key, data := nd.data.take nd.size, size := nd.size,
                    expr := now + (c.config.cache_second : Int) }))) := by
  obtain ⟨w1, w2, w3, w4⟩ := hwf
  obtain ⟨h, hh⟩ := Option.isSome_iff_exists.mp w3
  obtain ⟨e, he⟩ := Option.isSome_iff_exists.mp w4
  unfold _expand_thread at hok
  cases hmaps : expand_maps c now mok c.config.map_num 0 c.cache_maps with
  | error f => simp [hmaps] at hok
  | ok maps =>
    simp only [hmaps, Except.ok.injEq] at hok
    subst hok
    obtain ⟨a1, a2⟩ := expand_maps_spec c now mok e he _ 0 _ maps hmaps
    refine ⟨h, e, hh, he, rfl, a1, ?_⟩
    intro i m m2 hm hm2
    have hi : i < c.config.map_num := by
      rw [← w1]; exact (List.getElem?_eq_some.mp hm).1
    obtain ⟨b1, b2, -⟩ := a2 i m m2 hm hm2
    refine ⟨fun hcase => b2 (by omega) hcase, ?_⟩
    intro hl hp
    have hexp := b1 (by omega) hl hp
    have hmem : m ∈ c.cache_maps := List.getElem?_mem hm
    obtain ⟨e1, e2, e3, -, e5⟩ := cache_map_expand_ok c m m2 now h hh (w2 m hmem) hexp
    have hlen : m2.length = 2 * m.length := by
      rw [e1, Nat.mod_eq_of_lt (by have := hsmall m hmem; omega)]
      omega
    refine ⟨hlen, e2, by rw [e3, hlen], ?_⟩
    intro j hj
    rw [e5 j (by omega), hlen]
    rfl

theorem expander_definition_witness :
    cache_wf run_state ∧ (∀ m ∈ run_state.cache_maps, m.length < 2 ^ 31) ∧
    _expand_thread run_state 20 (fun _ => true) = .ok (after_expand run_state 20) ∧
    (after_expand run_state 20).cache_maps =
      [{ nodes := [[⟨key_c, [3], 1, 30⟩, ⟨key_a, [1], 1, 30⟩], [⟨key_b, [2], 1, 30⟩]],
         length := 2, size := 3 }] ∧
    ∃ h e, run_state.config.hasher = some h ∧ run_state.config.expander = some e ∧
      (after_expand run_state 20).config = run_state.config ∧
      (after_expand run_state 20).cache_maps.length = run_state.cache_maps.length :=
  ⟨by decide, by decide, rfl, by decide,
    match expander_definition run_state (after_expand run_state 20) 20 (fun _ => true)
        (by decide) (by decide) rfl with
    | ⟨h, e, a1, a2, a3, a4, _⟩ => ⟨h, e, a1, a2, a3, a4⟩⟩

/-! ## Lookups before and after a resize (C18) -/

theorem traverse_found (chain : Chain) (now : Int) (k : Key) (dst d : Option Bytes)
    (cap : Nat) (h : _traverse_copy_node chain now k dst cap = .ok (true, d)) :
    ∃ nd ∈ chain, nd.key = k := by
  induction chain with
  | nil => simp [_traverse_copy_node] at h
  | cons n next ih =>
    unfold _traverse_copy_node at h
    split at h
    · obtain ⟨nd, hnd, hk⟩ := ih h
      exact ⟨nd, List.mem_cons_of_mem _ hnd, hk⟩
    · rename_i hcond
      simp only [Bool.or_eq_true, Bool.not_eq_true', decide_eq_true_eq, not_or] at hcond
      exact ⟨n, List.mem_cons_self _ _, by simpa using hcond.2⟩

theorem traverse_false_first_match (chain : Chain) (now : Int) (k : Key)
    (dst d : Option Bytes) (cap : Nat)
    (h : _traverse_copy_node chain now k dst cap = .ok (false, d)) :
    first_match chain now k = none := by
  induction chain with
  | nil => rfl
  | cons n next ih =>
    unfold _traverse_copy_node at h
    split at h
    · rename_i hcond
      have hp : (_valid_node n now && decide (n.key = k)) = false := by
        simp only [Bool.or_eq_true, Bool.not_eq_true', decide_eq_true_eq] at hcond
        rcases hcond with hv | hk
        · simp [hv]
        · simp [hk]
      simp only [first_match, List.find?_cons, hp]
      exact ih h
    · split at h
      · cases h
      · simp at h

/-- A call of `cache_get` that returns true found a node with the key in the
chain that the two hash indices select. No well-formedness is assumed. -/
theorem cache_get_found (c : cache_t) (k : Key) (dst d : Option Bytes) (cap : Nat)
    (now : Int) (l1 l2 : Bool) (hg : cache_get c k dst cap now l1 l2 = .ok (true, d)) :
    ∃ h map chain nd, c.config.hasher = some h ∧
      c.cache_maps[h k c.config.map_num]? = some map ∧
      map.nodes[h k map.length]? = some chain ∧ nd ∈ chain ∧ nd.key = k := by
  cases hh : c.config.hasher with
  | none => simp [cache_get, hh] at hg
  | some h =>
    by_cases h1 : h k c.config.map_num < c.config.map_num
    · cases l1 with
      | false => simp [cache_get, hh, find_pos_ok h k _ h1] at hg
      | true =>
        cases hmap : c.cache_maps[h k c.config.map_num]? with
        | none => simp [cache_get, hh, find_pos_ok h k _ h1, hmap] at hg
        | some map =>
          by_cases h2 : h k map.length < map.length
          · cases l2 with
            | false =>
              simp [cache_get, hh, find_pos_ok h k _ h1, hmap, find_pos_ok h k _ h2] at hg
            | true =>
              cases hchain : map.nodes[h k map.length]? with
              | none =>
                simp [cache_get, hh, find_pos_ok h k _ h1, hmap, find_pos_ok h k _ h2,
                  hchain] at hg
              | some chain =>
                rw [cache_get_eval c k dst cap now h map chain hh h1 hmap h2 hchain] at hg
                obtain ⟨nd, hnd, hk⟩ := traverse_found chain now k dst d cap hg
                exact ⟨h, map, chain, nd, rfl, hmap, hchain, hnd, hk⟩
          · have h2' : map.length ≤ h k map.length := by omega
            simp [cache_get, hh, find_pos_ok h k _ h1, hmap, find_pos_panic h k _ h2'] at hg
    · have h1' : c.config.map_num ≤ h k c.config.map_num := by omega
      simp [cache_get, hh, find_pos_panic h k _ h1'] at hg

/-- After a returning expander pass every node of a shard has the key of a
node of the same shard before the pass. -/
theorem expander_keys (c c2 : cache_t) (now : Int) (mok : Nat → Bool) (hwf : cache_wf c)
    (hexp : _expand_thread c now mok = .ok c2) (i : Nat) (m2 : cache_map_t)
    (hm2 : c2.cache_maps[i]? = some m2) :
    ∃ m, c.cache_maps[i]? = some m ∧
      ∀ chain2 ∈ m2.nodes, ∀ nd2 ∈ chain2, ∃ chain ∈ m.nodes, ∃ nd ∈ chain, nd.key = nd2.key := by
  obtain ⟨hconf, hlen, hp⟩ := expander_ok c c2 now mok hexp
  obtain ⟨h, hh⟩ := Option.isSome_iff_exists.mp hwf.2.2.1
  have hi : i < c.cache_maps.length := by
    rw [← hlen]; exact (List.getElem?_eq_some.mp hm2).1
  obtain ⟨m, hm⟩ : ∃ m, c.cache_maps[i]? = some m := ⟨_, List.getElem?_eq_getElem hi⟩
  refine ⟨m, hm, ?_⟩
  intro chain2 hc2 nd2 hnd2
  rcases hp i m m2 hm hm2 with hsame | hexpd
  · subst hsame
    exact ⟨chain2, hc2, nd2, hnd2, rfl⟩
  · obtain ⟨-, -, e3, -, e5⟩ :=
      cache_map_expand_ok c m m2 now h hh (hwf.2.1 m (List.getElem?_mem hm)) hexpd
    obtain ⟨j, hj⟩ := List.mem_iff_getElem?.mp hc2
    have hjl : j < m2.length := by
      rw [← e3]; exact (List.getElem?_eq_some.mp hj).1
    rw [e5 j hjl] at hj
    cases hj
    simp only [moved, List.mem_map, List.mem_filter] at hnd2
    obtain ⟨x, ⟨hx, -⟩, rfl⟩ := hnd2
    obtain ⟨chain, hc, hxc⟩ := List.mem_flatten.mp hx
    exact ⟨chain, hc, x, hxc, rfl⟩

/-- C18 as stated fails: in `run_state` the node of key a has expiry 10, so
`cache_get` of a at time 20 returns false; the expander pass at time 20
copies that node with expiry 30, and `cache_get` of a at time 20 then
returns true with the stored byte. -/
theorem resize_revives_expired_counterexample :
    cache_get run_state key_a (some [0]) 1 20 true true = .ok (false, some [0]) ∧
    _expand_thread run_state 20 (fun _ => true) = .ok (after_expand run_state 20) ∧
    cache_get (after_expand run_state 20) key_a (some [0]) 1 20 true true
      = .ok (true, some [1]) :=
  ⟨rfl, rfl, rfl⟩

/-- C18, amended. In every reachable state, when `cache_get` of `k` at time
`now` with both locks acquired returns false and the bucket of `k` holds no
expired node with key `k` (every node with key `k` in it is valid at
`now`), then after an expander pass that returns, `cache_get` of `k` never
returns true: every lookup of `k` that returns, at any time and under any
lock outcomes, returns false. -/
theorem resize_keeps_absent (c c2 : cache_t) (k : Key) (now : Int) (mok : Nat → Bool)
    (dst d0 : Option Bytes) (cap : Nat)
    (hreach : Reachable c) (hexp : _expand_thread c now mok = .ok c2)
    (hget : cache_get c k dst cap now true true = .ok (false, d0))
    (hnoexp : ∀ chain, bucket_of c k = some chain →
      ∀ nd ∈ chain, nd.key = k → _valid_node nd now = true) :
    ∀ (dst2 d : Option Bytes) (cap2 : Nat) (t : Int) (l1 l2 r : Bool),
      cache_get c2 k dst2 cap2 t l1 l2 = .ok (r, d) → r = false := by
  intro dst2 d cap2 t l1 l2 r hg2
  cases r with
  | false => rfl
  | true =>
    exfalso
    have hinv := reachable_inv c hreach
    have hwf := cache_inv_wf c hinv
    obtain ⟨h, e, hh, -, -, -, hm⟩ := hinv
    obtain ⟨hconf, -, -⟩ := expander_ok c c2 now mok hexp
    -- the lookup before the pass read the bucket of `k` and found no valid node
    rcases cache_get_cases c k dst cap now true true h hwf hh with
      ⟨-, hx⟩ | ⟨-, hl, -⟩ | ⟨h1, -, map, hmap, hrest⟩
    · rw [hx] at hget; cases hget
    · cases hl
    · rcases hrest with ⟨-, hx⟩ | ⟨-, hl, -⟩ | ⟨h2, -, chain, hchain, hx⟩
      · rw [hx] at hget; cases hget
      · cases hl
      · rw [hx] at hget
        have hfm := traverse_false_first_match chain now k dst d0 cap hget
        have hb : bucket_of c k = some chain := by
          simp [bucket_of, hh, hmap, hchain]
        have hnone : ∀ nd ∈ chain, nd.key ≠ k := by
          intro nd hnd hk
          have hv := hnoexp chain hb nd hnd hk
          have := first_match_none chain now k hfm nd hnd
          exact this ⟨hk, (valid_node_iff nd now).mp hv⟩
        -- the lookup after the pass found a node with key `k`
        obtain ⟨h', m2, chain2, nd2, hh2, hm2, hc2, hnd2, hk2⟩ :=
          cache_get_found c2 k dst2 d cap2 t l1 l2 hg2
        rw [hconf, hh] at hh2
        cases hh2
        rw [hconf] at hm2
        obtain ⟨m, hm', hkeys⟩ := expander_keys c c2 now mok hwf hexp _ m2 hm2
        rw [hmap] at hm'
        cases hm'
        obtain ⟨chain1, hc1, nd1, hnd1, hk1⟩ :=
          hkeys chain2 (List.getElem?_mem hc2) nd2 hnd2
        -- by placement that node sat in the bucket of `k`
        obtain ⟨j, hj⟩ := List.mem_iff_getElem?.mp hc1
        have hplace := ((hm _ map hmap).2 j chain1 hj).1.2 nd1.key
          (List.mem_map.mpr ⟨nd1, hnd1, rfl⟩)
        rw [hk1, hk2] at hplace
        rw [← hplace, hchain] at hj
        cases hj
        exact hnone nd1 hnd1 (hk1.trans hk2)

theorem run_state_no_haha :
    ∀ chain, bucket_of run_state haha = some chain →
      ∀ nd ∈ chain, nd.key = haha → _valid_node nd 20 = true := by
  intro chain hc
  have hb : bucket_of run_state haha =
      some [⟨key_c, [3], 1, 25⟩, ⟨key_b, [2], 1, 10⟩, ⟨key_a, [1], 1, 10⟩] := by decide
  rw [hb] at hc
  cases hc
  decide

theorem resize_keeps_absent_witness :
    Reachable run_state ∧
    _expand_thread run_state 20 (fun _ => true) = .ok (after_expand run_state 20) ∧
    cache_get run_state haha (some [0]) 1 20 true true = .ok (false, some [0]) ∧
    cache_get (after_expand run_state 20) haha (some [0]) 1 20 true true
      = .ok (false, some [0]) ∧
    ∀ (d : Option Bytes) (r : Bool),
      cache_get (after_expand run_state 20) haha (some [0]) 1 20 true true = .ok (r, d) →
      r = false :=
  ⟨run_state_reachable, rfl, rfl, rfl, fun d r =>
    resize_keeps_absent run_state (after_expand run_state 20) haha 20 (fun _ => true)
      (some [0]) (some [0]) 1 run_state_reachable rfl rfl run_state_no_haha
      (some [0]) d 1 20 true true r⟩

/-! ## Locks (C15) -/

theorem cache_get_traced_result (c : cache_t) (k : Key) (dst : Option Bytes) (cap : Nat)
    (now : Int) (l1 l2 : Bool) :
    (cache_get_traced c k dst cap now l1 l2).map Prod.fst = cache_get c k dst cap now l1 l2 := by
  unfold cache_get_traced cache_get
  cases c.config.hasher with
  | none => rfl
  | some h =>
    simp only
    cases _find_pos h k c.config.map_num with
    | error e => rfl
    | ok mappos =>
      simp only
      cases l1 with
      | false => rfl
      | true =>
        simp only [Bool.not_true, Bool.false_eq_true, if_false]
        cases c.cache_maps[mappos]? with
        | none => rfl
        | some map =>
          simp only
          cases _find_pos h k map.length with
          | error e => rfl
          | ok nodepos =>
            simp only
            cases l2 with
            | false => rfl
            | true =>
              simp only [Bool.not_true, Bool.false_eq_true, if_false]
              cases map.nodes[nodepos]? with
              | none => rfl
              | some node =>
                simp only
                cases _traverse_copy_node node now k dst cap <;> rfl

theorem cache_get_block_traced_result (c : cache_t) (k : Key) (dst : Option Bytes)
    (cap : Nat) (now : Int) (l1 l2 : Bool) :
    (cache_get_block_traced c k dst cap now l1 l2).map Prod.fst =
      cache_get_block c k dst cap now l1 l2 :=
  cache_get_traced_result c k dst cap now l1 l2

theorem cache_set_traced_result (c : cache_t) (k : Key) (src : Bytes) (n : Nat)
    (now : Int) (l1 l2 : Bool) :
    (cache_set_traced c k src n now l1 l2).map Prod.fst = cache_set c k src n now l1 l2 := by
  unfold cache_set_traced
  cases hh : c.config.hasher with
  | none => simp [cache_set, hh, Except.map]
  | some h =>
    simp only
    cases hf : _find_pos h k c.config.map_num with
    | error e => simp [cache_set, hh, hf, Except.map]
    | ok mappos =>
      simp only
      cases l1 with
      | false => simp [cache_set, hh, hf, Except.map]
      | true =>
        simp only [Bool.not_true, Bool.false_eq_true, if_false]
        cases hm : c.cache_maps[mappos]? with
        | none => simp [cache_set, hh, hf, hm, Except.map]
        | some map =>
          simp only
          cases hf2 : _find_pos h k map.length with
          | error e => simp [cache_set, hh, hf, hm, hf2, Except.map]
          | ok nodepos =>
            simp only
            cases l2 with
            | false => simp [cache_set, hh, hf, hm, hf2, Except.map]
            | true =>
              simp only [Bool.not_true, Bool.false_eq_true, if_false]
              cases cache_set c k src n now true true <;> rfl

/-- The lock calls of a `cache_get` that returns: none when the shard lock
is not acquired; the shard lock alone, never released, when the bucket lock
is not acquired; otherwise shard lock, bucket lock, and their releases in
the reverse order. -/
theorem cache_get_traced_ops (c : cache_t) (k : Key) (dst : Option Bytes) (cap : Nat)
    (now : Int) (l1 l2 : Bool) (r : Bool × Option Bytes) (ops : List lock_op)
    (hg : cache_get_traced c k dst cap now l1 l2 = .ok (r, ops)) :
    (l1 = false ∧ ops = []) ∨
    (l1 = true ∧ l2 = false ∧ ∃ i, ops = [.rdlock (.map_lock i)]) ∨
    (l1 = true ∧ l2 = true ∧ ∃ i j,
      ops = [.rdlock (.map_lock i), .rdlock (.node_lock i j),
             .unlock (.node_lock i j), .unlock (.map_lock i)]) := by
  unfold cache_get_traced at hg
  cases hh : c.config.hasher with
  | none => simp [hh] at hg
  | some h =>
    simp only [hh] at hg
    cases hf : _find_pos h k c.config.map_num with
    | error e => simp [hf] at hg
    | ok mappos =>
      simp only [hf] at hg
      cases l1 with
      | false =>
        simp only [Bool.not_false, if_true, Except.ok.injEq, Prod.mk.injEq] at hg
        exact Or.inl ⟨rfl, hg.2.symm⟩
      | true =>
        simp only [Bool.not_true, Bool.false_eq_true, if_false] at hg
        cases hm : c.cache_maps[mappos]? with
        | none => simp [hm] at hg
        | some map =>
          simp only [hm] at hg
          cases hf2 : _find_pos h k map.length with
          | error e => simp [hf2] at hg
          | ok nodepos =>
            simp only [hf2] at hg
            cases l2 with
            | false =>
              simp only [Bool.not_false, if_true, Except.ok.injEq, Prod.mk.injEq] at hg
              exact Or.inr (Or.inl ⟨rfl, rfl, mappos, hg.2.symm⟩)
            | true =>
              simp only [Bool.not_true, Bool.false_eq_true, if_false] at hg
              cases hn : map.nodes[nodepos]? with
              | none => simp [hn] at hg
              | some node =>
                simp only [hn] at hg
                cases ht : _traverse_copy_node node now k dst cap with
                | error e => simp [ht] at hg
                | ok found =>
                  simp only [ht, Except.ok.injEq, Prod.mk.injEq] at hg
                  exact Or.inr (Or.inr ⟨rfl, rfl, mappos, nodepos, hg.2.symm⟩)

theorem locks_after_balanced (held : List lock_id) (i j : Nat) :
    locks_after held [.rdlock (.map_lock i), .rdlock (.node_lock i j),
      .unlock (.node_lock i j), .unlock (.map_lock i)] = held := by
  simp [locks_after, lock_step]

theorem locks_after_leak (held : List lock_id) (i : Nat) :
    locks_after held [.rdlock (.map_lock i)] = .map_lock i :: held := rfl

/-- C15, the code at a failing input. On the demo cache the key haha falls
in shard 1. When the shard lock is acquired and the acquisition of the
bucket lock fails, `cache_get`, `cache_get_block` and `cache_set` return
false after the single lock call that took the shard lock: starting with no
lock held, the calling thread still holds the lock of shard 1 after the
return. On the path where both locks are acquired the same call of
`cache_get` releases the bucket lock and then the shard lock and holds
nothing afterwards. -/
theorem shard_lock_leaks_on_bucket_failure :
    cache_get_traced demo_cache haha (some [0]) 1 0 true false
      = .ok ((false, some [0]), [.rdlock (.map_lock 1)]) ∧
    cache_get_block_traced demo_cache haha (some [0]) 1 0 true false
      = .ok ((false, some [0]), [.rdlock (.map_lock 1)]) ∧
    (cache_set_traced demo_cache haha hehe 4 0 true false).map Prod.snd
      = .ok [.rdlock (.map_lock 1)] ∧
    locks_after [] [.rdlock (.map_lock 1)] = [.map_lock 1] ∧
    cache_get_traced demo_cache haha (some [0]) 1 0 true true
      = .ok ((false, some [0]),
          [.rdlock (.map_lock 1), .rdlock (.node_lock 1 1),
           .unlock (.node_lock 1 1), .unlock (.map_lock 1)]) ∧
    locks_after [] [.rdlock (.map_lock 1), .rdlock (.node_lock 1 1),
      .unlock (.node_lock 1 1), .unlock (.map_lock 1)] = [] :=
  ⟨rfl, rfl, rfl, rfl, rfl, by decide⟩

end RapidCache
